import Mathlib

/-!
Verification of the tarsum archive digest engine of this repository
(`Godeps/_workspace/src/github.com/jlhawn/tarsum/tarsumdigest.go` together
with the file-info sorting code).  The Go code is shallowly embedded:
byte slices become `List Nat`, the `Digest` struct becomes a Lean structure,
and the mutually recursive stage handlers (`readHeader`, `readEntry`,
`skipPadding`) become a fuel-driven loop whose single iteration `cycle`
mirrors the chain of handler calls performed by one `Write`.  Components of
the engine that live outside the sources at hand (the vendored resumable
sha256 package, the vendored `archive/tar` reader, Go standard library
`gob`, `sort`, and `strings` helpers) are modelled from the specification;
each such definition carries a doc comment saying so.
-/

/-- Byte strings are lists of naturals; every produced byte is below 256. -/
abbrev Bytes := List Nat

/-- ASCII bytes of a Lean string literal, used for Go string constants. -/
def strB (s : String) : Bytes := s.data.map Char.toNat

/-- Modelled from the spec: 32-bit word modulus used by the sha256 model. -/
def w32 : Nat := 4294967296

/-- Modelled from the spec: right rotation of a 32-bit word. -/
def rotr32 (n x : Nat) : Nat := (x / 2 ^ n + x % 2 ^ n * 2 ^ (32 - n)) % w32

/-- Modelled from the spec: sha256 choice function. -/
def sha256Ch (x y z : Nat) : Nat := x &&& y ^^^ ((x ^^^ 4294967295) &&& z)

/-- Modelled from the spec: sha256 majority function. -/
def sha256Maj (x y z : Nat) : Nat := x &&& y ^^^ (x &&& z) ^^^ (y &&& z)

/-- Modelled from the spec: sha256 big sigma 0. -/
def bSig0 (x : Nat) : Nat := rotr32 2 x ^^^ rotr32 13 x ^^^ rotr32 22 x

/-- Modelled from the spec: sha256 big sigma 1. -/
def bSig1 (x : Nat) : Nat := rotr32 6 x ^^^ rotr32 11 x ^^^ rotr32 25 x

/-- Modelled from the spec: sha256 small sigma 0. -/
def sSig0 (x : Nat) : Nat := rotr32 7 x ^^^ rotr32 18 x ^^^ x / 8

/-- Modelled from the spec: sha256 small sigma 1. -/
def sSig1 (x : Nat) : Nat := rotr32 17 x ^^^ rotr32 19 x ^^^ x / 1024

/-- Modelled from the spec: the 64 sha256 round constants. -/
def sha256K : List Nat :=
  [1116352408, 1899447441, 3049323471, 3921009573, 961987163, 1508970993,
   2453635748, 2870763221, 3624381080, 310598401, 607225278, 1426881987,
   1925078388, 2162078206, 2614888103, 3248222580, 3835390401, 4022224774,
   264347078, 604807628, 770255983, 1249150122, 1555081692, 1996064986,
   2554220882, 2821834349, 2952996808, 3210313671, 3336571891, 3584528711,
   113926993, 338241895, 666307205, 773529912, 1294757372, 1396182291,
   1695183700, 1986661051, 2177026350, 2456956037, 2730485921, 2820302411,
   3259730800, 3345764771, 3516065817, 3600352804, 4094571909, 275423344,
   430227734, 506948616, 659060556, 883997877, 958139571, 1322822218,
   1537002063, 1747873779, 1955562222, 2024104815, 2227730452, 2361852424,
   2428436474, 2756734187, 3204031479, 3329325298]

/-- Modelled from the spec: big-endian 32-bit word from four bytes. -/
def beWord (a b c d : Nat) : Nat := a * 16777216 + b * 65536 + c * 256 + d

/-- Modelled from the spec: group bytes into big-endian 32-bit words. -/
def toWords : Bytes → List Nat
  | a :: b :: c :: d :: rest => beWord a b c d :: toWords rest
  | _ => []

/-- Modelled from the spec: extend 16 message words to 64 schedule words. -/
def extendW : Nat → List Nat → List Nat
  | 0, w => w
  | fuel + 1, w =>
    let n := w.length
    let x := (sSig1 (w.getD (n - 2) 0) + w.getD (n - 7) 0 +
              sSig0 (w.getD (n - 15) 0) + w.getD (n - 16) 0) % w32
    extendW fuel (w ++ [x])

/-- Modelled from the spec: the eight-word sha256 chaining state. -/
structure H8 where
  a : Nat
  b : Nat
  c : Nat
  d : Nat
  e : Nat
  f : Nat
  g : Nat
  h : Nat
deriving DecidableEq

/-- Modelled from the spec: one sha256 round on the chaining state. -/
def sha256Round (st : H8) (kw : Nat × Nat) : H8 :=
  let t1 := (st.h + bSig1 st.e + sha256Ch st.e st.f st.g + kw.1 + kw.2) % w32
  let t2 := (bSig0 st.a + sha256Maj st.a st.b st.c) % w32
  ⟨(t1 + t2) % w32, st.a, st.b, st.c, (st.d + t1) % w32, st.e, st.f, st.g⟩

/-- Modelled from the spec: compress one 64-byte block into the state. -/
def sha256Compress (st : H8) (block : Bytes) : H8 :=
  let w := extendW 48 (toWords block)
  let r := (sha256K.zip w).foldl sha256Round st
  ⟨(st.a + r.a) % w32, (st.b + r.b) % w32, (st.c + r.c) % w32,
   (st.d + r.d) % w32, (st.e + r.e) % w32, (st.f + r.f) % w32,
   (st.g + r.g) % w32, (st.h + r.h) % w32⟩

/-- Modelled from the spec: the sha256 initial chaining state. -/
def sha256Init : H8 :=
  ⟨1779033703, 3144134277, 1013904242, 2773480762,
   1359893119, 2600822924, 528734635, 1541459225⟩

/-- Modelled from the spec: sha256 message padding to a block multiple. -/
def sha256Pad (msg : Bytes) : Bytes :=
  let L := msg.length
  let bits := L * 8 % 2 ^ 64
  msg ++ [128] ++ List.replicate ((119 - L % 64) % 64) 0 ++
    [bits / 2 ^ 56 % 256, bits / 2 ^ 48 % 256, bits / 2 ^ 40 % 256,
     bits / 2 ^ 32 % 256, bits / 2 ^ 24 % 256, bits / 2 ^ 16 % 256,
     bits / 2 ^ 8 % 256, bits % 256]

/-- Modelled from the spec: split a byte string into 64-byte blocks. -/
def chunk64 : Nat → Bytes → List Bytes
  | 0, _ => []
  | _, [] => []
  | fuel + 1, b => b.take 64 :: chunk64 fuel (b.drop 64)

/-- Modelled from the spec: big-endian bytes of one 32-bit word. -/
def wordBytes (x : Nat) : Bytes :=
  [x / 16777216 % 256, x / 65536 % 256, x / 256 % 256, x % 256]

/-- Modelled from the spec: the sha256 hash of a byte string.  The vendored
resumable sha256 package is not among the sources at hand, so the hash is
implemented here directly from the standard; the engine treats it as an
opaque deterministic function. -/
def sha256Bytes (msg : Bytes) : Bytes :=
  let padded := sha256Pad msg
  let st := (chunk64 padded.length padded).foldl sha256Compress sha256Init
  wordBytes st.a ++ wordBytes st.b ++ wordBytes st.c ++ wordBytes st.d ++
    wordBytes st.e ++ wordBytes st.f ++ wordBytes st.g ++ wordBytes st.h

/-- Modelled from the spec: one lowercase hexadecimal digit. -/
def hexDigit (n : Nat) : Nat := if n < 10 then 48 + n else 87 + n

/-- Modelled from the spec: lowercase hex encoding from `encoding/hex`. -/
def hexEncode (b : Bytes) : Bytes :=
  b.flatMap fun x => [hexDigit (x / 16), hexDigit (x % 16)]

/-- Modelled from the spec: the resumable hash primitive, whose state is
exactly the byte string absorbed so far.  Export and import of that state
round-trips by construction, as the spec requires of the primitive. -/
structure Resumable where
  absorbed : Bytes
deriving DecidableEq

/-- Modelled from the spec: incremental update of the resumable hash. -/
def Resumable.write (r : Resumable) (p : Bytes) : Resumable := ⟨r.absorbed ++ p⟩

/-- Modelled from the spec: the digest of everything absorbed so far. -/
def Resumable.sum (r : Resumable) : Bytes := sha256Bytes r.absorbed

/-- Modelled from the spec: decimal digit accumulator with explicit fuel so
that the definition is structural and evaluates in the kernel. -/
def natDecAux : Nat → Nat → Bytes
  | 0, _ => []
  | _, 0 => []
  | fuel + 1, n => natDecAux fuel (n / 10) ++ [48 + n % 10]

/-- Modelled from the spec: decimal ASCII rendering of a natural number,
used for the size value in the canonicalized header field list. -/
def natDec (n : Nat) : Bytes := if n = 0 then [48] else natDecAux n n

/-- Modelled from the spec: fixed-width octal rendering with leading
zeroes, as found in the size field of an archive header block. -/
def octEncAux : Nat → Nat → Bytes
  | 0, _ => []
  | width + 1, n => octEncAux width (n / 8) ++ [48 + n % 8]

/-- Modelled from the spec: the 12-byte size field, 11 octal digits and a
terminating NUL. -/
def octEnc (n : Nat) : Bytes := octEncAux 11 n ++ [0]

/-- One per-entry result of the engine: file name, hex digest and archive
position, mirroring `fileInfoSum` of the source. -/
structure FileInfoSum where
  name : Bytes
  sum : Bytes
  pos : Nat
deriving DecidableEq

/-- Lexicographic byte-string comparison, the order Go uses on strings. -/
def bytesLt : Bytes → Bytes → Bool
  | [], [] => false
  | [], _ :: _ => true
  | _ :: _, [] => false
  | a :: as, b :: bs => if a < b then true else if b < a then false else bytesLt as bs

/-- Whether some name occurs twice in the list; this is exactly when the
`GetDuplicatePaths` helper of the source returns a non-empty list. -/
def hasDupNames : List FileInfoSum → Bool
  | [] => false
  | f :: rest => rest.any (fun g => g.name = f.name) || hasDupNames rest

/-- The `bySum.Less` comparison of the source: with duplicates present,
entries of equal name compare by position, otherwise by digest string. -/
def bySumLess (dups : Bool) (a b : FileInfoSum) : Bool :=
  if dups && a.name = b.name then a.pos < b.pos else bytesLt a.sum b.sum

/-- Modelled from the spec: one bubbling pass of the comparison sort the Go
standard library runs (its `insertionSort`, which `sort.Sort` applies whole
to every slice shorter than twelve elements): the new element swaps past
each left neighbour it compares `Less` than and stops at the first it does
not.  The accumulator keeps the sorted prefix in reversed order, so the
head is the rightmost element. -/
def bubble (c : FileInfoSum → FileInfoSum → Bool) (e : FileInfoSum) :
    List FileInfoSum → List FileInfoSum
  | [] => [e]
  | x :: xs => if c e x then x :: bubble c e xs else e :: x :: xs

/-- Modelled from the spec: the left-to-right insertion sort of the Go
standard library, as a fold of the bubbling pass over the input. -/
def goSort (c : FileInfoSum → FileInfoSum → Bool) (l : List FileInfoSum) :
    List FileInfoSum :=
  (l.foldl (fun acc e => bubble c e acc) []).reverse

/-- Modelled from the spec: `SortBySums` sorts the completed entries by
ascending digest, breaking ties between equal names by ascending position,
running the Go standard library in-place comparison sort with the
`bySum.Less` comparison of the source. -/
def sortBySums (l : List FileInfoSum) : List FileInfoSum :=
  goSort (fun a b => bySumLess (hasDupNames l) a b) l

/-- The fixed archive block size of the engine. -/
def blockSize : Nat := 512

/-- The `computeBlockPadding` function of the source: the bitwise
expression `int(-size & (blockSize - 1))` on a 64-bit two-complement
integer, written over naturals: negation of `size` modulo `2 ^ 64`
followed by the bitwise and with `blockSize - 1`. -/
def computeBlockPadding (size : Nat) : Nat :=
  (2 ^ 64 - size % 2 ^ 64) % 2 ^ 64 &&& (blockSize - 1)

/-- An all-zero archive block. -/
def zeroBlock : Bytes := List.replicate blockSize 0

/-- Modelled from the spec: the decoded fields of one entry header that
the engine consumes (name, declared size, type flag). -/
structure TarHeader where
  name : Bytes
  size : Nat
  typeflag : Nat
deriving DecidableEq

/-- Modelled from the spec: octal parsing of a header numeric field;
leading spaces are skipped, the digit run ends at a NUL or space, and any
non-octal digit makes the field malformed. -/
def parseOctal (field : Bytes) : Option Nat :=
  let ds := (field.dropWhile (fun b => b = 32)).takeWhile fun b => b ≠ 0 && b ≠ 32
  if ds.all (fun b => 48 ≤ b && b ≤ 55) then
    some (ds.foldl (fun a d => a * 8 + (d - 48)) 0)
  else none

/-- Modelled from the spec: decode one 512-byte header block.  The name is
the NUL-terminated run in the first 100 bytes, the size is the octal field
at offset 124, the type flag is the byte at offset 156. -/
def parseHeader (block : Bytes) : Option TarHeader :=
  match parseOctal ((block.drop 124).take 12) with
  | none => none
  | some size => some ⟨(block.take 100).takeWhile (fun b => b ≠ 0), size, block.getD 156 0⟩

/-- Modelled from the spec: the outcome of asking the nested archive
parser for the next entry header. -/
inductive NextResult where
  | endOfArchive
  | needMore
  | headerErr
  | ok (hdr : TarHeader) (rest : Bytes)
deriving DecidableEq

/-- Modelled from the spec: the `tar.Reader.Next` step.  Reading the
two-zero-block terminator reports end of archive; a zero block followed by
a non-zero block, or an undecodable header, is a header error; fewer bytes
than a block cannot be decoded yet. -/
def tarNext (buf : Bytes) : NextResult :=
  if buf.length < blockSize then .needMore
  else if buf.take blockSize = zeroBlock then
    if buf.length < 2 * blockSize then .needMore
    else if (buf.drop blockSize).take blockSize = zeroBlock then .endOfArchive
    else .headerErr
  else
    match parseHeader (buf.take blockSize) with
    | some hdr => .ok hdr (buf.drop blockSize)
    | none => .headerErr

/-- Modelled from the spec: the remaining-byte counter of the nested
archive parser attached to the current entry. -/
structure TarReader where
  numBytes : Nat
deriving DecidableEq

/-- Errors the engine can record or return. -/
inductive GoErr where
  | errHeader
  | unknownStage (s : Bytes)
  | decodeErr
deriving DecidableEq

/-- Go strings that name the digest stages in the source. -/
def stageReadHeader : Bytes := strB "readHeader"

/-- The stage string for reading an entry body. -/
def stageReadEntry : Bytes := strB "readEntry"

/-- The stage string for discarding block padding. -/
def stageSkipPadding : Bytes := strB "skipPadding"

/-- The stage string of a terminated session. -/
def stageFinished : Bytes := strB "finished"

/-- The `Digest` session state of the source, field for field.  `version`
and `headerSelector` are the policy version and the selector chosen from
it at construction; the selector is never touched by `Restore`, exactly as
in the source.  Buffers are byte lists, the nested parser is its
remaining-byte counter, and the entry hash is the resumable primitive. -/
structure Digest where
  version : Nat
  headerSelector : Nat
  digestStage : Bytes
  headerBuffer : Bytes
  tarReader : TarReader
  entryHash : Resumable
  sums : List FileInfoSum
  fileCounter : Nat
  bytesWritten : Nat
  currentFilename : Bytes
  pad : Nat
  err : Option GoErr
  currentBuffer : Bytes
deriving DecidableEq

/-- Modelled from the spec: the versioned header canonicalizer.  Version 0
selects the entry name and size; version 1 additionally selects the type
flag.  Fields are emitted as name-value string pairs in a fixed order. -/
def selectHeaders (v : Nat) (h : TarHeader) : List (Bytes × Bytes) :=
  [(strB "name", h.name), (strB "size", natDec h.size)] ++
    (if v = 1 then [(strB "typeflag", [h.typeflag])] else [])

/-- The concatenated field-name and field-value bytes that `encodeHeader`
feeds to the entry hash, with no delimiters. -/
def selBytes (v : Nat) (h : TarHeader) : Bytes :=
  (selectHeaders v h).flatMap fun e => e.1 ++ e.2

/-- Modelled from the spec: `getTarHeaderSelector` accepts exactly the
supported policy versions 0 and 1. -/
def getTarHeaderSelector (v : Nat) : Option Nat :=
  if v ≤ 1 then some v else none

/-- The session state produced by `Reset` for a given version. -/
def initDigest (v : Nat) : Digest :=
  ⟨v, v, stageReadHeader, [], ⟨0⟩, ⟨[]⟩, [], 0, 0, [], 0, none, []⟩

/-- The `NewDigest` constructor: fails on an unsupported version,
otherwise returns a reset session bound to that version. -/
def newDigest (v : Nat) : Option Digest :=
  match getTarHeaderSelector v with
  | none => none
  | some _ => some (initDigest v)

/-- Strip one occurrence of `./` from the front, as Go `strings.TrimPrefix`
does (the Go helpers are standard library, modelled from their contract). -/
def goTrimLead (s pre : Bytes) : Bytes :=
  if pre.isPrefixOf s then s.drop pre.length else s

/-- Strip one occurrence of the suffix, as Go `strings.TrimSuffix` does. -/
def goTrimTrail (s suf : Bytes) : Bytes :=
  if suf.isSuffixOf s then s.take (s.length - suf.length) else s

/-- The name normalization applied on header decode in the source:
`strings.TrimSuffix(strings.TrimPrefix(name, "./"), "/")`. -/
def cleanName (s : Bytes) : Bytes := goTrimTrail (goTrimLead s (strB "./")) (strB "/")

/-- Entry finalization performed at the end of `skipPadding`: append the
entry result, reset the entry hash, advance the counter, move leftover
bytes from the current buffer to the header buffer, return to the
header-reading stage. -/
def finalizeEntry (d : Digest) : Digest :=
  { d with
    sums := d.sums ++ [(⟨d.currentFilename, hexEncode d.entryHash.sum, d.fileCounter⟩ : FileInfoSum)],
    entryHash := ⟨[]⟩,
    fileCounter := d.fileCounter + 1,
    headerBuffer := d.currentBuffer,
    currentBuffer := [],
    digestStage := stageReadHeader }

/-- The `skipPadding` handler: discard up to `pad` buffered bytes; if
padding remains, wait for more writes, otherwise finalize the entry and
signal that the loop should continue with the next header. -/
def padPhase (d : Digest) : Digest × Bool :=
  let c := min d.pad d.currentBuffer.length
  let e := { d with currentBuffer := d.currentBuffer.drop c, pad := d.pad - c }
  if 0 < e.pad then (e, false) else (finalizeEntry e, true)

/-- The `readEntry` handler: with an empty buffer wait for more writes;
otherwise feed the buffered bytes of the current entry into the entry
hash.  If the entry is incomplete wait, otherwise move to padding. -/
def entryPhase (d : Digest) : Digest × Bool :=
  if d.currentBuffer.length = 0 then (d, false)
  else
    let m := min d.tarReader.numBytes d.currentBuffer.length
    let e := { d with
      entryHash := d.entryHash.write (d.currentBuffer.take m),
      currentBuffer := d.currentBuffer.drop m,
      tarReader := ⟨d.tarReader.numBytes - m⟩ }
    if 0 < e.tarReader.numBytes then (e, false)
    else padPhase { e with digestStage := stageSkipPadding }

/-- The `readHeader` handler: wait until two blocks are buffered, then ask
the nested parser for the next header.  The two-zero-block terminator
finishes the session, a header error is fatal, and a decoded header starts
the next entry, whose body is processed immediately. -/
def headerPhase (d : Digest) : Digest × Bool :=
  if d.headerBuffer.length < 2 * blockSize then (d, false)
  else
    match tarNext d.headerBuffer with
    | .endOfArchive =>
      ({ d with digestStage := stageFinished,
                currentBuffer := d.headerBuffer.drop (2 * blockSize),
                tarReader := ⟨0⟩ }, false)
    | .needMore => (d, false)
    | .headerErr =>
      ({ d with err := some .errHeader, digestStage := stageFinished,
                currentBuffer := d.headerBuffer.drop blockSize,
                tarReader := ⟨0⟩ }, false)
    | .ok hdr rest =>
      entryPhase { d with
        currentFilename := cleanName hdr.name,
        entryHash := d.entryHash.write (selBytes d.headerSelector hdr),
        pad := computeBlockPadding hdr.size,
        tarReader := ⟨hdr.size⟩,
        currentBuffer := rest,
        digestStage := stageReadEntry }

/-- One pass of the handler chain for the current stage; the flag asks the
driving loop to run the header stage again after a finalized entry. -/
def cycle (d : Digest) : Digest × Bool :=
  if d.digestStage = stageReadHeader then headerPhase d
  else if d.digestStage = stageReadEntry then entryPhase d
  else if d.digestStage = stageSkipPadding then padPhase d
  else (d, false)

/-- The fuel-driven handler loop; with adequate fuel this reproduces the
mutual recursion of the source handlers. -/
def runFrom : Nat → Digest → Digest
  | 0, d => d
  | fuel + 1, d =>
    match cycle d with
    | (e, true) => runFrom fuel e
    | (e, false) => e

/-- The buffer bytes a write appends for the current stage, plus the byte
counter update `bytesWritten += int64(n)` taken modulo `2 ^ 64`. -/
def appendBytes (d : Digest) (p : Bytes) : Digest :=
  if d.digestStage = stageReadHeader then
    { d with headerBuffer := d.headerBuffer ++ p,
             bytesWritten := (d.bytesWritten + p.length) % 2 ^ 64 }
  else
    { d with currentBuffer := d.currentBuffer ++ p,
             bytesWritten := (d.bytesWritten + p.length) % 2 ^ 64 }

/-- The `Write` method: a finished session returns immediately with its
stored error; an unknown stage is fatal; otherwise the bytes are appended
to the stage buffer, counted, and the handler chain runs.  The returned
triple is the new session, the accepted byte count, and the error. -/
def Digest.write (d : Digest) (p : Bytes) : Digest × Nat × Option GoErr :=
  if d.digestStage = stageFinished then (d, p.length, d.err)
  else if d.digestStage = stageReadHeader ∨ d.digestStage = stageReadEntry ∨
          d.digestStage = stageSkipPadding then
    let e := appendBytes d p
    let e := runFrom (e.headerBuffer.length + e.currentBuffer.length + 2) e
    (e, p.length, e.err)
  else
    ({ d with err := some (.unknownStage d.digestStage), digestStage := stageFinished },
      p.length, some (.unknownStage d.digestStage))

/-- The state component of a write. -/
def write1 (d : Digest) (p : Bytes) : Digest := (d.write p).1

/-- Fold a sequence of writes over a session. -/
def writeAll (d : Digest) (ps : List Bytes) : Digest := ps.foldl write1 d

/-- The `Len` method: the byte counter of the session. -/
def Digest.len (d : Digest) : Nat := d.bytesWritten

/-- The `Finished` method. -/
def Digest.finished (d : Digest) : Bool := d.digestStage = stageFinished

/-- The byte string fed to the top-level hash by `Sum` after the optional
extra bytes: the sorted digest strings of the completed entries. -/
def topInput (d : Digest) : Bytes := (sortBySums d.sums).flatMap fun f => f.sum

/-- The `Sum` method: hash the optional extra bytes followed by the sorted
per-entry digest strings.  A nil slice and an empty slice feed the hash
identically, so the optional argument carries no further distinction. -/
def Digest.sumBytes (d : Digest) (extra : Option Bytes) : Bytes :=
  sha256Bytes ((match extra with | none => [] | some e => e) ++ topInput d)

/-- Modelled from the spec: one value in the checkpoint blob.  The Go
implementation serializes through `encoding/gob`, which tags every value
with its kind; decoding into a target of a different kind fails.  The
codec is modelled at that granularity: a blob is a list of kind-tagged
values, and each decode step checks the kind. -/
inductive GobVal where
  | vnat (n : Nat)
  | vstr (s : Bytes)
  | vbool (b : Bool)
  | vbytes (b : Bytes)
deriving DecidableEq

/-- Modelled from the spec: the serialized continuation state of the
nested archive parser, an opaque byte blob recording the remaining byte
count of the current entry. -/
def tarStateBytes (n : Nat) : Bytes := List.replicate n 1

/-- The serialized entry results appended at the end of a checkpoint:
name, digest and position of each completed entry, in sorted order. -/
def sumsVals (l : List FileInfoSum) : List GobVal :=
  l.flatMap fun f => [.vstr f.name, .vstr f.sum, .vnat f.pos]

/-- The `State` method: fails on a session with a recorded error;
otherwise serializes version, algorithm name, finished flag, byte count
and entry counter, then (for an unfinished session) stage, current name,
pending padding, header-buffer bytes, the nested parser state and the
entry hash state, and finally the sorted completed entries.  The in-place
sort the source performs on the session is reflected in the sorted
output. -/
def Digest.state (d : Digest) : Option (List GobVal) :=
  if d.err ≠ none then none
  else
    some
      ([.vnat d.version, .vstr (strB "sha256"), .vbool d.finished,
        .vnat d.bytesWritten, .vnat d.fileCounter] ++
       (if d.finished then [] else
        [.vstr d.digestStage, .vstr d.currentFilename, .vnat d.pad,
         .vbytes d.headerBuffer, .vbool true,
         .vbytes (tarStateBytes d.tarReader.numBytes),
         .vbytes d.entryHash.absorbed]) ++
       [.vnat (sortBySums d.sums).length] ++ sumsVals (sortBySums d.sums))

/-- The decoding loop over serialized entry results: each iteration
decodes a name, a digest and a position and appends the entry; a kind
mismatch stops with an error, keeping the entries decoded so far. -/
def restoreSums (d : Digest) : Nat → List GobVal → Digest × Option GoErr
  | 0, _ => (d, none)
  | n + 1, .vstr nm :: .vstr sm :: .vnat ps :: rest =>
    restoreSums { d with sums := d.sums ++ [⟨nm, sm, ps⟩] } n rest
  | _ + 1, _ => (d, some .decodeErr)

/-- The trailing part of `Restore`: decode the entry count, clear the
entry list, then run the decoding loop. -/
def restoreTail (d : Digest) : List GobVal → Digest × Option GoErr
  | .vnat lenSums :: rest => restoreSums { d with sums := [] } lenSums rest
  | _ => (d, some .decodeErr)

/-- The unfinished-session part of `Restore`: decode stage, current file
name, pending padding and header-buffer bytes (appended to the buffer, as
`bytes.Buffer.Write` does), reset the nested parser, decode its state if
present, then the entry hash state. -/
def restoreUnfinished (d : Digest) : List GobVal → Digest × Option GoErr
  | .vstr st :: .vstr fn :: .vnat pd :: .vbytes hb :: .vbool dtr :: rest =>
    let d := { d with digestStage := st, currentFilename := fn, pad := pd,
                      headerBuffer := d.headerBuffer ++ hb, tarReader := ⟨0⟩ }
    if dtr then
      match rest with
      | .vbytes ts :: .vbytes hs :: rest =>
        restoreTail { d with tarReader := ⟨ts.length⟩, entryHash := ⟨hs⟩ } rest
      | _ =>
        match rest with
        | .vbytes ts :: _ => ({ d with tarReader := ⟨ts.length⟩ }, some .decodeErr)
        | _ => (d, some .decodeErr)
    else
      match rest with
      | .vbytes hs :: rest => restoreTail { d with entryHash := ⟨hs⟩ } rest
      | _ => (d, some .decodeErr)
  | .vstr st :: .vstr fn :: .vnat pd :: .vbytes hb :: _ =>
    ({ d with digestStage := st, currentFilename := fn, pad := pd,
              headerBuffer := d.headerBuffer ++ hb }, some .decodeErr)
  | .vstr st :: .vstr fn :: .vnat pd :: _ =>
    ({ d with digestStage := st, currentFilename := fn, pad := pd }, some .decodeErr)
  | .vstr st :: .vstr fn :: _ =>
    ({ d with digestStage := st, currentFilename := fn }, some .decodeErr)
  | .vstr st :: _ => ({ d with digestStage := st }, some .decodeErr)
  | _ => (d, some .decodeErr)

/-- The `Restore` method: decode directly into the session fields in the
order `State` wrote them, stopping at the first kind mismatch.  Fields
decoded before a failure keep their decoded values, exactly as in the
source, which decodes into the live struct. -/
def Digest.restore (d : Digest) : List GobVal → Digest × Option GoErr
  | .vnat ver :: .vstr _ :: .vbool fin :: .vnat bw :: .vnat fc :: rest =>
    let d := { d with version := ver, bytesWritten := bw, fileCounter := fc }
    if fin then restoreTail { d with digestStage := stageFinished } rest
    else restoreUnfinished d rest
  | .vnat ver :: .vstr _ :: .vbool _ :: .vnat bw :: _ =>
    ({ d with version := ver, bytesWritten := bw }, some .decodeErr)
  | .vnat ver :: .vstr _ :: .vbool _ :: _ =>
    ({ d with version := ver }, some .decodeErr)
  | .vnat ver :: .vstr _ :: _ => ({ d with version := ver }, some .decodeErr)
  | .vnat ver :: _ => ({ d with version := ver }, some .decodeErr)
  | _ => (d, some .decodeErr)

/-- A 512-byte header block for a regular file: NUL-padded name in the
first 100 bytes, zeroed numeric fields, the octal size field at offset
124, type flag ASCII zero at offset 156, zero padding to the block end. -/
def mkHeaderBlock (name : Bytes) (size : Nat) : Bytes :=
  name ++ List.replicate (100 - name.length) 0 ++ List.replicate 24 0 ++
    octEnc size ++ List.replicate 20 0 ++ [48] ++ List.replicate 355 0

/-- The byte stream of one archive entry: header block, body, and zero
padding to the next block boundary. -/
def entryBytes (name body : Bytes) : Bytes :=
  mkHeaderBlock name body.length ++ body ++
    List.replicate (computeBlockPadding body.length) 0

/-- The two-zero-block archive terminator. -/
def termBytes : Bytes := List.replicate (2 * blockSize) 0

/-- A full archive stream over a list of named entries. -/
def archiveBytes (entries : List (Bytes × Bytes)) : Bytes :=
  (entries.flatMap fun e => entryBytes e.1 e.2) ++ termBytes

/-- The entry digest string the engine records for a regular-file entry of
the given name and body under the given selector. -/
def entrySum (sel : Nat) (name body : Bytes) : Bytes :=
  hexEncode (sha256Bytes (selBytes sel ⟨name, body.length, 48⟩ ++ body))

/-- Wellformedness of a constructed entry: the name fits the 100-byte
field without NUL bytes and the size fits eleven octal digits. -/
def WfEntry (name body : Bytes) : Prop :=
  name.length ≤ 100 ∧ ¬ 0 ∈ name ∧ body.length < 8 ^ 11

/-- The loop measure of the handler chain: the bytes the current stage can
still consume.  Every finalized entry strictly decreases it. -/
def boundM (d : Digest) : Nat :=
  if d.digestStage = stageReadHeader then d.headerBuffer.length
  else d.currentBuffer.length + 1

/-- The states a session can be in between writes: the byte counter fits
the word, the stage is one of the four stages, waiting stages have an
empty current buffer, a waiting header stage has fewer than two blocks
buffered, and a waiting padding stage has padding left to discard. -/
def GoodSt (d : Digest) : Prop :=
  d.bytesWritten < 2 ^ 64 ∧
    (d.digestStage = stageReadHeader ∧ d.currentBuffer = [] ∧
        d.headerBuffer.length < 2 * blockSize ∨
      d.digestStage = stageReadEntry ∧ d.currentBuffer = [] ∨
      d.digestStage = stageSkipPadding ∧ d.currentBuffer = [] ∧ 0 < d.pad ∨
      d.digestStage = stageFinished)

/-- Observable equivalence of sessions: the completed entries agree, the
finished flags agree, and sessions that are not finished are equal.  The
final digest of any continuation only depends on this. -/
def obsEq (x y : Digest) : Prop :=
  x.sums = y.sums ∧ (x.digestStage = stageFinished ↔ y.digestStage = stageFinished) ∧
    (x.digestStage ≠ stageFinished → x = y)

/-- The byte count the amended length invariant predicts: the summed
lengths of exactly those writes issued while the session had not yet
finished. -/
def preFinLen (d : Digest) : List Bytes → Nat
  | [] => 0
  | p :: ps =>
    (if d.digestStage = stageFinished then 0 else p.length) + preFinLen (write1 d p) ps

/-- The four stage strings a session can carry between writes. -/
def stageKnown (d : Digest) : Prop :=
  d.digestStage = stageReadHeader ∨ d.digestStage = stageReadEntry ∨
    d.digestStage = stageSkipPadding ∨ d.digestStage = stageFinished

/-- The entry result the engine records for one constructed entry. -/
def entryResult (sel : Nat) (name body : Bytes) (posn : Nat) : FileInfoSum :=
  ⟨cleanName name, entrySum sel name body, posn⟩

/-- The entry results of a list of constructed entries, positions counting
up from the given entry counter. -/
def archResults (sel : Nat) : List (Bytes × Bytes) → Nat → List FileInfoSum
  | [], _ => []
  | e :: es, fc => entryResult sel e.1 e.2 fc :: archResults sel es (fc + 1)

/-- The session state after consuming a sequence of whole entries from an
entry boundary: results appended, counters advanced, and the per-entry
scratch fields left as the last entry set them.  The buffers are not
touched here; the run lemmas state them explicitly. -/
def afterEntries (d : Digest) : List (Bytes × Bytes) → Digest
  | [] => d
  | e :: es =>
    afterEntries
      { d with
        sums := d.sums ++ [entryResult d.headerSelector e.1 e.2 d.fileCounter],
        fileCounter := d.fileCounter + 1,
        currentFilename := cleanName e.1,
        entryHash := ⟨[]⟩,
        tarReader := ⟨0⟩,
        pad := 0,
        digestStage := stageReadHeader } es

/-- No two completed entries share a name. -/
def namesDistinct (l : List FileInfoSum) : Prop :=
  l.Pairwise fun a b => a.name ≠ b.name

/-! Basic facts about the stage strings and preserved session fields. -/

theorem stage_rh_ne_fin : stageReadHeader ≠ stageFinished := by decide

theorem stage_re_ne_fin : stageReadEntry ≠ stageFinished := by decide

theorem stage_sp_ne_fin : stageSkipPadding ≠ stageFinished := by decide

theorem stage_rh_ne_re : stageReadHeader ≠ stageReadEntry := by decide

theorem stage_rh_ne_sp : stageReadHeader ≠ stageSkipPadding := by decide

theorem stage_re_ne_sp : stageReadEntry ≠ stageSkipPadding := by decide

theorem padPhase_bw (d : Digest) : (padPhase d).1.bytesWritten = d.bytesWritten := by
  simp only [padPhase, finalizeEntry]
  split <;> rfl

theorem entryPhase_bw (d : Digest) : (entryPhase d).1.bytesWritten = d.bytesWritten := by
  simp only [entryPhase]
  split
  · rfl
  · split
    · rfl
    · exact padPhase_bw _

theorem headerPhase_bw (d : Digest) : (headerPhase d).1.bytesWritten = d.bytesWritten := by
  simp only [headerPhase]
  split
  · rfl
  · split
    · rfl
    · rfl
    · rfl
    · exact entryPhase_bw _

theorem cycle_bw (d : Digest) : (cycle d).1.bytesWritten = d.bytesWritten := by
  simp only [cycle]
  split
  · exact headerPhase_bw d
  · split
    · exact entryPhase_bw d
    · split
      · exact padPhase_bw d
      · rfl

theorem runFrom_bw (f : Nat) (d : Digest) : (runFrom f d).bytesWritten = d.bytesWritten := by
  induction f generalizing d with
  | zero => rfl
  | succ f ih =>
    show (runFrom (f + 1) d).bytesWritten = d.bytesWritten
    unfold runFrom
    have hbw := cycle_bw d
    rcases hc : cycle d with ⟨e, b⟩
    rw [hc] at hbw
    cases b
    · simpa [hc] using hbw
    · simp only [hc]
      rw [ih e]
      exact hbw

/-! Claim C9: the padding computation. -/

/-- The padding expression computed on the two's complement encoding equals
the mathematical remainder and stays below one block. -/
theorem blockPadding_range (s : Nat) :
    computeBlockPadding s = (blockSize - s % blockSize) % blockSize ∧
      computeBlockPadding s < blockSize := by
  have hand := Nat.and_pow_two_sub_one_eq_mod ((2 ^ 64 - s % 2 ^ 64) % 2 ^ 64) 9
  have h2 : (2 : Nat) ^ 9 = 512 := by norm_num
  unfold computeBlockPadding blockSize
  rw [h2] at hand
  constructor
  · rw [show (512 : Nat) - 1 = 512 - 1 from rfl] at hand
    rw [hand]
    omega
  · rw [hand]
    omega

/-- Claim C9: for every non-negative declared entry size, the bitwise
padding expression of the source equals `(blockSize - s % blockSize) %
blockSize`, the mathematical `(-s) mod 512`, and always lies between 0 and
511 inclusive. -/
theorem C9_block_padding (s : Nat) :
    computeBlockPadding s = (blockSize - s % blockSize) % blockSize ∧
      computeBlockPadding s < blockSize :=
  blockPadding_range s

/-! Claim C10: totality and state-independence of `Sum`. -/

/-- Claim C10: `Sum` is a total function of the session that consults
nothing but the completed-entry list: it returns the top-level hash of the
optional extra bytes followed by the sorted entry digest strings, and any
two sessions with the same completed entries, whatever their stage or
recorded error, give the same result.  In particular it never checks the
finished-without-error status. -/
theorem C10_sum_ignores_state (x y : Digest) (extra : Option Bytes)
    (h : x.sums = y.sums) :
    x.sumBytes extra =
        sha256Bytes ((match extra with | none => [] | some e => e) ++ topInput x) ∧
      x.sumBytes extra = y.sumBytes extra := by
  refine ⟨rfl, ?_⟩
  unfold Digest.sumBytes topInput
  rw [h]

/-- Witness for claim C10: a fresh session and an error-terminated session
with the same (empty) entry list have equal sums. -/
theorem C10_witness :
    (initDigest 0).sums =
        ({ initDigest 0 with digestStage := stageFinished, err := some .errHeader } :
          Digest).sums ∧
      (initDigest 0).sumBytes none =
        ({ initDigest 0 with digestStage := stageFinished, err := some .errHeader } :
          Digest).sumBytes none :=
  ⟨rfl, (C10_sum_ignores_state _ _ none rfl).2⟩

/-! Claim C3: `Restore` failure behavior. -/

/-- Claim C3 counterexample: restoring the two-value blob `[nat 0, nat 0]`
into a fresh version-1 session fails, yet the session's version field has
been overwritten, so a failing `Restore` does mutate the target. -/
theorem C3_counterexample :
    ((initDigest 1).restore [GobVal.vnat 0, GobVal.vnat 0]).2 = some GoErr.decodeErr ∧
      ((initDigest 1).restore [GobVal.vnat 0, GobVal.vnat 0]).1.version ≠
        (initDigest 1).version := by decide

/-- Claim C3 (amended): `Restore` reports an error on malformed input but
may leave the target partially mutated, keeping the fields decoded before
the failure; the target is guaranteed unmodified only when the very first
decode fails, as it does whenever the blob does not begin with an integer
value. -/
theorem C3_restore_first_failure (d : Digest) (vals : List GobVal)
    (h : ∀ n rest, vals ≠ GobVal.vnat n :: rest) :
    d.restore vals = (d, some GoErr.decodeErr) := by
  match vals with
  | [] => rfl
  | .vnat n :: rest => exact absurd rfl (h n rest)
  | .vstr _ :: _ => rfl
  | .vbool _ :: _ => rfl
  | .vbytes _ :: _ => rfl

/-- Witness for the amended claim C3: the empty blob fails on the first
decode and leaves the fresh session untouched. -/
theorem C3_witness :
    (∀ n rest, ([] : List GobVal) ≠ GobVal.vnat n :: rest) ∧
      (initDigest 0).restore [] = (initDigest 0, some GoErr.decodeErr) :=
  ⟨fun _ _ h => List.noConfusion h,
    C3_restore_first_failure _ _ fun _ _ h => List.noConfusion h⟩

/-! Claim C4: writes to a finished session. -/

set_option maxRecDepth 40000 in
/-- Claim C4 counterexample: a session terminated by a malformed archive
is in the Finished stage, and a further write, while a state no-op,
returns the stored terminal error rather than the nil error the claim
demands. -/
theorem C4_counterexample :
    (write1 (initDigest 0) (List.replicate 512 0 ++ List.replicate 512 1)).digestStage =
        stageFinished ∧
      ((write1 (initDigest 0) (List.replicate 512 0 ++ List.replicate 512 1)).write
          [0]).2.2 = some GoErr.errHeader := by decide

/-- Claim C4 (amended): a write to a session in the Finished stage is a
complete no-op on the session state and reports the full slice length as
accepted, but it returns the session's stored terminal error, which is nil
exactly when the session finished without error. -/
theorem C4_write_after_finished (d : Digest) (p : Bytes)
    (h : d.digestStage = stageFinished) :
    d.write p = (d, p.length, d.err) := by
  unfold Digest.write
  rw [if_pos h]

/-- Witness for the amended claim C4 at a concrete finished session. -/
theorem C4_witness :
    ({ initDigest 0 with digestStage := stageFinished } : Digest).digestStage =
        stageFinished ∧
      ({ initDigest 0 with digestStage := stageFinished } : Digest).write [0] =
        ({ initDigest 0 with digestStage := stageFinished }, 1,
          ({ initDigest 0 with digestStage := stageFinished } : Digest).err) :=
  ⟨rfl, C4_write_after_finished _ [0] rfl⟩

/-! Claim C5: the byte counter. -/

set_option maxRecDepth 40000 in
/-- Claim C5 counterexample: after the empty-archive terminator finishes
the session, one further one-byte write is not counted, so `Len` does not
equal the sum of the lengths of all slices ever passed. -/
theorem C5_counterexample :
    (write1 (write1 (initDigest 0) (List.replicate 1024 0)) [0]).len ≠
      (List.replicate 1024 (0 : Nat)).length + [(0 : Nat)].length := by decide

theorem padPhase_stage (d : Digest) :
    (padPhase d).1.digestStage = d.digestStage ∨
      (padPhase d).1.digestStage = stageReadHeader := by
  simp only [padPhase, finalizeEntry]
  split
  · exact Or.inl rfl
  · exact Or.inr rfl

theorem entryPhase_stage (d : Digest) :
    (entryPhase d).1.digestStage = d.digestStage ∨
      (entryPhase d).1.digestStage = stageSkipPadding ∨
      (entryPhase d).1.digestStage = stageReadHeader := by
  simp only [entryPhase]
  split
  · exact Or.inl rfl
  · split
    · exact Or.inl rfl
    · rcases padPhase_stage
        { d with
          digestStage := stageSkipPadding,
          entryHash := d.entryHash.write (d.currentBuffer.take
            (min d.tarReader.numBytes d.currentBuffer.length)),
          currentBuffer := d.currentBuffer.drop
            (min d.tarReader.numBytes d.currentBuffer.length),
          tarReader := ⟨d.tarReader.numBytes -
            min d.tarReader.numBytes d.currentBuffer.length⟩ } with h | h
      · exact Or.inr (Or.inl h)
      · exact Or.inr (Or.inr h)

theorem headerPhase_stage (d : Digest) :
    (headerPhase d).1.digestStage = d.digestStage ∨
      (headerPhase d).1.digestStage = stageFinished ∨
      (headerPhase d).1.digestStage = stageReadEntry ∨
      (headerPhase d).1.digestStage = stageSkipPadding ∨
      (headerPhase d).1.digestStage = stageReadHeader := by
  simp only [headerPhase]
  split
  · exact Or.inl rfl
  · split
    · exact Or.inr (Or.inl rfl)
    · exact Or.inl rfl
    · exact Or.inr (Or.inl rfl)
    · rcases entryPhase_stage _ with h | h | h
      · rw [h]
        exact Or.inr (Or.inr (Or.inl rfl))
      · exact Or.inr (Or.inr (Or.inr (Or.inl h)))
      · exact Or.inr (Or.inr (Or.inr (Or.inr h)))

theorem cycle_stageKnown (d : Digest) (h : stageKnown d) : stageKnown (cycle d).1 := by
  unfold stageKnown at h ⊢
  unfold cycle
  split
  · rcases headerPhase_stage d with hs | hs | hs | hs | hs <;> rw [hs] <;> tauto
  · split
    · rcases entryPhase_stage d with hs | hs | hs <;> rw [hs] <;> tauto
    · split
      · rcases padPhase_stage d with hs | hs <;> rw [hs] <;> tauto
      · exact h

theorem runFrom_stageKnown (f : Nat) (d : Digest) (h : stageKnown d) :
    stageKnown (runFrom f d) := by
  induction f generalizing d with
  | zero => exact h
  | succ f ih =>
    have hc := cycle_stageKnown d h
    show stageKnown (runFrom (f + 1) d)
    unfold runFrom
    rcases hcy : cycle d with ⟨e, b⟩
    rw [hcy] at hc
    cases b
    · exact hc
    · exact ih e hc

theorem write1_stageKnown (d : Digest) (p : Bytes) (h : stageKnown d) :
    stageKnown (write1 d p) := by
  unfold write1 Digest.write
  split
  · exact h
  · split
    · exact runFrom_stageKnown _ _ (by
        unfold stageKnown appendBytes
        split <;> simp_all [stageKnown])
    · exact Or.inr (Or.inr (Or.inr rfl))

theorem write1_finished (d : Digest) (p : Bytes) (h : d.digestStage = stageFinished) :
    write1 d p = d := by
  unfold write1 Digest.write
  rw [if_pos h]

theorem write1_bw (d : Digest) (p : Bytes) (hk : stageKnown d)
    (h : d.digestStage ≠ stageFinished) :
    (write1 d p).bytesWritten = (d.bytesWritten + p.length) % 2 ^ 64 := by
  unfold write1 Digest.write
  rw [if_neg h]
  rcases hk with hs | hs | hs | hs
  · rw [if_pos (Or.inl hs)]
    rw [runFrom_bw]
    unfold appendBytes
    split <;> rfl
  · rw [if_pos (Or.inr (Or.inl hs))]
    rw [runFrom_bw]
    unfold appendBytes
    split <;> rfl
  · rw [if_pos (Or.inr (Or.inr hs))]
    rw [runFrom_bw]
    unfold appendBytes
    split <;> rfl
  · exact absurd hs h

theorem writeAll_len (ps : List Bytes) (d : Digest) (hk : stageKnown d)
    (hbw : d.bytesWritten < 2 ^ 64) :
    (writeAll d ps).bytesWritten = (d.bytesWritten + preFinLen d ps) % 2 ^ 64 := by
  induction ps generalizing d with
  | nil =>
    show d.bytesWritten = _
    simp only [preFinLen, Nat.add_zero]
    omega
  | cons p ps ih =>
    show (writeAll (write1 d p) ps).bytesWritten = _
    by_cases hfin : d.digestStage = stageFinished
    · rw [write1_finished d p hfin]
      rw [ih d hk hbw]
      simp [preFinLen, write1_finished d p hfin, hfin]
    · have hb := write1_bw d p hk hfin
      have hlt : (write1 d p).bytesWritten < 2 ^ 64 := by
        rw [hb]; exact Nat.mod_lt _ (by norm_num)
      rw [ih (write1 d p) (write1_stageKnown d p hk) hlt, hb]
      simp only [preFinLen, if_neg hfin]
      omega

/-- Claim C5 (amended): from construction (or `Reset`), `Len` equals,
modulo `2 ^ 64`, the sum of the lengths of exactly those byte slices
passed to `write` while the session had not yet entered the Finished
stage; writes arriving after the session finished are not counted. -/
theorem C5_len_pre_finish (v : Nat) (ps : List Bytes) :
    (writeAll (initDigest v) ps).len = preFinLen (initDigest v) ps % 2 ^ 64 := by
  have h := writeAll_len ps (initDigest v) (Or.inl rfl) (by norm_num [initDigest])
  simpa [Digest.len, initDigest] using h

/-! Header construction and decoding round-trip. -/

theorem takeWhile_append_all {p : Nat → Bool} {xs ys : Bytes}
    (h : ∀ x ∈ xs, p x = true) :
    List.takeWhile p (xs ++ ys) = xs ++ List.takeWhile p ys := by
  induction xs with
  | nil => rfl
  | cons a as ih =>
    have ha := h a (List.mem_cons_self a as)
    simp only [List.cons_append, List.takeWhile_cons, ha, if_true]
    rw [ih fun x hx => h x (List.mem_cons_of_mem a hx)]

theorem octEncAux_length (w n : Nat) : (octEncAux w n).length = w := by
  induction w generalizing n with
  | zero => rfl
  | succ w ih =>
    show (octEncAux w (n / 8) ++ [48 + n % 8]).length = w + 1
    simp [ih]

theorem octEncAux_mem (w n : Nat) : ∀ b ∈ octEncAux w n, 48 ≤ b ∧ b ≤ 55 := by
  induction w generalizing n with
  | zero => intro b hb; cases hb
  | succ w ih =>
    intro b hb
    rcases List.mem_append.1 hb with hb | hb
    · exact ih (n / 8) b hb
    · have : b = 48 + n % 8 := List.mem_singleton.1 hb
      have : n % 8 < 8 := Nat.mod_lt _ (by norm_num)
      omega

theorem octEncAux_foldl (w n : Nat) (h : n < 8 ^ w) :
    (octEncAux w n).foldl (fun a d => a * 8 + (d - 48)) 0 = n := by
  induction w generalizing n with
  | zero =>
    have : n = 0 := by simpa using h
    simp [octEncAux, this]
  | succ w ih =>
    have hdiv : n / 8 < 8 ^ w := by
      rw [Nat.div_lt_iff_lt_mul (by norm_num : (0:Nat) < 8)]
      calc n < 8 ^ (w + 1) := h
        _ = 8 ^ w * 8 := by rw [Nat.pow_succ]
    show (octEncAux w (n / 8) ++ [48 + n % 8]).foldl _ 0 = n
    rw [List.foldl_append, ih (n / 8) hdiv]
    have : n % 8 < 8 := Nat.mod_lt _ (by norm_num)
    show n / 8 * 8 + (48 + n % 8 - 48) = n
    omega

theorem parseOctal_octEnc (s : Nat) (h : s < 8 ^ 11) :
    parseOctal (octEnc s) = some s := by
  have hmem := octEncAux_mem 11 s
  have hlen := octEncAux_length 11 s
  unfold parseOctal octEnc
  have hdrop : (octEncAux 11 s ++ [0]).dropWhile (fun b => b = 32) =
      octEncAux 11 s ++ [0] := by
    rcases hd : octEncAux 11 s with _ | ⟨b, bs⟩
    · rw [hd] at hlen; cases hlen
    · have hb : 48 ≤ b ∧ b ≤ 55 := by
        apply hmem; rw [hd]; exact List.mem_cons_self b bs
      show List.dropWhile _ (b :: (bs ++ [0])) = _
      rw [List.dropWhile_cons, if_neg]
      · rfl
      · intro hc
        have : b = 32 := of_decide_eq_true hc
        omega
  rw [hdrop]
  have hstep := @takeWhile_append_all (fun b => b ≠ 0 && b ≠ 32)
    (octEncAux 11 s) [0] (fun x hx => by
      have := hmem x hx
      simp only [Bool.and_eq_true, decide_eq_true_eq, ne_eq]
      omega)
  rw [hstep]
  have htail : List.takeWhile (fun b => b ≠ 0 && b ≠ 32) [0] = [] := rfl
  rw [htail, List.append_nil]
  rw [if_pos]
  · rw [octEncAux_foldl 11 s h]
  · rw [List.all_eq_true]
    intro b hb
    have := hmem b hb
    simp only [Bool.and_eq_true, decide_eq_true_eq]
    omega

set_option maxRecDepth 4000

theorem mkHeaderBlock_split (name : Bytes) (size : Nat) :
    mkHeaderBlock name size =
      (name ++ List.replicate (100 - name.length) 0 ++ List.replicate 24 0) ++
        (octEnc size ++
          (List.replicate 20 0 ++ (48 :: List.replicate 355 0))) := by
  simp [mkHeaderBlock, List.append_assoc]

theorem mkHeaderBlock_length (name : Bytes) (size : Nat) (h : name.length ≤ 100) :
    (mkHeaderBlock name size).length = 512 := by
  simp [mkHeaderBlock, octEnc, octEncAux_length]
  omega

theorem mkHeaderBlock_size_field (name : Bytes) (size : Nat) (h : name.length ≤ 100) :
    ((mkHeaderBlock name size).drop 124).take 12 = octEnc size := by
  rw [mkHeaderBlock_split]
  rw [List.drop_left' (by simp; omega)]
  rw [List.take_append_of_le_length (by simp [octEnc, octEncAux_length])]
  simp [octEnc, octEncAux_length]

theorem mkHeaderBlock_name_field (name : Bytes) (size : Nat) (h : name.length ≤ 100)
    (h0 : ¬ 0 ∈ name) :
    ((mkHeaderBlock name size).take 100).takeWhile (fun b => b ≠ 0) = name := by
  have hsplit : mkHeaderBlock name size =
      (name ++ List.replicate (100 - name.length) 0) ++
        (List.replicate 24 0 ++ (octEnc size ++
          (List.replicate 20 0 ++ (48 :: List.replicate 355 0)))) := by
    simp [mkHeaderBlock, List.append_assoc]
  rw [hsplit]
  rw [List.take_left' (by simp; omega)]
  rw [takeWhile_append_all fun x hx => ?_]
  · rw [List.takeWhile_replicate]
    simp
  · simp only [ne_eq, decide_eq_true_eq]
    intro hx0
    exact h0 (hx0 ▸ hx)

theorem mkHeaderBlock_typeflag (name : Bytes) (size : Nat) (h : name.length ≤ 100) :
    (mkHeaderBlock name size).getD 156 0 = 48 := by
  have hsplit : mkHeaderBlock name size =
      (name ++ List.replicate (100 - name.length) 0 ++ List.replicate 24 0 ++
          octEnc size ++ List.replicate 20 0) ++
        (48 :: List.replicate 355 0) := by
    simp [mkHeaderBlock, List.append_assoc]
  rw [hsplit]
  have hlen : (name ++ List.replicate (100 - name.length) 0 ++ List.replicate 24 0 ++
      octEnc size ++ List.replicate 20 0).length = 156 := by
    simp [octEnc, octEncAux_length]; omega
  rw [List.getD_append_right _ _ _ _ (by omega)]
  rw [hlen]
  rfl

theorem zeroBlock_getD156 : (zeroBlock).getD 156 0 = 0 := by decide

theorem mkHeaderBlock_ne_zeroBlock (name : Bytes) (size : Nat) (h : name.length ≤ 100) :
    mkHeaderBlock name size ≠ zeroBlock := by
  intro heq
  have h48 := mkHeaderBlock_typeflag name size h
  rw [heq, zeroBlock_getD156] at h48
  cases h48

theorem parseHeader_mkHeaderBlock (name : Bytes) (size : Nat)
    (hlen : name.length ≤ 100) (h0 : ¬ 0 ∈ name) (hsz : size < 8 ^ 11) :
    parseHeader (mkHeaderBlock name size) = some ⟨name, size, 48⟩ := by
  unfold parseHeader
  rw [mkHeaderBlock_size_field name size hlen, parseOctal_octEnc size hsz]
  rw [mkHeaderBlock_name_field name size hlen h0]
  rw [mkHeaderBlock_typeflag name size hlen]

/-! Symbolic runs of the machine over constructed archives. -/

theorem entryBytes_length (name body : Bytes) (h : name.length ≤ 100) :
    (entryBytes name body).length =
      512 + body.length + computeBlockPadding body.length := by
  simp [entryBytes, mkHeaderBlock_length name body.length h]
  omega

theorem entryBytes_length_big (name body : Bytes) (h : name.length ≤ 100)
    (hb : body ≠ []) : 1024 ≤ (entryBytes name body).length := by
  rw [entryBytes_length name body h]
  have hpad := blockPadding_range body.length
  have hblen : 1 ≤ body.length := by
    cases body with
    | nil => exact absurd rfl hb
    | cons x xs => simp
  unfold blockSize at hpad
  omega

theorem tarNext_entry (name body rest : Bytes) (hlen : name.length ≤ 100)
    (h0 : ¬ 0 ∈ name) (hsz : body.length < 8 ^ 11) :
    tarNext (entryBytes name body ++ rest) =
      .ok ⟨name, body.length, 48⟩
        (body ++ List.replicate (computeBlockPadding body.length) 0 ++ rest) := by
  have hmkl := mkHeaderBlock_length name body.length hlen
  have hsplit : entryBytes name body ++ rest =
      mkHeaderBlock name body.length ++
        (body ++ List.replicate (computeBlockPadding body.length) 0 ++ rest) := by
    simp [entryBytes, List.append_assoc]
  rw [hsplit]
  unfold tarNext
  rw [if_neg (by simp [blockSize, hmkl])]
  have htake : (mkHeaderBlock name body.length ++
      (body ++ List.replicate (computeBlockPadding body.length) 0 ++ rest)).take
        blockSize = mkHeaderBlock name body.length := by
    show List.take 512 _ = _
    exact List.take_left' hmkl
  rw [htake]
  rw [if_neg (mkHeaderBlock_ne_zeroBlock name body.length hlen)]
  rw [parseHeader_mkHeaderBlock name body.length hlen h0 hsz]
  have hdrop : (mkHeaderBlock name body.length ++
      (body ++ List.replicate (computeBlockPadding body.length) 0 ++ rest)).drop
        blockSize = body ++ List.replicate (computeBlockPadding body.length) 0 ++ rest := by
    show List.drop 512 _ = _
    exact List.drop_left' hmkl
  rw [hdrop]

theorem entryPhase_whole (d : Digest) (body rest : Bytes)
    (hcur : d.currentBuffer = body ++ List.replicate d.pad 0 ++ rest)
    (hnb : d.tarReader.numBytes = body.length)
    (hne : d.currentBuffer ≠ []) :
    entryPhase d =
      (finalizeEntry
        { d with
          entryHash := d.entryHash.write body,
          currentBuffer := rest,
          tarReader := ⟨0⟩,
          pad := 0,
          digestStage := stageSkipPadding }, true) := by
  have hculen : d.currentBuffer.length = body.length + d.pad + rest.length := by
    rw [hcur]; simp; omega
  have hmin : d.tarReader.numBytes ⊓ d.currentBuffer.length = body.length := by
    rw [hnb, hculen]; omega
  have htk : d.currentBuffer.take body.length = body := by
    rw [hcur, List.append_assoc]
    exact List.take_left body _
  have hdp : d.currentBuffer.drop body.length =
      List.replicate d.pad 0 ++ rest := by
    rw [hcur, List.append_assoc]
    exact List.drop_left body _
  have hdp2 : (List.replicate d.pad 0 ++ rest).drop d.pad = rest :=
    List.drop_left' (List.length_replicate _ _)
  unfold entryPhase
  rw [if_neg (by
    intro hzero
    exact hne (List.eq_nil_of_length_eq_zero hzero))]
  dsimp only
  rw [hmin, htk, hdp, hnb, Nat.sub_self]
  rw [if_neg (by omega)]
  unfold padPhase
  dsimp only
  rw [List.length_append, List.length_replicate]
  have hmin2 : d.pad ⊓ (d.pad + rest.length) = d.pad := by omega
  rw [hmin2, hdp2, Nat.sub_self]
  rw [if_neg (by omega)]

theorem run_entry (f : Nat) (d : Digest) (name body rest : Bytes)
    (hs : d.digestStage = stageReadHeader)
    (hh : d.headerBuffer = entryBytes name body ++ rest)
    (hhash : d.entryHash = ⟨[]⟩)
    (hbig : 1024 ≤ (entryBytes name body ++ rest).length)
    (hne : body ≠ [] ∨ rest ≠ [])
    (hwf : WfEntry name body) :
    runFrom (f + 1) d = runFrom f
      { d with
        sums := d.sums ++ [entryResult d.headerSelector name body d.fileCounter],
        entryHash := ⟨[]⟩,
        fileCounter := d.fileCounter + 1,
        currentFilename := cleanName name,
        tarReader := ⟨0⟩,
        pad := 0,
        headerBuffer := rest,
        currentBuffer := [],
        digestStage := stageReadHeader } := by
  obtain ⟨hlen, h0, hsz⟩ := hwf
  show (match cycle d with
        | (e, true) => runFrom f e
        | (e, false) => e) = _
  have hcyc : cycle d =
      ({ d with
          sums := d.sums ++ [entryResult d.headerSelector name body d.fileCounter],
          entryHash := ⟨[]⟩,
          fileCounter := d.fileCounter + 1,
          currentFilename := cleanName name,
          tarReader := ⟨0⟩,
          pad := 0,
          headerBuffer := rest,
          currentBuffer := [],
          digestStage := stageReadHeader }, true) := by
    unfold cycle
    rw [if_pos hs]
    unfold headerPhase
    rw [if_neg (by rw [hh]; unfold blockSize; omega)]
    rw [hh, tarNext_entry name body rest hlen h0 hsz]
    show entryPhase _ = _
    rw [entryPhase_whole _ body rest (by dsimp only) (by dsimp only)
      (by
        dsimp only
        intro hnil
        have hlens := congrArg List.length hnil
        simp only [List.length_append, List.length_replicate, List.length_nil] at hlens
        rcases hne with hb | hr
        · have : 1 ≤ body.length := by
            cases body with
            | nil => exact absurd rfl hb
            | cons x xs => simp
          omega
        · have : 1 ≤ rest.length := by
            cases rest with
            | nil => exact absurd rfl hr
            | cons x xs => simp
          omega)]
    unfold finalizeEntry entryResult entrySum Resumable.sum Resumable.write
    rw [hhash]
    simp
  rw [hcyc]

theorem run_term (f : Nat) (d : Digest)
    (hs : d.digestStage = stageReadHeader)
    (hh : d.headerBuffer = List.replicate 1024 0) :
    runFrom (f + 1) d =
      { d with digestStage := stageFinished, currentBuffer := [], tarReader := ⟨0⟩ } := by
  show (match cycle d with
        | (e, true) => runFrom f e
        | (e, false) => e) = _
  have hnext : tarNext d.headerBuffer = .endOfArchive := by
    rw [hh]
    unfold tarNext
    rw [if_neg (by simp [blockSize])]
    rw [if_pos (by
      rw [List.take_replicate]
      unfold zeroBlock blockSize
      norm_num)]
    rw [if_neg (by simp [blockSize])]
    rw [if_pos (by
      rw [List.drop_replicate, List.take_replicate]
      unfold zeroBlock blockSize
      norm_num)]
  have hcyc : cycle d =
      ({ d with digestStage := stageFinished, currentBuffer := [], tarReader := ⟨0⟩ },
        false) := by
    unfold cycle
    rw [if_pos hs]
    unfold headerPhase
    rw [if_neg (by rw [hh]; simp [blockSize])]
    rw [hnext]
    have hdrop : d.headerBuffer.drop (2 * blockSize) = [] := by
      rw [hh, List.drop_replicate]
      unfold blockSize
      norm_num
    rw [hdrop]
  rw [hcyc]

theorem afterEntries_buffers (es : List (Bytes × Bytes)) (d : Digest) (x y : Bytes) :
    afterEntries { d with headerBuffer := x, currentBuffer := y } es =
      { afterEntries d es with headerBuffer := x, currentBuffer := y } := by
  induction es generalizing d with
  | nil => rfl
  | cons e es ih =>
    show afterEntries _ es = _
    rw [show (afterEntries
        { d with
          headerBuffer := x, currentBuffer := y,
          sums := d.sums ++ [entryResult d.headerSelector e.1 e.2 d.fileCounter],
          fileCounter := d.fileCounter + 1,
          currentFilename := cleanName e.1,
          entryHash := ⟨[]⟩, tarReader := ⟨0⟩, pad := 0,
          digestStage := stageReadHeader } es) =
      afterEntries
        { ({ d with
            sums := d.sums ++ [entryResult d.headerSelector e.1 e.2 d.fileCounter],
            fileCounter := d.fileCounter + 1,
            currentFilename := cleanName e.1,
            entryHash := ⟨[]⟩, tarReader := ⟨0⟩, pad := 0,
            digestStage := stageReadHeader } : Digest) with
          headerBuffer := x, currentBuffer := y } es from rfl]
    rw [ih]
    rfl

theorem runFrom_wait (f : Nat) (d : Digest)
    (hs : d.digestStage = stageReadHeader)
    (hh : d.headerBuffer.length < 1024) :
    runFrom f d = d := by
  cases f with
  | zero => rfl
  | succ f =>
    show (match cycle d with
          | (e, true) => runFrom f e
          | (e, false) => e) = _
    have hcyc : cycle d = (d, false) := by
      unfold cycle
      rw [if_pos hs]
      unfold headerPhase
      rw [if_pos (by unfold blockSize; omega)]
    rw [hcyc]

theorem run_entries (es : List (Bytes × Bytes)) (f : Nat) (d : Digest)
    (hs : d.digestStage = stageReadHeader)
    (hh : d.headerBuffer = es.flatMap fun e => entryBytes e.1 e.2)
    (hcur : d.currentBuffer = [])
    (hhash : d.entryHash = ⟨[]⟩)
    (hwf : ∀ e ∈ es, WfEntry e.1 e.2)
    (hbody : ∀ e ∈ es, e.2 ≠ [])
    (hf : es.length ≤ f) :
    runFrom f d = { afterEntries d es with headerBuffer := [], currentBuffer := [] } := by
  induction es generalizing d f with
  | nil =>
    have hh0 : d.headerBuffer = [] := by simpa using hh
    have : runFrom f d = d := runFrom_wait f d hs (by rw [hh0]; simp)
    rw [this]
    show d = { d with headerBuffer := [], currentBuffer := [] }
    rcases d with ⟨_, _, _, hb, _, _, _, _, _, _, _, _, cb⟩
    simp only at hh0 hcur
    rw [hh0, hcur]
  | cons e es ih =>
    cases f with
    | zero => simp at hf
    | succ f =>
      have hwfe := hwf e (List.mem_cons_self e es)
      have hbige : 1024 ≤ (entryBytes e.1 e.2 ++ es.flatMap fun x => entryBytes x.1 x.2).length := by
        have := entryBytes_length_big e.1 e.2 hwfe.1 (hbody e (List.mem_cons_self e es))
        simp only [List.length_append]
        omega
      have hh1 : d.headerBuffer =
          entryBytes e.1 e.2 ++ es.flatMap fun x => entryBytes x.1 x.2 := by
        rw [hh]; rfl
      rw [run_entry f d e.1 e.2 _ hs hh1 hhash hbige
        (Or.inl (hbody e (List.mem_cons_self e es))) hwfe]
      rw [ih _ _ rfl rfl rfl rfl
        (fun x hx => hwf x (List.mem_cons_of_mem e hx))
        (fun x hx => hbody x (List.mem_cons_of_mem e hx))
        (by simpa using hf)]
      rw [show ({ d with
          sums := d.sums ++ [entryResult d.headerSelector e.1 e.2 d.fileCounter],
          entryHash := (⟨[]⟩ : Resumable),
          fileCounter := d.fileCounter + 1,
          currentFilename := cleanName e.1,
          tarReader := (⟨0⟩ : TarReader),
          pad := 0,
          headerBuffer := es.flatMap fun x => entryBytes x.1 x.2,
          currentBuffer := [],
          digestStage := stageReadHeader } : Digest) =
        { ({ d with
            sums := d.sums ++ [entryResult d.headerSelector e.1 e.2 d.fileCounter],
            entryHash := (⟨[]⟩ : Resumable),
            fileCounter := d.fileCounter + 1,
            currentFilename := cleanName e.1,
            tarReader := (⟨0⟩ : TarReader),
            pad := 0,
            digestStage := stageReadHeader } : Digest) with
          headerBuffer := es.flatMap fun x => entryBytes x.1 x.2,
          currentBuffer := [] } from rfl]
      rw [afterEntries_buffers]
      rfl

theorem run_archive (es : List (Bytes × Bytes)) (f : Nat) (d : Digest)
    (hs : d.digestStage = stageReadHeader)
    (hh : d.headerBuffer = archiveBytes es)
    (hhash : d.entryHash = ⟨[]⟩)
    (hwf : ∀ e ∈ es, WfEntry e.1 e.2)
    (hf : es.length + 1 ≤ f) :
    runFrom f d =
      { afterEntries d es with
        digestStage := stageFinished,
        headerBuffer := List.replicate 1024 0,
        currentBuffer := [],
        tarReader := ⟨0⟩ } := by
  induction es generalizing d f with
  | nil =>
    cases f with
    | zero => simp at hf
    | succ f =>
      have hh0 : d.headerBuffer = List.replicate 1024 0 := by
        rw [hh]
        show termBytes = _
        unfold termBytes blockSize
        norm_num
      rw [run_term f d hs hh0]
      show _ = { d with
        digestStage := stageFinished,
        headerBuffer := List.replicate 1024 0,
        currentBuffer := [],
        tarReader := (⟨0⟩ : TarReader) }
      rw [← hh0]
  | cons e es ih =>
    cases f with
    | zero => simp at hf
    | succ f =>
      have hwfe := hwf e (List.mem_cons_self e es)
      have hh1 : d.headerBuffer = entryBytes e.1 e.2 ++ archiveBytes es := by
        rw [hh]
        unfold archiveBytes
        rw [List.flatMap_cons, List.append_assoc]
      have hbige : 1024 ≤ (entryBytes e.1 e.2 ++ archiveBytes es).length := by
        have : (archiveBytes es).length ≥ 1024 := by
          unfold archiveBytes termBytes blockSize
          simp
        simp only [List.length_append]
        omega
      have hne : e.2 ≠ [] ∨ archiveBytes es ≠ [] := by
        right
        intro hnil
        have := congrArg List.length hnil
        unfold archiveBytes termBytes blockSize at this
        simp at this
      rw [run_entry f d e.1 e.2 _ hs hh1 hhash hbige hne hwfe]
      rw [ih _ _ rfl rfl rfl (fun x hx => hwf x (List.mem_cons_of_mem e hx))
        (by simpa using hf)]
      rw [show ({ d with
          sums := d.sums ++ [entryResult d.headerSelector e.1 e.2 d.fileCounter],
          entryHash := (⟨[]⟩ : Resumable),
          fileCounter := d.fileCounter + 1,
          currentFilename := cleanName e.1,
          tarReader := (⟨0⟩ : TarReader),
          pad := 0,
          headerBuffer := archiveBytes es,
          currentBuffer := [],
          digestStage := stageReadHeader } : Digest) =
        { ({ d with
            sums := d.sums ++ [entryResult d.headerSelector e.1 e.2 d.fileCounter],
            entryHash := (⟨[]⟩ : Resumable),
            fileCounter := d.fileCounter + 1,
            currentFilename := cleanName e.1,
            tarReader := (⟨0⟩ : TarReader),
            pad := 0,
            digestStage := stageReadHeader } : Digest) with
          headerBuffer := archiveBytes es,
          currentBuffer := [] } from rfl]
      rw [afterEntries_buffers]
      rfl

theorem write1_run (d : Digest) (p : Bytes)
    (hs : d.digestStage = stageReadHeader)
    (hcur : d.currentBuffer = [])
    (hh : d.headerBuffer = []) :
    write1 d p = runFrom (p.length + 0 + 2)
      { d with
        headerBuffer := p,
        bytesWritten := (d.bytesWritten + p.length) % 2 ^ 64 } := by
  unfold write1 Digest.write
  rw [if_neg (by rw [hs]; exact stage_rh_ne_fin), if_pos (Or.inl hs)]
  unfold appendBytes
  rw [if_pos hs]
  rw [hh, hcur]
  rfl

theorem archiveBytes_length_ge (es : List (Bytes × Bytes)) :
    1024 ≤ (archiveBytes es).length := by
  unfold archiveBytes termBytes blockSize
  simp

theorem sums_single (v : Nat) (name body : Bytes) (hwf : WfEntry name body) :
    (write1 (initDigest v) (archiveBytes [(name, body)])).sums =
      [entryResult v name body 0] := by
  rw [write1_run _ _ rfl rfl rfl]
  rw [run_archive [(name, body)] _ _ rfl rfl rfl
    (by intro e he; rw [List.mem_singleton] at he; rw [he]; exact hwf)
    (by simp only [List.length_cons, List.length_nil]; omega)]
  rfl

theorem sums_double (v : Nat) (n1 b1 n2 b2 : Bytes)
    (hwf1 : WfEntry n1 b1) (hwf2 : WfEntry n2 b2) :
    (write1 (initDigest v) (archiveBytes [(n1, b1), (n2, b2)])).sums =
      [entryResult v n1 b1 0, entryResult v n2 b2 1] := by
  rw [write1_run _ _ rfl rfl rfl]
  rw [run_archive [(n1, b1), (n2, b2)] _ _ rfl rfl rfl
    (by
      intro e he
      rcases List.mem_cons.1 he with he | he
      · rw [he]; exact hwf1
      · rw [List.mem_singleton] at he; rw [he]; exact hwf2)
    (by
      have := archiveBytes_length_ge [(n1, b1), (n2, b2)]
      simp only [List.length_cons, List.length_nil]
      omega)]
  rfl

/-! Claim C7: the empty archive. -/

/-- Claim C7: writing exactly 1024 zero bytes to a fresh session of any
supported policy version leaves the session in the Finished stage with no
error, and its aggregate digest over nil extra bytes is the sha256 digest
of the empty input. -/
theorem C7_empty_archive (v : Nat) (d0 : Digest) (h : newDigest v = some d0) :
    (write1 d0 (List.replicate 1024 0)).digestStage = stageFinished ∧
      (write1 d0 (List.replicate 1024 0)).err = none ∧
      (write1 d0 (List.replicate 1024 0)).sumBytes none = sha256Bytes [] := by
  have hd0 : d0 = initDigest v := by
    unfold newDigest at h
    rcases hsel : getTarHeaderSelector v with _ | s
    · rw [hsel] at h; cases h
    · rw [hsel] at h
      exact (Option.some.injEq _ _ ▸ h).symm
  subst hd0
  have harr : (List.replicate 1024 0 : Bytes) = archiveBytes [] := rfl
  rw [harr, write1_run _ _ rfl rfl rfl]
  rw [run_archive [] _ _ rfl rfl rfl (by intro e he; cases he)
    (by simp only [List.length_nil]; omega)]
  refine ⟨rfl, rfl, ?_⟩
  rfl

/-- Witness for claim C7 at policy version 0. -/
theorem C7_witness :
    newDigest 0 = some (initDigest 0) ∧
      ((write1 (initDigest 0) (List.replicate 1024 0)).digestStage = stageFinished ∧
        (write1 (initDigest 0) (List.replicate 1024 0)).err = none ∧
        (write1 (initDigest 0) (List.replicate 1024 0)).sumBytes none =
          sha256Bytes []) :=
  ⟨rfl, C7_empty_archive 0 (initDigest 0) rfl⟩

/-! Claim C8: entry name normalization. -/

set_option maxRecDepth 4000 in
/-- Claim C8 counterexample: the recorded name for an entry whose header
name is `a//` is `a/`, which still ends in a slash, refuting the claim
that all trailing slash characters are stripped. -/
theorem C8_counterexample :
    (write1 (initDigest 0) (archiveBytes [(strB "a//", [5])])).sums.map
        (fun f => f.name) = [strB "a/"] ∧
      (strB "a/").getLast? = some 47 := by
  constructor
  · rw [sums_single 0 (strB "a//") [5] ⟨by decide, by decide, by decide⟩]
    decide
  · decide

/-- Claim C8 (amended): the recorded Entry Result name is the header name
with one optional leading `./` stripped and then at most one trailing `/`
stripped, exactly the composition of Go `TrimPrefix` and `TrimSuffix`; a
name with repeated trailing slashes keeps the remaining ones. -/
theorem C8_name_normalization (v : Nat) (name body : Bytes) (hwf : WfEntry name body) :
    (write1 (initDigest v) (archiveBytes [(name, body)])).sums.map
        (fun f => f.name) =
      [goTrimTrail (goTrimLead name (strB "./")) (strB "/")] := by
  rw [sums_single v name body hwf]
  rfl


/-- Witness for the amended claim C8: a concrete entry named `./x//`
records the name `./x//` with the leading `./` and one trailing slash
removed, giving `x/`. -/
theorem C8_witness :
    WfEntry (strB "./x//") [7] ∧
      (write1 (initDigest 0) (archiveBytes [(strB "./x//", [7])])).sums.map
          (fun f => f.name) =
        [goTrimTrail (goTrimLead (strB "./x//") (strB "./")) (strB "/")] :=
  ⟨⟨by decide, by decide, by decide⟩,
    C8_name_normalization 0 (strB "./x//") [7] ⟨by decide, by decide, by decide⟩⟩

/-! Claim C6: reordering behavior of the aggregate. -/

theorem bytesLt_asymm : ∀ a b : Bytes, bytesLt a b = true → bytesLt b a = false
  | [], [], _ => rfl
  | [], _ :: _, _ => rfl
  | _ :: _, [], h => by cases h
  | a :: as, b :: bs, h => by
    unfold bytesLt at h ⊢
    by_cases hab : a < b
    · rw [if_neg (by omega), if_pos hab]
    · rw [if_neg hab] at h
      by_cases hba : b < a
      · rw [if_pos hba] at h
        cases h
      · rw [if_neg hba] at h
        rw [if_neg hba, if_neg hab]
        exact bytesLt_asymm as bs h

theorem bytesLt_conn : ∀ a b : Bytes, bytesLt a b = false → bytesLt b a = false → a = b
  | [], [], _, _ => rfl
  | [], _ :: _, h, _ => by cases h
  | _ :: _, [], _, h => by cases h
  | a :: as, b :: bs, h1, h2 => by
    unfold bytesLt at h1 h2
    by_cases hab : a < b
    · rw [if_pos hab] at h1
      cases h1
    · by_cases hba : b < a
      · rw [if_pos hba] at h2
        cases h2
      · rw [if_neg hab, if_neg hba] at h1
        rw [if_neg hba, if_neg hab] at h2
        have hval : a = b := by omega
        rw [hval, bytesLt_conn as bs h1 h2]

theorem sortBySums_pair (x y : FileInfoSum) :
    sortBySums [x, y] =
      if bySumLess (hasDupNames [x, y]) y x = false then [x, y] else [y, x] := by
  unfold sortBySums goSort
  cases hc : bySumLess (hasDupNames [x, y]) y x with
  | true =>
    rw [if_neg (show ¬ (true : Bool) = false from fun h => Bool.noConfusion h)]
    show (bubble (fun a b => bySumLess (hasDupNames [x, y]) a b) y [x]).reverse = [y, x]
    unfold bubble
    rw [if_pos hc]
    rfl
  | false =>
    rw [if_pos rfl]
    show (bubble (fun a b => bySumLess (hasDupNames [x, y]) a b) y [x]).reverse = [x, y]
    unfold bubble
    rw [if_neg (show ¬ bySumLess (hasDupNames [x, y]) y x = true by
      rw [hc]; exact fun h => Bool.noConfusion h)]
    rfl

theorem hasDupNames_pair (x y : FileInfoSum) :
    hasDupNames [x, y] = decide (y.name = x.name) := by
  simp [hasDupNames]

theorem bySumLess_no_dups (a b : FileInfoSum) :
    bySumLess false a b = bytesLt a.sum b.sum := by
  unfold bySumLess
  rw [if_neg (by simp)]

theorem bySumLess_same_name (a b : FileInfoSum) (h : a.name = b.name) :
    bySumLess true a b = decide (a.pos < b.pos) := by
  unfold bySumLess
  rw [if_pos (by simp [h])]

theorem sortPair_distinct (m1 s1 m2 s2 : Bytes) (h : m1 ≠ m2) :
    (sortBySums [⟨m1, s1, 0⟩, ⟨m2, s2, 1⟩]).flatMap (fun f => f.sum) =
      if bytesLt s2 s1 then s2 ++ s1 else s1 ++ s2 := by
  rw [sortBySums_pair, hasDupNames_pair]
  have hdup : (decide ((⟨m2, s2, 1⟩ : FileInfoSum).name =
      (⟨m1, s1, 0⟩ : FileInfoSum).name)) = false := by
    simp only [decide_eq_false_iff_not]
    exact fun hc => h hc.symm
  rw [hdup, bySumLess_no_dups]
  by_cases hlt : bytesLt s2 s1 = true
  · rw [if_neg (by rw [hlt]; simp), if_pos hlt]
    simp
  · have hlf : bytesLt s2 s1 = false := by
      revert hlt
      cases bytesLt s2 s1 <;> simp
    rw [if_pos hlf, if_neg (by rw [hlf]; simp)]
    simp

theorem sortPair_same (m s1 s2 : Bytes) :
    (sortBySums [⟨m, s1, 0⟩, ⟨m, s2, 1⟩]).flatMap (fun f => f.sum) = s1 ++ s2 := by
  rw [sortBySums_pair, hasDupNames_pair]
  have hdup : (decide ((⟨m, s2, 1⟩ : FileInfoSum).name =
      (⟨m, s1, 0⟩ : FileInfoSum).name)) = true := by simp
  rw [hdup, bySumLess_same_name ⟨m, s2, 1⟩ ⟨m, s1, 0⟩ rfl]
  rw [if_pos (show (decide ((⟨m, s2, 1⟩ : FileInfoSum).pos <
    (⟨m, s1, 0⟩ : FileInfoSum).pos)) = false from rfl)]
  simp

/-- Claim C6: archives holding the same two wellformed entries in opposite
order give the same aggregate digest when the two (cleaned) entry names
are distinct; when the names coincide the completed entries are combined
into the top-level hash input in ascending archive position rather than by
digest value, so the hash input, and with it the digest whenever the two
entry digests differ, tracks the order of the two entries in the byte
stream. -/
theorem C6_reorder_entries (v : Nat) (n1 b1 n2 b2 : Bytes) (extra : Option Bytes)
    (hwf1 : WfEntry n1 b1) (hwf2 : WfEntry n2 b2) :
    (cleanName n1 ≠ cleanName n2 →
      (write1 (initDigest v) (archiveBytes [(n1, b1), (n2, b2)])).sumBytes extra =
        (write1 (initDigest v) (archiveBytes [(n2, b2), (n1, b1)])).sumBytes extra) ∧
      (cleanName n1 = cleanName n2 →
        topInput (write1 (initDigest v) (archiveBytes [(n1, b1), (n2, b2)])) =
            entrySum v n1 b1 ++ entrySum v n2 b2 ∧
          topInput (write1 (initDigest v) (archiveBytes [(n2, b2), (n1, b1)])) =
            entrySum v n2 b2 ++ entrySum v n1 b1) := by
  have hA := sums_double v n1 b1 n2 b2 hwf1 hwf2
  have hB := sums_double v n2 b2 n1 b1 hwf2 hwf1
  constructor
  · intro hne
    unfold Digest.sumBytes topInput
    rw [hA, hB]
    unfold entryResult
    rw [sortPair_distinct _ _ _ _ hne, sortPair_distinct _ _ _ _ (Ne.symm hne)]
    by_cases h21 : bytesLt (entrySum v n2 b2) (entrySum v n1 b1) = true
    · rw [if_pos h21, if_neg (by rw [bytesLt_asymm _ _ h21]; simp)]
    · have h21f : bytesLt (entrySum v n2 b2) (entrySum v n1 b1) = false := by
        revert h21
        cases bytesLt (entrySum v n2 b2) (entrySum v n1 b1) <;> simp
      rw [if_neg (by rw [h21f]; simp)]
      by_cases h12 : bytesLt (entrySum v n1 b1) (entrySum v n2 b2) = true
      · rw [if_pos h12]
      · have h12f : bytesLt (entrySum v n1 b1) (entrySum v n2 b2) = false := by
          revert h12
          cases bytesLt (entrySum v n1 b1) (entrySum v n2 b2) <;> simp
        rw [if_neg (by rw [h12f]; simp)]
        rw [bytesLt_conn (entrySum v n1 b1) (entrySum v n2 b2) h12f h21f]
  · intro heq
    unfold topInput
    rw [hA, hB]
    unfold entryResult
    rw [heq]
    exact ⟨sortPair_same _ _ _, sortPair_same _ _ _⟩

/-- Witness for claim C6 at two concrete single-byte entries. -/
theorem C6_witness :
    WfEntry (strB "p") [1] ∧ WfEntry (strB "q") [2] ∧
      ((cleanName (strB "p") ≠ cleanName (strB "q") →
        (write1 (initDigest 0) (archiveBytes [(strB "p", [1]), (strB "q", [2])])).sumBytes
            none =
          (write1 (initDigest 0) (archiveBytes [(strB "q", [2]), (strB "p", [1])])).sumBytes
            none) ∧
        (cleanName (strB "p") = cleanName (strB "q") →
          topInput (write1 (initDigest 0) (archiveBytes [(strB "p", [1]), (strB "q", [2])])) =
              entrySum 0 (strB "p") [1] ++ entrySum 0 (strB "q") [2] ∧
            topInput (write1 (initDigest 0) (archiveBytes [(strB "q", [2]), (strB "p", [1])])) =
              entrySum 0 (strB "q") [2] ++ entrySum 0 (strB "p") [1])) :=
  ⟨⟨by decide, by decide, by decide⟩, ⟨by decide, by decide, by decide⟩,
    C6_reorder_entries 0 (strB "p") [1] (strB "q") [2] none
      ⟨by decide, by decide, by decide⟩ ⟨by decide, by decide, by decide⟩⟩

/-! Phase characterizations and fuel facts for the handler loop. -/

theorem padPhase_of_le (d : Digest) (hc : d.pad ≤ d.currentBuffer.length) :
    padPhase d =
      (finalizeEntry { d with currentBuffer := d.currentBuffer.drop d.pad, pad := 0 },
        true) := by
  unfold padPhase
  dsimp only
  rw [min_eq_left hc]
  rw [if_neg (by omega)]
  rw [Nat.sub_self]

theorem padPhase_of_gt (d : Digest) (hc : d.currentBuffer.length < d.pad) :
    padPhase d =
      ({ d with currentBuffer := [], pad := d.pad - d.currentBuffer.length }, false) := by
  unfold padPhase
  dsimp only
  rw [min_eq_right (by omega)]
  rw [if_pos (by omega)]
  rw [List.drop_length]

theorem entryPhase_nil (d : Digest) (h : d.currentBuffer = []) :
    entryPhase d = (d, false) := by
  unfold entryPhase
  rw [if_pos (by rw [h]; rfl)]

theorem entryPhase_of_le (d : Digest) (hne : d.currentBuffer ≠ [])
    (hle : d.tarReader.numBytes ≤ d.currentBuffer.length) :
    entryPhase d =
      padPhase
        { d with
          entryHash := d.entryHash.write (d.currentBuffer.take d.tarReader.numBytes),
          currentBuffer := d.currentBuffer.drop d.tarReader.numBytes,
          tarReader := ⟨0⟩,
          digestStage := stageSkipPadding } := by
  unfold entryPhase
  rw [if_neg (by
    intro hzero
    exact hne (List.eq_nil_of_length_eq_zero hzero))]
  dsimp only
  rw [min_eq_left hle, Nat.sub_self]
  rw [if_neg (by omega)]

theorem entryPhase_of_gt (d : Digest) (hne : d.currentBuffer ≠ [])
    (hgt : d.currentBuffer.length < d.tarReader.numBytes) :
    entryPhase d =
      ({ d with
          entryHash := d.entryHash.write d.currentBuffer,
          currentBuffer := [],
          tarReader := ⟨d.tarReader.numBytes - d.currentBuffer.length⟩ }, false) := by
  unfold entryPhase
  rw [if_neg (by
    intro hzero
    exact hne (List.eq_nil_of_length_eq_zero hzero))]
  dsimp only
  rw [min_eq_right (by omega)]
  rw [if_pos (by omega)]
  rw [List.take_length, List.drop_length]

theorem tarNext_not_needMore (buf : Bytes) (h : 1024 ≤ buf.length) :
    tarNext buf ≠ .needMore := by
  unfold tarNext
  rw [if_neg (by unfold blockSize; omega)]
  by_cases hz : buf.take blockSize = zeroBlock
  · rw [if_pos hz, if_neg (by unfold blockSize; omega)]
    split <;> intro hc <;> cases hc
  · rw [if_neg hz]
    split <;> intro hc <;> cases hc

theorem tarNext_append (buf q : Bytes) (h : 1024 ≤ buf.length) :
    tarNext (buf ++ q) =
      match tarNext buf with
      | .ok hdr rest => .ok hdr (rest ++ q)
      | x => x := by
  have htk : (buf ++ q).take blockSize = buf.take blockSize :=
    List.take_append_of_le_length (by unfold blockSize; omega)
  have hdp : (buf ++ q).drop blockSize = buf.drop blockSize ++ q :=
    List.drop_append_of_le_length (by unfold blockSize; omega)
  have htk2 : (buf.drop blockSize ++ q).take blockSize = (buf.drop blockSize).take blockSize :=
    List.take_append_of_le_length (by
      rw [List.length_drop]
      unfold blockSize
      omega)
  unfold tarNext
  rw [if_neg (show ¬(buf ++ q).length < blockSize by
    rw [List.length_append]
    unfold blockSize
    omega)]
  rw [if_neg (show ¬buf.length < blockSize by unfold blockSize; omega)]
  rw [htk, hdp]
  by_cases hz : buf.take blockSize = zeroBlock
  · rw [if_pos hz, if_pos hz]
    rw [if_neg (show ¬(buf ++ q).length < 2 * blockSize by
      rw [List.length_append]
      unfold blockSize
      omega)]
    rw [if_neg (show ¬buf.length < 2 * blockSize by unfold blockSize; omega)]
    rw [htk2]
    by_cases hz2 : (buf.drop blockSize).take blockSize = zeroBlock
    · rw [if_pos hz2]
    · rw [if_neg hz2]
  · rw [if_neg hz, if_neg hz]
    rcases hp : parseHeader (buf.take blockSize) with _ | hdr
    · rfl
    · rfl

theorem finalizeEntry_stage (d : Digest) :
    (finalizeEntry d).digestStage = stageReadHeader := rfl

theorem padPhase_true_shape (d e : Digest) (h : padPhase d = (e, true)) :
    e.digestStage = stageReadHeader ∧ e.headerBuffer.length ≤ d.currentBuffer.length ∧
      e.currentBuffer = [] := by
  by_cases hc : d.pad ≤ d.currentBuffer.length
  · rw [padPhase_of_le d hc] at h
    have he : e = finalizeEntry { d with currentBuffer := d.currentBuffer.drop d.pad, pad := 0 } := by
      have := congrArg Prod.fst h
      exact this.symm
    rw [he]
    refine ⟨rfl, ?_, rfl⟩
    show (d.currentBuffer.drop d.pad).length ≤ _
    rw [List.length_drop]
    omega
  · rw [padPhase_of_gt d (by omega)] at h
    cases h

theorem entryPhase_true_shape (d e : Digest) (h : entryPhase d = (e, true)) :
    e.digestStage = stageReadHeader ∧ e.headerBuffer.length ≤ d.currentBuffer.length ∧
      e.currentBuffer = [] := by
  by_cases hnil : d.currentBuffer = []
  · rw [entryPhase_nil d hnil] at h
    cases h
  · by_cases hle : d.tarReader.numBytes ≤ d.currentBuffer.length
    · rw [entryPhase_of_le d hnil hle] at h
      have := padPhase_true_shape _ e h
      refine ⟨this.1, ?_, this.2.2⟩
      have h2 := this.2.1
      rw [show ({ d with
          entryHash := d.entryHash.write (d.currentBuffer.take d.tarReader.numBytes),
          currentBuffer := d.currentBuffer.drop d.tarReader.numBytes,
          tarReader := (⟨0⟩ : TarReader),
          digestStage := stageSkipPadding } : Digest).currentBuffer =
        d.currentBuffer.drop d.tarReader.numBytes from rfl] at h2
      rw [List.length_drop] at h2
      omega
    · rw [entryPhase_of_gt d hnil (by omega)] at h
      cases h

theorem headerPhase_true_shape (d e : Digest) (h : headerPhase d = (e, true)) :
    e.digestStage = stageReadHeader ∧ e.headerBuffer.length + 512 ≤ d.headerBuffer.length ∧
      e.currentBuffer = [] := by
  unfold headerPhase at h
  by_cases hlen : d.headerBuffer.length < 2 * blockSize
  · rw [if_pos hlen] at h
    cases h
  · rw [if_neg hlen] at h
    rcases htar : tarNext d.headerBuffer with _ | _ | _ | ⟨hdr, rest⟩
    · rw [htar] at h
      exact Bool.noConfusion (congrArg Prod.snd h)
    · rw [htar] at h
      exact Bool.noConfusion (congrArg Prod.snd h)
    · rw [htar] at h
      exact Bool.noConfusion (congrArg Prod.snd h)
    · rw [htar] at h
      have hshape := entryPhase_true_shape _ e h
      have hrest : rest = d.headerBuffer.drop blockSize := by
        unfold tarNext at htar
        rw [if_neg (show ¬d.headerBuffer.length < blockSize by
          unfold blockSize at hlen ⊢
          omega)] at htar
        by_cases hz : d.headerBuffer.take blockSize = zeroBlock
        · rw [if_pos hz] at htar
          rw [if_neg hlen] at htar
          split at htar <;> cases htar
        · rw [if_neg hz] at htar
          rcases hp : parseHeader (d.headerBuffer.take blockSize) with _ | hdr2
          · rw [hp] at htar
            cases htar
          · rw [hp] at htar
            cases htar
            rfl
      refine ⟨hshape.1, ?_, hshape.2.2⟩
      have h2 := hshape.2.1
      rw [show ({ d with
          currentFilename := cleanName hdr.name,
          entryHash := d.entryHash.write (selBytes d.headerSelector hdr),
          pad := computeBlockPadding hdr.size,
          tarReader := (⟨hdr.size⟩ : TarReader),
          currentBuffer := rest,
          digestStage := stageReadEntry } : Digest).currentBuffer = rest from rfl] at h2
      rw [hrest, List.length_drop] at h2
      unfold blockSize at h2 hlen
      omega

theorem cycle_progress (d e : Digest) (h : cycle d = (e, true)) :
    boundM e < boundM d := by
  unfold cycle at h
  by_cases h1 : d.digestStage = stageReadHeader
  · rw [if_pos h1] at h
    have := headerPhase_true_shape d e h
    unfold boundM
    rw [if_pos this.1, if_pos h1]
    omega
  · rw [if_neg h1] at h
    by_cases h2 : d.digestStage = stageReadEntry
    · rw [if_pos h2] at h
      have := entryPhase_true_shape d e h
      unfold boundM
      rw [if_pos this.1, if_neg h1]
      omega
    · rw [if_neg h2] at h
      by_cases h3 : d.digestStage = stageSkipPadding
      · rw [if_pos h3] at h
        have := padPhase_true_shape d e h
        unfold boundM
        rw [if_pos this.1, if_neg h1]
        omega
      · rw [if_neg h3] at h
        cases h

theorem runFrom_succ (f : Nat) (d : Digest) (hf : boundM d ≤ f) :
    runFrom (f + 1) d = runFrom f d := by
  induction f generalizing d with
  | zero =>
    unfold boundM at hf
    by_cases h1 : d.digestStage = stageReadHeader
    · rw [if_pos h1] at hf
      have hc : cycle d = (d, false) := by
        unfold cycle
        rw [if_pos h1]
        unfold headerPhase
        rw [if_pos (by unfold blockSize; omega)]
      show (match cycle d with
            | (e, true) => runFrom 0 e
            | (e, false) => e) = d
      rw [hc]
    · rw [if_neg h1] at hf
      omega
  | succ f ih =>
    show (match cycle d with
          | (e, true) => runFrom (f + 1) e
          | (e, false) => e) =
      (match cycle d with
          | (e, true) => runFrom f e
          | (e, false) => e)
    rcases hc : cycle d with ⟨e, b⟩
    cases b
    · rfl
    · have hp := cycle_progress d e hc
      exact ih e (by omega)

theorem runFrom_fuel (f g : Nat) (d : Digest) (hf : boundM d ≤ f) (hg : boundM d ≤ g) :
    runFrom f d = runFrom g d := by
  rcases Nat.le_total f g with hle | hle
  · obtain ⟨k, hk⟩ := Nat.le.dest hle
    subst hk
    clear hle hg
    induction k with
    | zero => rfl
    | succ k ih =>
      rw [show f + (k + 1) = f + k + 1 by omega, runFrom_succ _ _ (by omega)]
      exact ih
  · obtain ⟨k, hk⟩ := Nat.le.dest hle
    subst hk
    clear hle hf
    induction k with
    | zero => rfl
    | succ k ih =>
      rw [show g + (k + 1) = g + k + 1 by omega, runFrom_succ _ _ (by omega)]
      exact ih

/-! Record extensionality and buffer-append algebra for the write path. -/

theorem digest_eq_of_fields (x y : Digest)
    (h1 : x.version = y.version) (h2 : x.headerSelector = y.headerSelector)
    (h3 : x.digestStage = y.digestStage) (h4 : x.headerBuffer = y.headerBuffer)
    (h5 : x.tarReader = y.tarReader) (h6 : x.entryHash = y.entryHash)
    (h7 : x.sums = y.sums) (h8 : x.fileCounter = y.fileCounter)
    (h9 : x.bytesWritten = y.bytesWritten) (h10 : x.currentFilename = y.currentFilename)
    (h11 : x.pad = y.pad) (h12 : x.err = y.err) (h13 : x.currentBuffer = y.currentBuffer) :
    x = y := by
  cases x
  cases y
  dsimp only at h1 h2 h3 h4 h5 h6 h7 h8 h9 h10 h11 h12 h13
  subst h1 h2 h3 h4 h5 h6 h7 h8 h9 h10 h11 h12 h13
  rfl

theorem appendBytes_stage (d : Digest) (p : Bytes) :
    (appendBytes d p).digestStage = d.digestStage := by
  unfold appendBytes
  split <;> rfl

theorem appendBytes_sums (d : Digest) (p : Bytes) :
    (appendBytes d p).sums = d.sums := by
  unfold appendBytes
  split <;> rfl

theorem appendBytes_rh (d : Digest) (p : Bytes) (h : d.digestStage = stageReadHeader) :
    appendBytes d p = { d with headerBuffer := d.headerBuffer ++ p,
                               bytesWritten := (d.bytesWritten + p.length) % 2 ^ 64 } := by
  unfold appendBytes
  rw [if_pos h]

theorem appendBytes_not_rh (d : Digest) (p : Bytes) (h : d.digestStage ≠ stageReadHeader) :
    appendBytes d p = { d with currentBuffer := d.currentBuffer ++ p,
                               bytesWritten := (d.bytesWritten + p.length) % 2 ^ 64 } := by
  unfold appendBytes
  rw [if_neg h]

theorem appendBytes_append (d : Digest) (p q : Bytes) :
    appendBytes (appendBytes d p) q = appendBytes d (p ++ q) := by
  unfold appendBytes
  by_cases h : d.digestStage = stageReadHeader
  · rw [if_pos h, if_pos h, if_pos h]
    refine digest_eq_of_fields _ _ rfl rfl rfl ?_ rfl rfl rfl rfl ?_ rfl rfl rfl rfl
    · show d.headerBuffer ++ p ++ q = d.headerBuffer ++ (p ++ q)
      exact List.append_assoc _ _ _
    · show ((d.bytesWritten + p.length) % 2 ^ 64 + q.length) % 2 ^ 64 =
        (d.bytesWritten + (p ++ q).length) % 2 ^ 64
      rw [List.length_append]
      omega
  · rw [if_neg h, if_neg h, if_neg h]
    refine digest_eq_of_fields _ _ rfl rfl rfl rfl rfl rfl rfl rfl ?_ rfl rfl rfl ?_
    · show ((d.bytesWritten + p.length) % 2 ^ 64 + q.length) % 2 ^ 64 =
        (d.bytesWritten + (p ++ q).length) % 2 ^ 64
      rw [List.length_append]
      omega
    · show d.currentBuffer ++ p ++ q = d.currentBuffer ++ (p ++ q)
      exact List.append_assoc _ _ _

theorem appendBytes_nil (d : Digest) (hbw : d.bytesWritten < 2 ^ 64) :
    appendBytes d [] = d := by
  unfold appendBytes
  split
  · refine digest_eq_of_fields _ _ rfl rfl rfl ?_ rfl rfl rfl rfl ?_ rfl rfl rfl rfl
    · show d.headerBuffer ++ [] = d.headerBuffer
      exact List.append_nil _
    · show (d.bytesWritten + 0) % 2 ^ 64 = d.bytesWritten
      omega
  · refine digest_eq_of_fields _ _ rfl rfl rfl rfl rfl rfl rfl rfl ?_ rfl rfl rfl ?_
    · show (d.bytesWritten + 0) % 2 ^ 64 = d.bytesWritten
      omega
    · show d.currentBuffer ++ [] = d.currentBuffer
      exact List.append_nil _

theorem runFrom_false (d e : Digest) (h : cycle d = (e, false)) (f : Nat) :
    runFrom (f + 1) d = e := by
  show (match cycle d with
        | (e, true) => runFrom f e
        | (e, false) => e) = e
  rw [h]

theorem runFrom_true (d e : Digest) (h : cycle d = (e, true)) (f : Nat) :
    runFrom (f + 1) d = runFrom f e := by
  show (match cycle d with
        | (e, true) => runFrom f e
        | (e, false) => e) = runFrom f e
  rw [h]

theorem runFrom_congr_cycle (x y : Digest) (h : cycle x = cycle y) (f : Nat) :
    runFrom (f + 1) x = runFrom (f + 1) y := by
  show (match cycle x with
        | (e, true) => runFrom f e
        | (e, false) => e) =
    (match cycle y with
        | (e, true) => runFrom f e
        | (e, false) => e)
  rw [h]

theorem cycle_finished (d : Digest) (h : d.digestStage = stageFinished) :
    cycle d = (d, false) := by
  unfold cycle
  rw [h]
  rw [if_neg (Ne.symm stage_rh_ne_fin), if_neg (Ne.symm stage_re_ne_fin),
    if_neg (Ne.symm stage_sp_ne_fin)]

theorem runFrom_finished (f : Nat) (d : Digest) (h : d.digestStage = stageFinished) :
    runFrom f d = d := by
  cases f with
  | zero => rfl
  | succ f => exact runFrom_false d d (cycle_finished d h) f

theorem tarNext_ok_rest (buf : Bytes) (hdr : TarHeader) (rest : Bytes)
    (h : tarNext buf = .ok hdr rest) : rest = buf.drop blockSize := by
  unfold tarNext at h
  by_cases h1 : buf.length < blockSize
  · rw [if_pos h1] at h
    cases h
  · rw [if_neg h1] at h
    by_cases hz : buf.take blockSize = zeroBlock
    · rw [if_pos hz] at h
      by_cases h2 : buf.length < 2 * blockSize
      · rw [if_pos h2] at h
        cases h
      · rw [if_neg h2] at h
        split at h <;> cases h
    · rw [if_neg hz] at h
      rcases hp : parseHeader (buf.take blockSize) with _ | hdr2
      · rw [hp] at h
        cases h
      · rw [hp] at h
        cases h
        rfl

theorem resumable_write_append (r : Resumable) (a b : Bytes) :
    (r.write a).write b = r.write (a ++ b) :=
  congrArg Resumable.mk (List.append_assoc _ _ _)

/-- Equivalence of sessions up to the stale content of the header buffer
while an entry body or its padding is being consumed, and up to dead
buffer state after the session has finished.  The completed-entry list,
the stage, and (before finishing) every live field agree; the header
buffer must agree whenever the engine is back in the header-reading
stage, where it is read. -/
def wEq (x y : Digest) : Prop :=
  x.sums = y.sums ∧ x.digestStage = y.digestStage ∧
    (x.digestStage ≠ stageFinished →
      x.version = y.version ∧ x.headerSelector = y.headerSelector ∧
      x.tarReader = y.tarReader ∧ x.entryHash = y.entryHash ∧
      x.fileCounter = y.fileCounter ∧ x.bytesWritten = y.bytesWritten ∧
      x.currentFilename = y.currentFilename ∧ x.pad = y.pad ∧
      x.err = y.err ∧ x.currentBuffer = y.currentBuffer ∧
      (x.digestStage = stageReadHeader → x.headerBuffer = y.headerBuffer))

theorem wEq_refl (d : Digest) : wEq d d :=
  ⟨rfl, rfl, fun _ => ⟨rfl, rfl, rfl, rfl, rfl, rfl, rfl, rfl, rfl, rfl, fun _ => rfl⟩⟩

theorem wEq_of_eq (x y : Digest) (h : x = y) : wEq x y := h ▸ wEq_refl x

theorem wEq_symm (x y : Digest) (h : wEq x y) : wEq y x := by
  obtain ⟨hs, hst, hrest⟩ := h
  refine ⟨hs.symm, hst.symm, fun hnf => ?_⟩
  obtain ⟨a1, a2, a3, a4, a5, a6, a7, a8, a9, a10, a11⟩ := hrest (hst ▸ hnf)
  exact ⟨a1.symm, a2.symm, a3.symm, a4.symm, a5.symm, a6.symm, a7.symm, a8.symm,
    a9.symm, a10.symm, fun hh => (a11 (hst ▸ hh)).symm⟩

theorem wEq_trans (x y z : Digest) (hxy : wEq x y) (hyz : wEq y z) : wEq x z := by
  obtain ⟨hs1, hst1, hr1⟩ := hxy
  obtain ⟨hs2, hst2, hr2⟩ := hyz
  refine ⟨hs1.trans hs2, hst1.trans hst2, fun hnf => ?_⟩
  obtain ⟨a1, a2, a3, a4, a5, a6, a7, a8, a9, a10, a11⟩ := hr1 hnf
  obtain ⟨b1, b2, b3, b4, b5, b6, b7, b8, b9, b10, b11⟩ := hr2 (hst1 ▸ hnf)
  exact ⟨a1.trans b1, a2.trans b2, a3.trans b3, a4.trans b4, a5.trans b5, a6.trans b6,
    a7.trans b7, a8.trans b8, a9.trans b9, a10.trans b10,
    fun hh => (a11 hh).trans (b11 (hst1 ▸ hh))⟩

theorem sumBytes_congr (x y : Digest) (extra : Option Bytes) (h : x.sums = y.sums) :
    x.sumBytes extra = y.sumBytes extra := by
  unfold Digest.sumBytes topInput
  rw [h]

theorem wEq_sumBytes (x y : Digest) (extra : Option Bytes) (h : wEq x y) :
    x.sumBytes extra = y.sumBytes extra :=
  sumBytes_congr x y extra h.1

/-! Stage dispatch helpers and header-buffer irrelevance of the body and
padding handlers: while an entry body or padding is consumed the engine
never reads the header buffer, and entry finalization overwrites it. -/

theorem cycle_rh (d : Digest) (h : d.digestStage = stageReadHeader) :
    cycle d = headerPhase d := by
  unfold cycle
  rw [if_pos h]

theorem cycle_re (d : Digest) (h : d.digestStage = stageReadEntry) :
    cycle d = entryPhase d := by
  unfold cycle
  rw [h]
  rw [if_neg (Ne.symm stage_rh_ne_re), if_pos rfl]

theorem cycle_sp (d : Digest) (h : d.digestStage = stageSkipPadding) :
    cycle d = padPhase d := by
  unfold cycle
  rw [h]
  rw [if_neg (Ne.symm stage_rh_ne_sp), if_neg (Ne.symm stage_re_ne_sp), if_pos rfl]

theorem padPhase_hb_true (R e : Digest) (hb2 : Bytes) (h : padPhase R = (e, true)) :
    padPhase { R with headerBuffer := hb2 } = (e, true) := by
  by_cases hc : R.pad ≤ R.currentBuffer.length
  · rw [padPhase_of_le R hc] at h
    have he := congrArg Prod.fst h
    rw [padPhase_of_le { R with headerBuffer := hb2 } hc]
    rw [Prod.mk.injEq]
    exact ⟨he, rfl⟩
  · rw [padPhase_of_gt R (by omega)] at h
    exact Bool.noConfusion (congrArg Prod.snd h)

theorem padPhase_hb_false (R e : Digest) (hb2 : Bytes) (h : padPhase R = (e, false)) :
    padPhase { R with headerBuffer := hb2 } = ({ e with headerBuffer := hb2 }, false) ∧
      e.digestStage = R.digestStage := by
  by_cases hc : R.pad ≤ R.currentBuffer.length
  · rw [padPhase_of_le R hc] at h
    exact Bool.noConfusion (congrArg Prod.snd h)
  · rw [padPhase_of_gt R (by omega)] at h
    have he := congrArg Prod.fst h
    subst he
    rw [padPhase_of_gt { R with headerBuffer := hb2 }
      (by show R.currentBuffer.length < R.pad; omega)]
    exact ⟨rfl, rfl⟩

theorem entryPhase_hb_true (S e : Digest) (hb2 : Bytes) (h : entryPhase S = (e, true)) :
    entryPhase { S with headerBuffer := hb2 } = (e, true) := by
  by_cases hnil : S.currentBuffer = []
  · rw [entryPhase_nil S hnil] at h
    exact Bool.noConfusion (congrArg Prod.snd h)
  · by_cases hle : S.tarReader.numBytes ≤ S.currentBuffer.length
    · rw [entryPhase_of_le S hnil hle] at h
      rw [entryPhase_of_le { S with headerBuffer := hb2 } hnil hle]
      exact padPhase_hb_true _ e hb2 h
    · rw [entryPhase_of_gt S hnil (by omega)] at h
      exact Bool.noConfusion (congrArg Prod.snd h)

theorem entryPhase_hb_false (S e : Digest) (hb2 : Bytes) (h : entryPhase S = (e, false)) :
    entryPhase { S with headerBuffer := hb2 } = ({ e with headerBuffer := hb2 }, false) ∧
      (e.digestStage = S.digestStage ∨ e.digestStage = stageSkipPadding) := by
  by_cases hnil : S.currentBuffer = []
  · rw [entryPhase_nil S hnil] at h
    have he := congrArg Prod.fst h
    subst he
    rw [entryPhase_nil { S with headerBuffer := hb2 } hnil]
    exact ⟨rfl, Or.inl rfl⟩
  · by_cases hle : S.tarReader.numBytes ≤ S.currentBuffer.length
    · rw [entryPhase_of_le S hnil hle] at h
      rw [entryPhase_of_le { S with headerBuffer := hb2 } hnil hle]
      have hp := padPhase_hb_false _ e hb2 h
      exact ⟨hp.1, Or.inr hp.2⟩
    · rw [entryPhase_of_gt S hnil (by omega)] at h
      have he := congrArg Prod.fst h
      subst he
      rw [entryPhase_of_gt { S with headerBuffer := hb2 } hnil
        (by show S.currentBuffer.length < S.tarReader.numBytes; omega)]
      exact ⟨rfl, Or.inl rfl⟩

theorem cycle_hb_true (d e : Digest) (h2 : Bytes)
    (hst : d.digestStage = stageReadEntry ∨ d.digestStage = stageSkipPadding)
    (h : cycle d = (e, true)) :
    cycle { d with headerBuffer := h2 } = (e, true) := by
  rcases hst with hs | hs
  · rw [cycle_re d hs] at h
    rw [cycle_re { d with headerBuffer := h2 } hs]
    exact entryPhase_hb_true d e h2 h
  · rw [cycle_sp d hs] at h
    rw [cycle_sp { d with headerBuffer := h2 } hs]
    exact padPhase_hb_true d e h2 h

theorem cycle_hb_false (d e : Digest) (h2 : Bytes)
    (hst : d.digestStage = stageReadEntry ∨ d.digestStage = stageSkipPadding)
    (h : cycle d = (e, false)) :
    cycle { d with headerBuffer := h2 } = ({ e with headerBuffer := h2 }, false) ∧
      (e.digestStage = stageReadEntry ∨ e.digestStage = stageSkipPadding) := by
  rcases hst with hs | hs
  · rw [cycle_re d hs] at h
    rw [cycle_re { d with headerBuffer := h2 } hs]
    have hp := entryPhase_hb_false d e h2 h
    exact ⟨hp.1, hp.2.imp (fun he => he.trans hs) id⟩
  · rw [cycle_sp d hs] at h
    rw [cycle_sp { d with headerBuffer := h2 } hs]
    have hp := padPhase_hb_false d e h2 h
    exact ⟨hp.1, Or.inr (hp.2.trans hs)⟩

theorem runFrom_hb (f : Nat) (d : Digest) (h2 : Bytes)
    (hst : d.digestStage = stageReadEntry ∨ d.digestStage = stageSkipPadding) :
    runFrom f { d with headerBuffer := h2 } = runFrom f d ∨
      (runFrom f { d with headerBuffer := h2 } = { runFrom f d with headerBuffer := h2 } ∧
        ((runFrom f d).digestStage = stageReadEntry ∨
          (runFrom f d).digestStage = stageSkipPadding)) := by
  cases f with
  | zero => exact Or.inr ⟨rfl, hst⟩
  | succ f =>
    rcases hc : cycle d with ⟨e, b⟩
    cases b
    · have hp := cycle_hb_false d e h2 hst hc
      right
      rw [runFrom_false _ _ hc f, runFrom_false _ _ hp.1 f]
      exact ⟨rfl, hp.2⟩
    · have hp := cycle_hb_true d e h2 hst hc
      left
      rw [runFrom_true _ _ hc f, runFrom_true _ _ hp f]

/-! Composition of the padding handler with extra buffered bytes: a write
arriving in two pieces behaves like the concatenated write, with the
stale header buffer and the updated byte counter threaded through. -/

theorem padPhase_app_true (R e : Digest) (hb2 : Bytes) (bw2 : Nat) (q : Bytes)
    (h : padPhase R = (e, true)) :
    padPhase { R with headerBuffer := hb2, bytesWritten := bw2,
                      currentBuffer := R.currentBuffer ++ q } =
      ({ e with headerBuffer := e.headerBuffer ++ q, bytesWritten := bw2 }, true) := by
  by_cases hc : R.pad ≤ R.currentBuffer.length
  · rw [padPhase_of_le R hc, Prod.mk.injEq] at h
    obtain ⟨he, -⟩ := h
    subst he
    rw [padPhase_of_le { R with headerBuffer := hb2, bytesWritten := bw2, currentBuffer := R.currentBuffer ++ q } (show R.pad ≤ (R.currentBuffer ++ q).length by rw [List.length_append]; omega)]
    rw [Prod.mk.injEq]
    refine ⟨?_, rfl⟩
    refine digest_eq_of_fields _ _ rfl rfl rfl ?_ rfl rfl rfl rfl rfl rfl rfl rfl rfl
    show (R.currentBuffer ++ q).drop R.pad = R.currentBuffer.drop R.pad ++ q
    exact List.drop_append_of_le_length hc
  · rw [padPhase_of_gt R (by omega)] at h
    exact Bool.noConfusion (congrArg Prod.snd h)

theorem padPhase_app_false (R e : Digest) (hb2 : Bytes) (bw2 : Nat) (q : Bytes)
    (h : padPhase R = (e, false)) :
    padPhase { R with headerBuffer := hb2, bytesWritten := bw2,
                      currentBuffer := R.currentBuffer ++ q } =
      padPhase { e with headerBuffer := hb2, bytesWritten := bw2, currentBuffer := q } ∧
      e.currentBuffer = [] ∧ e.headerBuffer = R.headerBuffer ∧
      e.bytesWritten = R.bytesWritten ∧ e.digestStage = R.digestStage ∧ 0 < e.pad := by
  by_cases hc : R.pad ≤ R.currentBuffer.length
  · rw [padPhase_of_le R hc] at h
    exact Bool.noConfusion (congrArg Prod.snd h)
  · rw [padPhase_of_gt R (by omega), Prod.mk.injEq] at h
    obtain ⟨he, -⟩ := h
    subst he
    refine ⟨?_, rfl, rfl, rfl, rfl, by show 0 < R.pad - R.currentBuffer.length; omega⟩
    by_cases hq : R.pad ≤ R.currentBuffer.length + q.length
    · rw [padPhase_of_le { R with headerBuffer := hb2, bytesWritten := bw2, currentBuffer := R.currentBuffer ++ q } (show R.pad ≤ (R.currentBuffer ++ q).length by rw [List.length_append]; omega)]
      rw [padPhase_of_le { ({ R with currentBuffer := [], pad := R.pad - R.currentBuffer.length } : Digest) with headerBuffer := hb2, bytesWritten := bw2, currentBuffer := q } (show R.pad - R.currentBuffer.length ≤ q.length by omega)]
      rw [Prod.mk.injEq]
      refine ⟨?_, rfl⟩
      refine digest_eq_of_fields _ _ rfl rfl rfl ?_ rfl rfl rfl rfl rfl rfl rfl rfl rfl
      show (R.currentBuffer ++ q).drop R.pad =
        q.drop (R.pad - R.currentBuffer.length)
      rw [List.drop_append_eq_append_drop, List.drop_eq_nil_of_le (by omega),
        List.nil_append]
    · rw [padPhase_of_gt { R with headerBuffer := hb2, bytesWritten := bw2, currentBuffer := R.currentBuffer ++ q } (show (R.currentBuffer ++ q).length < R.pad by rw [List.length_append]; omega)]
      rw [padPhase_of_gt { ({ R with currentBuffer := [], pad := R.pad - R.currentBuffer.length } : Digest) with headerBuffer := hb2, bytesWritten := bw2, currentBuffer := q } (show q.length < R.pad - R.currentBuffer.length by omega)]
      rw [Prod.mk.injEq]
      refine ⟨?_, rfl⟩
      refine digest_eq_of_fields _ _ rfl rfl rfl rfl rfl rfl rfl rfl rfl rfl ?_ rfl rfl
      show R.pad - (R.currentBuffer ++ q).length =
        R.pad - R.currentBuffer.length - q.length
      rw [List.length_append]
      omega

/-! Composition of the body handler with extra buffered bytes. -/

theorem entryPhase_app_true (S e : Digest) (hb2 : Bytes) (bw2 : Nat) (q : Bytes)
    (h : entryPhase S = (e, true)) :
    entryPhase { S with headerBuffer := hb2, bytesWritten := bw2,
                        currentBuffer := S.currentBuffer ++ q } =
      ({ e with headerBuffer := e.headerBuffer ++ q, bytesWritten := bw2 }, true) := by
  by_cases hnil : S.currentBuffer = []
  · rw [entryPhase_nil S hnil] at h
    exact Bool.noConfusion (congrArg Prod.snd h)
  · by_cases hle : S.tarReader.numBytes ≤ S.currentBuffer.length
    · rw [entryPhase_of_le S hnil hle] at h
      rw [entryPhase_of_le { S with headerBuffer := hb2, bytesWritten := bw2, currentBuffer := S.currentBuffer ++ q } (show S.currentBuffer ++ q ≠ [] from fun hc => hnil (List.append_eq_nil.mp hc).1) (show S.tarReader.numBytes ≤ (S.currentBuffer ++ q).length by rw [List.length_append]; omega)]
      dsimp only
      rw [List.take_append_of_le_length hle, List.drop_append_of_le_length hle]
      exact padPhase_app_true _ e hb2 bw2 q h
    · rw [entryPhase_of_gt S hnil (by omega)] at h
      exact Bool.noConfusion (congrArg Prod.snd h)

theorem entryPhase_app_false (S e : Digest) (hb2 : Bytes) (bw2 : Nat) (q : Bytes)
    (hS : S.digestStage = stageReadEntry)
    (h : entryPhase S = (e, false)) :
    entryPhase { S with headerBuffer := hb2, bytesWritten := bw2,
                        currentBuffer := S.currentBuffer ++ q } =
      cycle { e with headerBuffer := hb2, bytesWritten := bw2, currentBuffer := q } ∧
      e.currentBuffer = [] ∧ e.headerBuffer = S.headerBuffer ∧
      e.bytesWritten = S.bytesWritten ∧
      (e.digestStage = stageReadEntry ∨ e.digestStage = stageSkipPadding) := by
  by_cases hnil : S.currentBuffer = []
  · rw [entryPhase_nil S hnil, Prod.mk.injEq] at h
    obtain ⟨he, -⟩ := h
    subst he
    refine ⟨?_, hnil, rfl, rfl, Or.inl hS⟩
    rw [cycle_re { S with headerBuffer := hb2, bytesWritten := bw2, currentBuffer := q } hS]
    rw [hnil, List.nil_append]
  · by_cases hle : S.tarReader.numBytes ≤ S.currentBuffer.length
    · rw [entryPhase_of_le S hnil hle] at h
      have hp := padPhase_app_false _ e hb2 bw2 q h
      refine ⟨?_, hp.2.1, hp.2.2.1, hp.2.2.2.1, Or.inr hp.2.2.2.2.1⟩
      rw [cycle_sp { e with headerBuffer := hb2, bytesWritten := bw2, currentBuffer := q } (show e.digestStage = stageSkipPadding from hp.2.2.2.2.1)]
      rw [entryPhase_of_le { S with headerBuffer := hb2, bytesWritten := bw2, currentBuffer := S.currentBuffer ++ q } (show S.currentBuffer ++ q ≠ [] from fun hc => hnil (List.append_eq_nil.mp hc).1) (show S.tarReader.numBytes ≤ (S.currentBuffer ++ q).length by rw [List.length_append]; omega)]
      dsimp only
      rw [List.take_append_of_le_length hle, List.drop_append_of_le_length hle]
      exact hp.1
    · rw [entryPhase_of_gt S hnil (by omega), Prod.mk.injEq] at h
      obtain ⟨he, -⟩ := h
      subst he
      refine ⟨?_, rfl, rfl, rfl, Or.inl hS⟩
      rw [cycle_re { ({ S with entryHash := S.entryHash.write S.currentBuffer, currentBuffer := [], tarReader := ⟨S.tarReader.numBytes - S.currentBuffer.length⟩ } : Digest) with headerBuffer := hb2, bytesWritten := bw2, currentBuffer := q } hS]
      by_cases hq : S.tarReader.numBytes - S.currentBuffer.length ≤ q.length
      · have hqne : q ≠ [] := by
          intro h0
          subst h0
          simp only [List.length_nil] at hq
          omega
        rw [entryPhase_of_le { S with headerBuffer := hb2, bytesWritten := bw2, currentBuffer := S.currentBuffer ++ q } (show S.currentBuffer ++ q ≠ [] from fun hc => hnil (List.append_eq_nil.mp hc).1) (show S.tarReader.numBytes ≤ (S.currentBuffer ++ q).length by rw [List.length_append]; omega)]
        rw [entryPhase_of_le { ({ S with entryHash := S.entryHash.write S.currentBuffer, currentBuffer := [], tarReader := ⟨S.tarReader.numBytes - S.currentBuffer.length⟩ } : Digest) with headerBuffer := hb2, bytesWritten := bw2, currentBuffer := q } hqne hq]
        refine congrArg padPhase (digest_eq_of_fields _ _ rfl rfl rfl rfl rfl ?_ rfl rfl rfl rfl rfl rfl ?_)
        · show S.entryHash.write ((S.currentBuffer ++ q).take S.tarReader.numBytes) =
            (S.entryHash.write S.currentBuffer).write
              (q.take (S.tarReader.numBytes - S.currentBuffer.length))
          rw [resumable_write_append, List.take_append_eq_append_take,
            List.take_of_length_le (by omega)]
        · show (S.currentBuffer ++ q).drop S.tarReader.numBytes =
            q.drop (S.tarReader.numBytes - S.currentBuffer.length)
          rw [List.drop_append_eq_append_drop, List.drop_eq_nil_of_le (by omega),
            List.nil_append]
      · by_cases hq0 : q = []
        · subst hq0
          rw [entryPhase_of_gt { S with headerBuffer := hb2, bytesWritten := bw2, currentBuffer := S.currentBuffer ++ [] } (show S.currentBuffer ++ [] ≠ [] from fun hc => hnil (List.append_eq_nil.mp hc).1) (show (S.currentBuffer ++ []).length < S.tarReader.numBytes by rw [List.length_append]; simp only [List.length_nil]; omega)]
          rw [entryPhase_nil { ({ S with entryHash := S.entryHash.write S.currentBuffer, currentBuffer := [], tarReader := ⟨S.tarReader.numBytes - S.currentBuffer.length⟩ } : Digest) with headerBuffer := hb2, bytesWritten := bw2, currentBuffer := [] } rfl]
          rw [Prod.mk.injEq]
          refine ⟨?_, rfl⟩
          refine digest_eq_of_fields _ _ rfl rfl rfl rfl ?_ ?_ rfl rfl rfl rfl rfl rfl rfl
          · show (⟨S.tarReader.numBytes - (S.currentBuffer ++ []).length⟩ : TarReader) =
              ⟨S.tarReader.numBytes - S.currentBuffer.length⟩
            rw [List.append_nil]
          · show S.entryHash.write (S.currentBuffer ++ []) = S.entryHash.write S.currentBuffer
            rw [List.append_nil]
        · rw [entryPhase_of_gt { S with headerBuffer := hb2, bytesWritten := bw2, currentBuffer := S.currentBuffer ++ q } (show S.currentBuffer ++ q ≠ [] from fun hc => hnil (List.append_eq_nil.mp hc).1) (show (S.currentBuffer ++ q).length < S.tarReader.numBytes by rw [List.length_append]; omega)]
          rw [entryPhase_of_gt { ({ S with entryHash := S.entryHash.write S.currentBuffer, currentBuffer := [], tarReader := ⟨S.tarReader.numBytes - S.currentBuffer.length⟩ } : Digest) with headerBuffer := hb2, bytesWritten := bw2, currentBuffer := q } hq0 (show q.length < S.tarReader.numBytes - S.currentBuffer.length by omega)]
          rw [Prod.mk.injEq]
          refine ⟨?_, rfl⟩
          refine digest_eq_of_fields _ _ rfl rfl rfl rfl ?_ ?_ rfl rfl rfl rfl rfl rfl rfl
          · show (⟨S.tarReader.numBytes - (S.currentBuffer ++ q).length⟩ : TarReader) =
              ⟨S.tarReader.numBytes - S.currentBuffer.length - q.length⟩
            rw [List.length_append]
            exact congrArg TarReader.mk (by omega)
          · show S.entryHash.write (S.currentBuffer ++ q) =
              (S.entryHash.write S.currentBuffer).write q
            exact (resumable_write_append _ _ _).symm

/-! Branch forms of the header handler, fuel-flexible unfolding of a
write, and preservation of the between-writes state invariant. -/

theorem headerPhase_ok (d : Digest) (hdr : TarHeader) (rest : Bytes)
    (hlen : ¬d.headerBuffer.length < 2 * blockSize)
    (htar : tarNext d.headerBuffer = .ok hdr rest) :
    headerPhase d = entryPhase { d with
      currentFilename := cleanName hdr.name,
      entryHash := d.entryHash.write (selBytes d.headerSelector hdr),
      pad := computeBlockPadding hdr.size,
      tarReader := ⟨hdr.size⟩,
      currentBuffer := rest,
      digestStage := stageReadEntry } := by
  unfold headerPhase
  rw [if_neg hlen, htar]

theorem headerPhase_end (d : Digest)
    (hlen : ¬d.headerBuffer.length < 2 * blockSize)
    (htar : tarNext d.headerBuffer = .endOfArchive) :
    headerPhase d = ({ d with
      digestStage := stageFinished,
      currentBuffer := d.headerBuffer.drop (2 * blockSize),
      tarReader := ⟨0⟩ }, false) := by
  unfold headerPhase
  rw [if_neg hlen, htar]

theorem headerPhase_err (d : Digest)
    (hlen : ¬d.headerBuffer.length < 2 * blockSize)
    (htar : tarNext d.headerBuffer = .headerErr) :
    headerPhase d = ({ d with
      err := some .errHeader,
      digestStage := stageFinished,
      currentBuffer := d.headerBuffer.drop blockSize,
      tarReader := ⟨0⟩ }, false) := by
  unfold headerPhase
  rw [if_neg hlen, htar]

theorem boundM_rh (d : Digest) (h : d.digestStage = stageReadHeader) :
    boundM d = d.headerBuffer.length := by
  unfold boundM
  rw [if_pos h]

theorem boundM_not_rh (d : Digest) (h : d.digestStage ≠ stageReadHeader) :
    boundM d = d.currentBuffer.length + 1 := by
  unfold boundM
  rw [if_neg h]

theorem write1_eq_runFrom (d : Digest) (q : Bytes) (g : Nat)
    (hk : d.digestStage = stageReadHeader ∨ d.digestStage = stageReadEntry ∨
      d.digestStage = stageSkipPadding)
    (hg : boundM (appendBytes d q) < g) :
    write1 d q = runFrom g (appendBytes d q) := by
  have hnf : d.digestStage ≠ stageFinished := by
    rcases hk with hs | hs | hs <;> rw [hs]
    · exact stage_rh_ne_fin
    · exact stage_re_ne_fin
    · exact stage_sp_ne_fin
  unfold write1 Digest.write
  rw [if_neg hnf, if_pos hk]
  dsimp only
  refine runFrom_fuel _ _ _ ?_ (by omega)
  unfold boundM
  split <;> omega

theorem GoodSt_cycle (d : Digest) (hg : GoodSt d) (hnf : d.digestStage ≠ stageFinished) :
    cycle d = (d, false) := by
  rcases hg.2 with ⟨hs, hcur, hlen⟩ | ⟨hs, hcur⟩ | ⟨hs, hcur, hpad⟩ | hs
  · rw [cycle_rh d hs]
    unfold headerPhase
    rw [if_pos hlen]
  · rw [cycle_re d hs]
    exact entryPhase_nil d hcur
  · rw [cycle_sp d hs]
    rw [padPhase_of_gt d (show d.currentBuffer.length < d.pad by rw [hcur]; exact hpad)]
    rw [Prod.mk.injEq]
    refine ⟨?_, rfl⟩
    refine digest_eq_of_fields _ _ rfl rfl rfl rfl rfl rfl rfl rfl rfl rfl ?_ rfl ?_
    · show d.pad - d.currentBuffer.length = d.pad
      rw [hcur]
      simp only [List.length_nil]
      omega
    · show ([] : Bytes) = d.currentBuffer
      exact hcur.symm
  · exact absurd hs hnf

theorem runFrom_quiet (f : Nat) (d : Digest) (hg : GoodSt d) : runFrom f d = d := by
  by_cases hnf : d.digestStage = stageFinished
  · exact runFrom_finished f d hnf
  · cases f with
    | zero => rfl
    | succ f => exact runFrom_false d d (GoodSt_cycle d hg hnf) f

/-- The stage part of the between-writes invariant: waiting stages hold no
unconsumed current-buffer bytes, a waiting header stage has fewer than two
blocks, a waiting padding stage still expects padding. -/
def quietSt (d : Digest) : Prop :=
  d.digestStage = stageReadHeader ∧ d.currentBuffer = [] ∧
      d.headerBuffer.length < 2 * blockSize ∨
    d.digestStage = stageReadEntry ∧ d.currentBuffer = [] ∨
    d.digestStage = stageSkipPadding ∧ d.currentBuffer = [] ∧ 0 < d.pad ∨
    d.digestStage = stageFinished

theorem padPhase_false_quiet (R e : Digest) (hsp : R.digestStage = stageSkipPadding)
    (h : padPhase R = (e, false)) : quietSt e := by
  by_cases hc : R.pad ≤ R.currentBuffer.length
  · rw [padPhase_of_le R hc] at h
    exact Bool.noConfusion (congrArg Prod.snd h)
  · rw [padPhase_of_gt R (by omega), Prod.mk.injEq] at h
    obtain ⟨he, -⟩ := h
    subst he
    exact Or.inr (Or.inr (Or.inl ⟨hsp, rfl,
      by show 0 < R.pad - R.currentBuffer.length; omega⟩))

theorem entryPhase_false_quiet (S e : Digest) (hre : S.digestStage = stageReadEntry)
    (h : entryPhase S = (e, false)) : quietSt e := by
  by_cases hnil : S.currentBuffer = []
  · rw [entryPhase_nil S hnil, Prod.mk.injEq] at h
    obtain ⟨he, -⟩ := h
    subst he
    exact Or.inr (Or.inl ⟨hre, hnil⟩)
  · by_cases hle : S.tarReader.numBytes ≤ S.currentBuffer.length
    · rw [entryPhase_of_le S hnil hle] at h
      exact padPhase_false_quiet _ e rfl h
    · rw [entryPhase_of_gt S hnil (by omega), Prod.mk.injEq] at h
      obtain ⟨he, -⟩ := h
      subst he
      exact Or.inr (Or.inl ⟨hre, rfl⟩)

theorem cycle_false_quiet (d e : Digest) (hk : stageKnown d)
    (hrh : d.digestStage = stageReadHeader → d.currentBuffer = [])
    (h : cycle d = (e, false)) : quietSt e := by
  rcases hk with hs | hs | hs | hs
  · rw [cycle_rh d hs] at h
    by_cases hlen : d.headerBuffer.length < 2 * blockSize
    · rw [show headerPhase d = (d, false) from by unfold headerPhase; rw [if_pos hlen],
        Prod.mk.injEq] at h
      obtain ⟨he, -⟩ := h
      subst he
      exact Or.inl ⟨hs, hrh hs, hlen⟩
    · rcases htar : tarNext d.headerBuffer with _ | _ | _ | ⟨hdr, rest⟩
      · rw [headerPhase_end d hlen htar, Prod.mk.injEq] at h
        obtain ⟨he, -⟩ := h
        subst he
        exact Or.inr (Or.inr (Or.inr rfl))
      · exact absurd htar (tarNext_not_needMore _ (by unfold blockSize at hlen; omega))
      · rw [headerPhase_err d hlen htar, Prod.mk.injEq] at h
        obtain ⟨he, -⟩ := h
        subst he
        exact Or.inr (Or.inr (Or.inr rfl))
      · rw [headerPhase_ok d hdr rest hlen htar] at h
        exact entryPhase_false_quiet _ e rfl h
  · rw [cycle_re d hs] at h
    exact entryPhase_false_quiet d e hs h
  · rw [cycle_sp d hs] at h
    exact padPhase_false_quiet d e hs h
  · rw [cycle_finished d hs, Prod.mk.injEq] at h
    obtain ⟨he, -⟩ := h
    subst he
    exact Or.inr (Or.inr (Or.inr hs))

theorem cycle_true_shape (d e : Digest) (h : cycle d = (e, true)) :
    e.digestStage = stageReadHeader ∧ e.currentBuffer = [] := by
  unfold cycle at h
  by_cases h1 : d.digestStage = stageReadHeader
  · rw [if_pos h1] at h
    have hh := headerPhase_true_shape d e h
    exact ⟨hh.1, hh.2.2⟩
  · rw [if_neg h1] at h
    by_cases h2 : d.digestStage = stageReadEntry
    · rw [if_pos h2] at h
      have hh := entryPhase_true_shape d e h
      exact ⟨hh.1, hh.2.2⟩
    · rw [if_neg h2] at h
      by_cases h3 : d.digestStage = stageSkipPadding
      · rw [if_pos h3] at h
        have hh := padPhase_true_shape d e h
        exact ⟨hh.1, hh.2.2⟩
      · rw [if_neg h3] at h
        exact Bool.noConfusion (congrArg Prod.snd h)

theorem runFrom_quiet_result (f : Nat) (d : Digest) (hk : stageKnown d)
    (hrh : d.digestStage = stageReadHeader → d.currentBuffer = [])
    (hf : boundM d < f) : quietSt (runFrom f d) := by
  induction f generalizing d with
  | zero => omega
  | succ f ih =>
    rcases hc : cycle d with ⟨e, b⟩
    cases b
    · rw [runFrom_false d e hc f]
      exact cycle_false_quiet d e hk hrh hc
    · rw [runFrom_true d e hc f]
      have hsh := cycle_true_shape d e hc
      have hpr := cycle_progress d e hc
      exact ih e (Or.inl hsh.1) (fun _ => hsh.2) (by omega)

theorem GoodSt_stageKnown (d : Digest) (hg : GoodSt d) : stageKnown d := by
  rcases hg.2 with ⟨hs, -, -⟩ | ⟨hs, -⟩ | ⟨hs, -, -⟩ | hs
  · exact Or.inl hs
  · exact Or.inr (Or.inl hs)
  · exact Or.inr (Or.inr (Or.inl hs))
  · exact Or.inr (Or.inr (Or.inr hs))

theorem GoodSt_write1 (d : Digest) (p : Bytes) (hg : GoodSt d) : GoodSt (write1 d p) := by
  by_cases hnf : d.digestStage = stageFinished
  · rw [write1_finished d p hnf]
    exact hg
  · have hk3 : d.digestStage = stageReadHeader ∨ d.digestStage = stageReadEntry ∨
        d.digestStage = stageSkipPadding := by
      rcases GoodSt_stageKnown d hg with hs | hs | hs | hs
      · exact Or.inl hs
      · exact Or.inr (Or.inl hs)
      · exact Or.inr (Or.inr hs)
      · exact absurd hs hnf
    rw [write1_eq_runFrom d p (boundM (appendBytes d p) + 1) hk3 (by omega)]
    constructor
    · rw [runFrom_bw]
      have hbw : (appendBytes d p).bytesWritten = (d.bytesWritten + p.length) % 2 ^ 64 := by
        unfold appendBytes
        split <;> rfl
      rw [hbw]
      exact Nat.mod_lt _ (by omega)
    · refine runFrom_quiet_result _ _ ?_ ?_ (by omega)
      · unfold stageKnown
        rw [appendBytes_stage]
        exact GoodSt_stageKnown d hg
      · intro hsA
        have hds : d.digestStage = stageReadHeader := by
          rw [← appendBytes_stage d p]
          exact hsA
        rcases hg.2 with ⟨-, hcur, -⟩ | ⟨hs2, -⟩ | ⟨hs2, -, -⟩ | hs2
        · rw [appendBytes_rh d p hds]
          exact hcur
        · exact absurd (hds.symm.trans hs2) stage_rh_ne_re
        · exact absurd (hds.symm.trans hs2) stage_rh_ne_sp
        · exact absurd hs2 hnf

/-! One write step compared against the same bytes arriving while the
engine waits in the body stage: the single-cycle outcome either
finalizes the entry identically on both sides, or quiesces in states
that differ at most in the stale header buffer. -/

theorem resume_step_re (f g' : Nat) (T : Digest) (hb2 q : Bytes)
    (hT : T.digestStage = stageReadEntry)
    (ih : ∀ (d2 : Digest) (g2 : Nat) (q2 : Bytes), stageKnown d2 →
      (d2.digestStage = stageReadHeader → d2.currentBuffer = []) → boundM d2 < f →
      boundM (appendBytes d2 q2) < g2 →
      wEq (write1 (runFrom f d2) q2) (runFrom g2 (appendBytes d2 q2)))
    (hfT : boundM T < f + 1)
    (hgT : boundM ({ T with headerBuffer := hb2, bytesWritten := (T.bytesWritten + q.length) % 2 ^ 64, currentBuffer := T.currentBuffer ++ q } : Digest) < g' + 1) :
    wEq (write1 (runFrom (f + 1) T) q)
      (runFrom (g' + 1) { T with headerBuffer := hb2, bytesWritten := (T.bytesWritten + q.length) % 2 ^ 64, currentBuffer := T.currentBuffer ++ q }) := by
  rcases hph : entryPhase T with ⟨e, b⟩
  have hcyc : cycle T = (e, b) := (cycle_re T hT).trans hph
  have hcycC : cycle { T with headerBuffer := hb2, bytesWritten := (T.bytesWritten + q.length) % 2 ^ 64, currentBuffer := T.currentBuffer ++ q } = entryPhase { T with headerBuffer := hb2, bytesWritten := (T.bytesWritten + q.length) % 2 ^ 64, currentBuffer := T.currentBuffer ++ q } := cycle_re _ hT
  cases b
  · have happ := entryPhase_app_false T e hb2 ((T.bytesWritten + q.length) % 2 ^ 64) q hT hph
    rw [runFrom_false T e hcyc f]
    have hRHS : runFrom (g' + 1) { T with headerBuffer := hb2, bytesWritten := (T.bytesWritten + q.length) % 2 ^ 64, currentBuffer := T.currentBuffer ++ q } = runFrom (g' + 1) { e with headerBuffer := hb2, bytesWritten := (T.bytesWritten + q.length) % 2 ^ 64, currentBuffer := q } := runFrom_congr_cycle _ _ (hcycC.trans happ.1) g'
    rw [hRHS]
    have hse := happ.2.2.2.2
    have hne : e.digestStage ≠ stageReadHeader := by
      rcases hse with h | h
      · exact fun hc => stage_rh_ne_re (hc.symm.trans h)
      · exact fun hc => stage_rh_ne_sp (hc.symm.trans h)
    have hebw : e.bytesWritten = T.bytesWritten := happ.2.2.2.1
    have hecur : e.currentBuffer = [] := happ.2.1
    have hB : appendBytes e q = { e with bytesWritten := (T.bytesWritten + q.length) % 2 ^ 64, currentBuffer := q } := by
      rw [appendBytes_not_rh e q hne]
      refine digest_eq_of_fields _ _ rfl rfl rfl rfl rfl rfl rfl rfl ?_ rfl rfl rfl ?_
      · show (e.bytesWritten + q.length) % 2 ^ 64 = (T.bytesWritten + q.length) % 2 ^ 64
        rw [hebw]
      · show e.currentBuffer ++ q = q
        rw [hecur, List.nil_append]
    have hgT2 : (T.currentBuffer ++ q).length + 1 < g' + 1 := by
      have h0 : boundM ({ T with headerBuffer := hb2, bytesWritten := (T.bytesWritten + q.length) % 2 ^ 64, currentBuffer := T.currentBuffer ++ q } : Digest) = (T.currentBuffer ++ q).length + 1 := boundM_not_rh _ (fun hc => stage_rh_ne_re (hc.symm.trans hT))
      omega
    have hbB : boundM (appendBytes e q) < g' + 1 := by
      rw [hB]
      have h0 : boundM ({ e with bytesWritten := (T.bytesWritten + q.length) % 2 ^ 64, currentBuffer := q } : Digest) = q.length + 1 := boundM_not_rh _ hne
      rw [h0]
      rw [List.length_append] at hgT2
      omega
    rw [write1_eq_runFrom e q (g' + 1) (Or.inr hse) hbB, hB]
    have hRR : ({ e with headerBuffer := hb2, bytesWritten := (T.bytesWritten + q.length) % 2 ^ 64, currentBuffer := q } : Digest) = { ({ e with bytesWritten := (T.bytesWritten + q.length) % 2 ^ 64, currentBuffer := q } : Digest) with headerBuffer := hb2 } := digest_eq_of_fields _ _ rfl rfl rfl rfl rfl rfl rfl rfl rfl rfl rfl rfl rfl
    rw [hRR]
    rcases runFrom_hb (g' + 1) { e with bytesWritten := (T.bytesWritten + q.length) % 2 ^ 64, currentBuffer := q } hb2 hse with hcase | ⟨hcase, hstg⟩
    · rw [hcase]
      exact wEq_refl _
    · rw [hcase]
      refine ⟨rfl, rfl, fun hnf => ⟨rfl, rfl, rfl, rfl, rfl, rfl, rfl, rfl, rfl, rfl, fun hrh2 => ?_⟩⟩
      rcases hstg with hstg | hstg
      · exact absurd (hstg.symm.trans hrh2) (Ne.symm stage_rh_ne_re)
      · exact absurd (hstg.symm.trans hrh2) (Ne.symm stage_rh_ne_sp)
  · have happ := entryPhase_app_true T e hb2 ((T.bytesWritten + q.length) % 2 ^ 64) q hph
    have hsh := entryPhase_true_shape T e hph
    rw [runFrom_true T e hcyc f]
    have hcA : cycle { T with headerBuffer := hb2, bytesWritten := (T.bytesWritten + q.length) % 2 ^ 64, currentBuffer := T.currentBuffer ++ q } = ({ e with headerBuffer := e.headerBuffer ++ q, bytesWritten := (T.bytesWritten + q.length) % 2 ^ 64 }, true) := hcycC.trans happ
    rw [runFrom_true _ _ hcA g']
    have hebw : e.bytesWritten = T.bytesWritten := by
      have h0 := entryPhase_bw T
      rw [hph] at h0
      exact h0
    have hE : appendBytes e q = { e with headerBuffer := e.headerBuffer ++ q, bytesWritten := (T.bytesWritten + q.length) % 2 ^ 64 } := by
      rw [appendBytes_rh e q hsh.1]
      refine digest_eq_of_fields _ _ rfl rfl rfl rfl rfl rfl rfl rfl ?_ rfl rfl rfl rfl
      show (e.bytesWritten + q.length) % 2 ^ 64 = (T.bytesWritten + q.length) % 2 ^ 64
      rw [hebw]
    rw [← hE]
    refine ih e g' q (Or.inl hsh.1) (fun _ => hsh.2.2) ?_ ?_
    · have hpr := cycle_progress T e hcyc
      omega
    · rw [hE]
      have hpr := cycle_progress _ _ hcA
      omega

theorem resume_step_sp (f g' : Nat) (T : Digest) (hb2 q : Bytes)
    (hT : T.digestStage = stageSkipPadding)
    (ih : ∀ (d2 : Digest) (g2 : Nat) (q2 : Bytes), stageKnown d2 →
      (d2.digestStage = stageReadHeader → d2.currentBuffer = []) → boundM d2 < f →
      boundM (appendBytes d2 q2) < g2 →
      wEq (write1 (runFrom f d2) q2) (runFrom g2 (appendBytes d2 q2)))
    (hfT : boundM T < f + 1)
    (hgT : boundM ({ T with headerBuffer := hb2, bytesWritten := (T.bytesWritten + q.length) % 2 ^ 64, currentBuffer := T.currentBuffer ++ q } : Digest) < g' + 1) :
    wEq (write1 (runFrom (f + 1) T) q)
      (runFrom (g' + 1) { T with headerBuffer := hb2, bytesWritten := (T.bytesWritten + q.length) % 2 ^ 64, currentBuffer := T.currentBuffer ++ q }) := by
  rcases hph : padPhase T with ⟨e, b⟩
  have hcyc : cycle T = (e, b) := (cycle_sp T hT).trans hph
  have hcycC : cycle { T with headerBuffer := hb2, bytesWritten := (T.bytesWritten + q.length) % 2 ^ 64, currentBuffer := T.currentBuffer ++ q } = padPhase { T with headerBuffer := hb2, bytesWritten := (T.bytesWritten + q.length) % 2 ^ 64, currentBuffer := T.currentBuffer ++ q } := cycle_sp _ hT
  cases b
  · have happ := padPhase_app_false T e hb2 ((T.bytesWritten + q.length) % 2 ^ 64) q hph
    rw [runFrom_false T e hcyc f]
    have hse2 : e.digestStage = stageSkipPadding := happ.2.2.2.2.1.trans hT
    have hRHS : runFrom (g' + 1) { T with headerBuffer := hb2, bytesWritten := (T.bytesWritten + q.length) % 2 ^ 64, currentBuffer := T.currentBuffer ++ q } = runFrom (g' + 1) { e with headerBuffer := hb2, bytesWritten := (T.bytesWritten + q.length) % 2 ^ 64, currentBuffer := q } := runFrom_congr_cycle _ _ (hcycC.trans (happ.1.trans (cycle_sp { e with headerBuffer := hb2, bytesWritten := (T.bytesWritten + q.length) % 2 ^ 64, currentBuffer := q } hse2).symm)) g'
    rw [hRHS]
    have hse : e.digestStage = stageReadEntry ∨ e.digestStage = stageSkipPadding := Or.inr hse2
    have hne : e.digestStage ≠ stageReadHeader := fun hc => stage_rh_ne_sp (hc.symm.trans hse2)
    have hebw : e.bytesWritten = T.bytesWritten := happ.2.2.2.1
    have hecur : e.currentBuffer = [] := happ.2.1
    have hB : appendBytes e q = { e with bytesWritten := (T.bytesWritten + q.length) % 2 ^ 64, currentBuffer := q } := by
      rw [appendBytes_not_rh e q hne]
      refine digest_eq_of_fields _ _ rfl rfl rfl rfl rfl rfl rfl rfl ?_ rfl rfl rfl ?_
      · show (e.bytesWritten + q.length) % 2 ^ 64 = (T.bytesWritten + q.length) % 2 ^ 64
        rw [hebw]
      · show e.currentBuffer ++ q = q
        rw [hecur, List.nil_append]
    have hgT2 : (T.currentBuffer ++ q).length + 1 < g' + 1 := by
      have h0 : boundM ({ T with headerBuffer := hb2, bytesWritten := (T.bytesWritten + q.length) % 2 ^ 64, currentBuffer := T.currentBuffer ++ q } : Digest) = (T.currentBuffer ++ q).length + 1 := boundM_not_rh _ (fun hc => stage_rh_ne_sp (hc.symm.trans hT))
      omega
    have hbB : boundM (appendBytes e q) < g' + 1 := by
      rw [hB]
      have h0 : boundM ({ e with bytesWritten := (T.bytesWritten + q.length) % 2 ^ 64, currentBuffer := q } : Digest) = q.length + 1 := boundM_not_rh _ hne
      rw [h0]
      rw [List.length_append] at hgT2
      omega
    rw [write1_eq_runFrom e q (g' + 1) (Or.inr hse) hbB, hB]
    have hRR : ({ e with headerBuffer := hb2, bytesWritten := (T.bytesWritten + q.length) % 2 ^ 64, currentBuffer := q } : Digest) = { ({ e with bytesWritten := (T.bytesWritten + q.length) % 2 ^ 64, currentBuffer := q } : Digest) with headerBuffer := hb2 } := digest_eq_of_fields _ _ rfl rfl rfl rfl rfl rfl rfl rfl rfl rfl rfl rfl rfl
    rw [hRR]
    rcases runFrom_hb (g' + 1) { e with bytesWritten := (T.bytesWritten + q.length) % 2 ^ 64, currentBuffer := q } hb2 hse with hcase | ⟨hcase, hstg⟩
    · rw [hcase]
      exact wEq_refl _
    · rw [hcase]
      refine ⟨rfl, rfl, fun hnf => ⟨rfl, rfl, rfl, rfl, rfl, rfl, rfl, rfl, rfl, rfl, fun hrh2 => ?_⟩⟩
      rcases hstg with hstg | hstg
      · exact absurd (hstg.symm.trans hrh2) (Ne.symm stage_rh_ne_re)
      · exact absurd (hstg.symm.trans hrh2) (Ne.symm stage_rh_ne_sp)
  · have happ := padPhase_app_true T e hb2 ((T.bytesWritten + q.length) % 2 ^ 64) q hph
    have hsh := padPhase_true_shape T e hph
    rw [runFrom_true T e hcyc f]
    have hcA : cycle { T with headerBuffer := hb2, bytesWritten := (T.bytesWritten + q.length) % 2 ^ 64, currentBuffer := T.currentBuffer ++ q } = ({ e with headerBuffer := e.headerBuffer ++ q, bytesWritten := (T.bytesWritten + q.length) % 2 ^ 64 }, true) := hcycC.trans happ
    rw [runFrom_true _ _ hcA g']
    have hebw : e.bytesWritten = T.bytesWritten := by
      have h0 := padPhase_bw T
      rw [hph] at h0
      exact h0
    have hE : appendBytes e q = { e with headerBuffer := e.headerBuffer ++ q, bytesWritten := (T.bytesWritten + q.length) % 2 ^ 64 } := by
      rw [appendBytes_rh e q hsh.1]
      refine digest_eq_of_fields _ _ rfl rfl rfl rfl rfl rfl rfl rfl ?_ rfl rfl rfl rfl
      show (e.bytesWritten + q.length) % 2 ^ 64 = (T.bytesWritten + q.length) % 2 ^ 64
      rw [hebw]
    rw [← hE]
    refine ih e g' q (Or.inl hsh.1) (fun _ => hsh.2.2) ?_ ?_
    · have hpr := cycle_progress T e hcyc
      omega
    · rw [hE]
      have hpr := cycle_progress _ _ hcA
      omega

/-! The master resumption lemma: feeding `q` to the state the engine
reaches after the handler loop is observably the same as having had `q`
buffered before the loop ran. -/

theorem resume_master : ∀ f : Nat, ∀ (d : Digest) (g : Nat) (q : Bytes),
    stageKnown d → (d.digestStage = stageReadHeader → d.currentBuffer = []) →
    boundM d < f → boundM (appendBytes d q) < g →
    wEq (write1 (runFrom f d) q) (runFrom g (appendBytes d q)) := by
  intro f
  induction f with
  | zero =>
    intro d g q _ _ hf _
    exact absurd hf (by omega)
  | succ f ih =>
    intro d g q hk hrh hf hg
    rcases hk with hs | hs | hs | hs
    · by_cases hlen : d.headerBuffer.length < 2 * blockSize
      · have hcyc : cycle d = (d, false) := by
          rw [cycle_rh d hs]
          unfold headerPhase
          rw [if_pos hlen]
        rw [runFrom_false d d hcyc f, write1_eq_runFrom d q g (Or.inl hs) hg]
        exact wEq_refl _
      · have h1024 : 1024 ≤ d.headerBuffer.length := by
          unfold blockSize at hlen
          omega
        have hA : appendBytes d q = { d with headerBuffer := d.headerBuffer ++ q, bytesWritten := (d.bytesWritten + q.length) % 2 ^ 64 } := appendBytes_rh d q hs
        have hlenA : ¬(d.headerBuffer ++ q).length < 2 * blockSize := by
          rw [List.length_append]
          unfold blockSize at hlen ⊢
          omega
        rcases htar : tarNext d.headerBuffer with _ | _ | _ | ⟨hdr, rest⟩
        · have hcyc : cycle d = ({ d with digestStage := stageFinished, currentBuffer := d.headerBuffer.drop (2 * blockSize), tarReader := ⟨0⟩ }, false) := by
            rw [cycle_rh d hs]
            exact headerPhase_end d hlen htar
          rw [runFrom_false d _ hcyc f]
          rw [write1_finished { d with digestStage := stageFinished, currentBuffer := d.headerBuffer.drop (2 * blockSize), tarReader := ⟨0⟩ } q rfl]
          cases g with
          | zero => exact absurd hg (by omega)
          | succ g' =>
            have htarA : tarNext (d.headerBuffer ++ q) = .endOfArchive := by
              rw [tarNext_append _ q h1024, htar]
            have hcycA : cycle (appendBytes d q) = ({ ({ d with headerBuffer := d.headerBuffer ++ q, bytesWritten := (d.bytesWritten + q.length) % 2 ^ 64 } : Digest) with digestStage := stageFinished, currentBuffer := (d.headerBuffer ++ q).drop (2 * blockSize), tarReader := ⟨0⟩ }, false) := by
              rw [hA]
              rw [cycle_rh { d with headerBuffer := d.headerBuffer ++ q, bytesWritten := (d.bytesWritten + q.length) % 2 ^ 64 } hs]
              exact headerPhase_end _ hlenA htarA
            rw [runFrom_false _ _ hcycA g']
            exact ⟨rfl, rfl, fun hnf => absurd rfl hnf⟩
        · exact absurd htar (tarNext_not_needMore _ h1024)
        · have hcyc : cycle d = ({ d with err := some .errHeader, digestStage := stageFinished, currentBuffer := d.headerBuffer.drop blockSize, tarReader := ⟨0⟩ }, false) := by
            rw [cycle_rh d hs]
            exact headerPhase_err d hlen htar
          rw [runFrom_false d _ hcyc f]
          rw [write1_finished { d with err := some .errHeader, digestStage := stageFinished, currentBuffer := d.headerBuffer.drop blockSize, tarReader := ⟨0⟩ } q rfl]
          cases g with
          | zero => exact absurd hg (by omega)
          | succ g' =>
            have htarA : tarNext (d.headerBuffer ++ q) = .headerErr := by
              rw [tarNext_append _ q h1024, htar]
            have hcycA : cycle (appendBytes d q) = ({ ({ d with headerBuffer := d.headerBuffer ++ q, bytesWritten := (d.bytesWritten + q.length) % 2 ^ 64 } : Digest) with err := some .errHeader, digestStage := stageFinished, currentBuffer := (d.headerBuffer ++ q).drop blockSize, tarReader := ⟨0⟩ }, false) := by
              rw [hA]
              rw [cycle_rh { d with headerBuffer := d.headerBuffer ++ q, bytesWritten := (d.bytesWritten + q.length) % 2 ^ 64 } hs]
              exact headerPhase_err _ hlenA htarA
            rw [runFrom_false _ _ hcycA g']
            exact ⟨rfl, rfl, fun hnf => absurd rfl hnf⟩
        · have hrest := tarNext_ok_rest _ _ _ htar
          have hcyc2 : cycle d = cycle { d with currentFilename := cleanName hdr.name, entryHash := d.entryHash.write (selBytes d.headerSelector hdr), pad := computeBlockPadding hdr.size, tarReader := ⟨hdr.size⟩, currentBuffer := rest, digestStage := stageReadEntry } := by
            rw [cycle_rh d hs]
            rw [cycle_re { d with currentFilename := cleanName hdr.name, entryHash := d.entryHash.write (selBytes d.headerSelector hdr), pad := computeBlockPadding hdr.size, tarReader := ⟨hdr.size⟩, currentBuffer := rest, digestStage := stageReadEntry } rfl]
            exact headerPhase_ok d hdr rest hlen htar
          cases g with
          | zero => exact absurd hg (by omega)
          | succ g' =>
            rw [runFrom_congr_cycle _ _ hcyc2 f]
            have htarA : tarNext (d.headerBuffer ++ q) = .ok hdr (rest ++ q) := by
              rw [tarNext_append _ q h1024, htar]
            have hcycA2 : cycle (appendBytes d q) = cycle { ({ d with currentFilename := cleanName hdr.name, entryHash := d.entryHash.write (selBytes d.headerSelector hdr), pad := computeBlockPadding hdr.size, tarReader := ⟨hdr.size⟩, currentBuffer := rest, digestStage := stageReadEntry } : Digest) with headerBuffer := d.headerBuffer ++ q, bytesWritten := (d.bytesWritten + q.length) % 2 ^ 64, currentBuffer := rest ++ q } := by
              rw [hA]
              rw [cycle_rh { d with headerBuffer := d.headerBuffer ++ q, bytesWritten := (d.bytesWritten + q.length) % 2 ^ 64 } hs]
              rw [cycle_re { ({ d with currentFilename := cleanName hdr.name, entryHash := d.entryHash.write (selBytes d.headerSelector hdr), pad := computeBlockPadding hdr.size, tarReader := ⟨hdr.size⟩, currentBuffer := rest, digestStage := stageReadEntry } : Digest) with headerBuffer := d.headerBuffer ++ q, bytesWritten := (d.bytesWritten + q.length) % 2 ^ 64, currentBuffer := rest ++ q } rfl]
              exact headerPhase_ok _ hdr (rest ++ q) hlenA htarA
            rw [runFrom_congr_cycle _ _ hcycA2 g']
            have hfS : boundM ({ d with currentFilename := cleanName hdr.name, entryHash := d.entryHash.write (selBytes d.headerSelector hdr), pad := computeBlockPadding hdr.size, tarReader := ⟨hdr.size⟩, currentBuffer := rest, digestStage := stageReadEntry } : Digest) < f + 1 := by
              have hbS : boundM ({ d with currentFilename := cleanName hdr.name, entryHash := d.entryHash.write (selBytes d.headerSelector hdr), pad := computeBlockPadding hdr.size, tarReader := ⟨hdr.size⟩, currentBuffer := rest, digestStage := stageReadEntry } : Digest) = rest.length + 1 := boundM_not_rh _ (fun hc => stage_rh_ne_re hc.symm)
              rw [hbS, hrest, List.length_drop]
              rw [boundM_rh d hs] at hf
              unfold blockSize
              omega
            have hgC : boundM ({ ({ d with currentFilename := cleanName hdr.name, entryHash := d.entryHash.write (selBytes d.headerSelector hdr), pad := computeBlockPadding hdr.size, tarReader := ⟨hdr.size⟩, currentBuffer := rest, digestStage := stageReadEntry } : Digest) with headerBuffer := d.headerBuffer ++ q, bytesWritten := (d.bytesWritten + q.length) % 2 ^ 64, currentBuffer := rest ++ q } : Digest) < g' + 1 := by
              have hbC : boundM ({ ({ d with currentFilename := cleanName hdr.name, entryHash := d.entryHash.write (selBytes d.headerSelector hdr), pad := computeBlockPadding hdr.size, tarReader := ⟨hdr.size⟩, currentBuffer := rest, digestStage := stageReadEntry } : Digest) with headerBuffer := d.headerBuffer ++ q, bytesWritten := (d.bytesWritten + q.length) % 2 ^ 64, currentBuffer := rest ++ q } : Digest) = (rest ++ q).length + 1 := boundM_not_rh _ (fun hc => stage_rh_ne_re hc.symm)
              rw [hbC]
              have h0 : boundM ({ d with headerBuffer := d.headerBuffer ++ q, bytesWritten := (d.bytesWritten + q.length) % 2 ^ 64 } : Digest) = (d.headerBuffer ++ q).length := boundM_rh _ hs
              rw [hA, h0] at hg
              rw [List.length_append] at hg
              rw [List.length_append, hrest, List.length_drop]
              unfold blockSize
              omega
            exact resume_step_re f g' { d with currentFilename := cleanName hdr.name, entryHash := d.entryHash.write (selBytes d.headerSelector hdr), pad := computeBlockPadding hdr.size, tarReader := ⟨hdr.size⟩, currentBuffer := rest, digestStage := stageReadEntry } (d.headerBuffer ++ q) q rfl ih hfS hgC
    · cases g with
      | zero => exact absurd hg (by omega)
      | succ g' =>
        have hAe : appendBytes d q = { d with currentBuffer := d.currentBuffer ++ q, bytesWritten := (d.bytesWritten + q.length) % 2 ^ 64 } := appendBytes_not_rh d q (fun hc => stage_rh_ne_re (hc.symm.trans hs))
        rw [hAe] at hg ⊢
        exact resume_step_re f g' d d.headerBuffer q hs ih hf hg
    · cases g with
      | zero => exact absurd hg (by omega)
      | succ g' =>
        have hAe : appendBytes d q = { d with currentBuffer := d.currentBuffer ++ q, bytesWritten := (d.bytesWritten + q.length) % 2 ^ 64 } := appendBytes_not_rh d q (fun hc => stage_rh_ne_sp (hc.symm.trans hs))
        rw [hAe] at hg ⊢
        exact resume_step_sp f g' d d.headerBuffer q hs ih hf hg
    · rw [runFrom_finished (f + 1) d hs, write1_finished d q hs]
      rw [runFrom_finished g _ (by rw [appendBytes_stage]; exact hs)]
      exact ⟨(appendBytes_sums d q).symm, by rw [appendBytes_stage], fun hnf => absurd hs hnf⟩

theorem GoodSt_stage3 (d : Digest) (hg : GoodSt d) (hnf : d.digestStage ≠ stageFinished) :
    d.digestStage = stageReadHeader ∨ d.digestStage = stageReadEntry ∨
      d.digestStage = stageSkipPadding := by
  rcases GoodSt_stageKnown d hg with hs | hs | hs | hs
  · exact Or.inl hs
  · exact Or.inr (Or.inl hs)
  · exact Or.inr (Or.inr hs)
  · exact absurd hs hnf

theorem write_merge (d : Digest) (p q : Bytes) (hg : GoodSt d) :
    wEq (write1 d (p ++ q)) (write1 (write1 d p) q) := by
  by_cases hnf : d.digestStage = stageFinished
  · rw [write1_finished d _ hnf, write1_finished d _ hnf, write1_finished d _ hnf]
    exact wEq_refl d
  · have hk3 := GoodSt_stage3 d hg hnf
    have hkA : stageKnown (appendBytes d p) := by
      unfold stageKnown
      rw [appendBytes_stage]
      exact GoodSt_stageKnown d hg
    have hrhA : (appendBytes d p).digestStage = stageReadHeader →
        (appendBytes d p).currentBuffer = [] := by
      intro hsA
      have hds : d.digestStage = stageReadHeader := by
        rw [← appendBytes_stage d p]
        exact hsA
      rcases hg.2 with ⟨-, hcur, -⟩ | ⟨hs2, -⟩ | ⟨hs2, -, -⟩ | hs2
      · rw [appendBytes_rh d p hds]
        exact hcur
      · exact absurd (hds.symm.trans hs2) stage_rh_ne_re
      · exact absurd (hds.symm.trans hs2) stage_rh_ne_sp
      · exact absurd hs2 hnf
    have hb2 : boundM (appendBytes d (p ++ q)) <
        boundM (appendBytes (appendBytes d p) q) + 1 := by
      rw [appendBytes_append]
      omega
    rw [write1_eq_runFrom d p (boundM (appendBytes d p) + 1) hk3 (by omega)]
    rw [write1_eq_runFrom d (p ++ q) (boundM (appendBytes (appendBytes d p) q) + 1) hk3 hb2]
    rw [← appendBytes_append d p q]
    exact wEq_symm _ _ (resume_master (boundM (appendBytes d p) + 1) (appendBytes d p)
      (boundM (appendBytes (appendBytes d p) q) + 1) q hkA hrhA (by omega) (by omega))

theorem writeAll_flatten (ps : List Bytes) (d : Digest) (hg : GoodSt d) :
    wEq (writeAll d ps) (write1 d ps.flatten) := by
  induction ps generalizing d with
  | nil =>
    show wEq d (write1 d [])
    by_cases hnf : d.digestStage = stageFinished
    · rw [write1_finished d [] hnf]
      exact wEq_refl d
    · rw [write1_eq_runFrom d [] (boundM (appendBytes d []) + 1) (GoodSt_stage3 d hg hnf)
        (by omega)]
      rw [appendBytes_nil d hg.1]
      rw [runFrom_quiet _ d hg]
      exact wEq_refl d
  | cons p ps ih =>
    show wEq (writeAll (write1 d p) ps) (write1 d (p ++ ps.flatten))
    exact wEq_trans _ _ _ (ih (write1 d p) (GoodSt_write1 d p hg))
      (wEq_symm _ _ (write_merge d p ps.flatten hg))

theorem GoodSt_init (v : Nat) : GoodSt (initDigest v) :=
  ⟨by show (0 : Nat) < 2 ^ 64; omega,
    Or.inl ⟨rfl, rfl, by show (0 : Nat) < 2 * blockSize; unfold blockSize; omega⟩⟩

/-- C2: for every archive byte stream and every way of partitioning it
into a sequence of chunks, writing the chunks in order to a fresh session
produces the same final aggregate digest (`Sum`, with or without extra
bytes) as writing the stream in any other partition: the final digest
depends only on the concatenation of the written chunks. -/
theorem C2_chunking_invariance (v : Nat) (extra : Option Bytes) (ps1 ps2 : List Bytes)
    (h : ps1.flatten = ps2.flatten) :
    (writeAll (initDigest v) ps1).sumBytes extra =
      (writeAll (initDigest v) ps2).sumBytes extra := by
  have h1 := writeAll_flatten ps1 (initDigest v) (GoodSt_init v)
  have h2 := writeAll_flatten ps2 (initDigest v) (GoodSt_init v)
  rw [h] at h1
  exact wEq_sumBytes _ _ extra (wEq_trans _ _ _ h1 (wEq_symm _ _ h2))

theorem C2_witness :
    ([[72], []] : List Bytes).flatten = ([[], [72]] : List Bytes).flatten ∧
      (writeAll (initDigest 0) [[72], []]).sumBytes none =
        (writeAll (initDigest 0) [[], [72]]).sumBytes none :=
  ⟨rfl, C2_chunking_invariance 0 none [[72], []] [[], [72]] rfl⟩

/-! The policy version and the header selector of a session are never
modified by the write path. -/

theorem padPhase_version (d : Digest) : (padPhase d).1.version = d.version := by
  simp only [padPhase, finalizeEntry]
  split <;> rfl

theorem entryPhase_version (d : Digest) : (entryPhase d).1.version = d.version := by
  simp only [entryPhase]
  split
  · rfl
  · split
    · rfl
    · exact padPhase_version _

theorem headerPhase_version (d : Digest) : (headerPhase d).1.version = d.version := by
  simp only [headerPhase]
  split
  · rfl
  · split
    · rfl
    · rfl
    · rfl
    · exact entryPhase_version _

theorem cycle_version (d : Digest) : (cycle d).1.version = d.version := by
  simp only [cycle]
  split
  · exact headerPhase_version d
  · split
    · exact entryPhase_version d
    · split
      · exact padPhase_version d
      · rfl

theorem runFrom_version (f : Nat) (d : Digest) : (runFrom f d).version = d.version := by
  induction f generalizing d with
  | zero => rfl
  | succ f ih =>
    show (runFrom (f + 1) d).version = d.version
    unfold runFrom
    have hv := cycle_version d
    rcases hc : cycle d with ⟨e, b⟩
    rw [hc] at hv
    cases b
    · simpa [hc] using hv
    · simp only [hc]
      rw [ih e]
      exact hv

theorem write1_version (d : Digest) (p : Bytes) : (write1 d p).version = d.version := by
  unfold write1 Digest.write
  split
  · rfl
  · split
    · rw [runFrom_version]
      unfold appendBytes
      split <;> rfl
    · rfl

theorem padPhase_selector (d : Digest) :
    (padPhase d).1.headerSelector = d.headerSelector := by
  simp only [padPhase, finalizeEntry]
  split <;> rfl

theorem entryPhase_selector (d : Digest) :
    (entryPhase d).1.headerSelector = d.headerSelector := by
  simp only [entryPhase]
  split
  · rfl
  · split
    · rfl
    · exact padPhase_selector _

theorem headerPhase_selector (d : Digest) :
    (headerPhase d).1.headerSelector = d.headerSelector := by
  simp only [headerPhase]
  split
  · rfl
  · split
    · rfl
    · rfl
    · rfl
    · exact entryPhase_selector _

theorem cycle_selector (d : Digest) :
    (cycle d).1.headerSelector = d.headerSelector := by
  simp only [cycle]
  split
  · exact headerPhase_selector d
  · split
    · exact entryPhase_selector d
    · split
      · exact padPhase_selector d
      · rfl

theorem runFrom_selector (f : Nat) (d : Digest) :
    (runFrom f d).headerSelector = d.headerSelector := by
  induction f generalizing d with
  | zero => rfl
  | succ f ih =>
    show (runFrom (f + 1) d).headerSelector = d.headerSelector
    unfold runFrom
    have hv := cycle_selector d
    rcases hc : cycle d with ⟨e, b⟩
    rw [hc] at hv
    cases b
    · simpa [hc] using hv
    · simp only [hc]
      rw [ih e]
      exact hv

theorem write1_selector (d : Digest) (p : Bytes) :
    (write1 d p).headerSelector = d.headerSelector := by
  unfold write1 Digest.write
  split
  · rfl
  · split
    · rw [runFrom_selector]
      unfold appendBytes
      split <;> rfl
    · rfl

/-! Decoding a serialized entry list restores it exactly. -/

theorem restoreSums_vals (l : List FileInfoSum) : ∀ D : Digest,
    restoreSums D l.length (sumsVals l) = ({ D with sums := D.sums ++ l }, none) := by
  induction l with
  | nil =>
    intro D
    show (D, none) = _
    rw [Prod.mk.injEq]
    refine ⟨digest_eq_of_fields _ _ rfl rfl rfl rfl rfl rfl ?_ rfl rfl rfl rfl rfl rfl, rfl⟩
    show D.sums = D.sums ++ []
    exact (List.append_nil _).symm
  | cons f l ih =>
    intro D
    show restoreSums { D with sums := D.sums ++ [⟨f.name, f.sum, f.pos⟩] } l.length
      (sumsVals l) = _
    rw [ih]
    rw [Prod.mk.injEq]
    refine ⟨digest_eq_of_fields _ _ rfl rfl rfl rfl rfl rfl ?_ rfl rfl rfl rfl rfl rfl, rfl⟩
    show (D.sums ++ [⟨f.name, f.sum, f.pos⟩]) ++ l = D.sums ++ f :: l
    rw [List.append_assoc]
    rfl

/-! Computing `Restore` on checkpoint blobs of the shapes `State`
produces. -/

theorem restore_vals (v ver bw fc : Nat) (stg cf hb : Bytes) (pd : Nat) (tb hs : Bytes)
    (l : List FileInfoSum) :
    (initDigest v).restore
      ([.vnat ver, .vstr (strB "sha256"), .vbool false, .vnat bw, .vnat fc] ++
        (if false = true then [] else
          [.vstr stg, .vstr cf, .vnat pd, .vbytes hb, .vbool true, .vbytes tb,
            .vbytes hs]) ++
        [.vnat l.length] ++ sumsVals l) =
      ({ initDigest v with
          version := ver, bytesWritten := bw, fileCounter := fc,
          digestStage := stg, currentFilename := cf, pad := pd,
          headerBuffer := hb, tarReader := ⟨tb.length⟩, entryHash := ⟨hs⟩,
          sums := l }, none) := by
  rw [show (initDigest v).restore
      ([.vnat ver, .vstr (strB "sha256"), .vbool false, .vnat bw, .vnat fc] ++
        (if false = true then [] else
          [.vstr stg, .vstr cf, .vnat pd, .vbytes hb, .vbool true, .vbytes tb,
            .vbytes hs]) ++
        [.vnat l.length] ++ sumsVals l) =
      restoreSums ({ initDigest v with version := ver, bytesWritten := bw, fileCounter := fc, digestStage := stg, currentFilename := cf, pad := pd, headerBuffer := hb, tarReader := ⟨tb.length⟩, entryHash := ⟨hs⟩, sums := [] } : Digest) l.length (sumsVals l) from rfl]
  rw [restoreSums_vals]
  rw [Prod.mk.injEq]
  exact ⟨digest_eq_of_fields _ _ rfl rfl rfl rfl rfl rfl rfl rfl rfl rfl rfl rfl rfl, rfl⟩

theorem restore_vals_fin (v ver bw fc : Nat) (junk : List GobVal)
    (l : List FileInfoSum) :
    (initDigest v).restore
      ([.vnat ver, .vstr (strB "sha256"), .vbool true, .vnat bw, .vnat fc] ++
        (if true = true then [] else junk) ++
        [.vnat l.length] ++ sumsVals l) =
      ({ initDigest v with
          version := ver, bytesWritten := bw, fileCounter := fc,
          digestStage := stageFinished, sums := l }, none) := by
  rw [show (initDigest v).restore
      ([.vnat ver, .vstr (strB "sha256"), .vbool true, .vnat bw, .vnat fc] ++
        (if true = true then [] else junk) ++
        [.vnat l.length] ++ sumsVals l) =
      restoreSums ({ initDigest v with version := ver, bytesWritten := bw, fileCounter := fc, digestStage := stageFinished, sums := [] } : Digest) l.length (sumsVals l) from rfl]
  rw [restoreSums_vals]
  rw [Prod.mk.injEq]
  exact ⟨digest_eq_of_fields _ _ rfl rfl rfl rfl rfl rfl rfl rfl rfl rfl rfl rfl rfl, rfl⟩

theorem restore_of_state (v : Nat) (d : Digest) (blob : List GobVal)
    (hsel : d.headerSelector = v)
    (hnf : d.digestStage ≠ stageFinished)
    (hcur : d.currentBuffer = [])
    (hblob : d.state = some blob) :
    (initDigest v).restore blob = ({ d with sums := sortBySums d.sums }, none) := by
  unfold Digest.state at hblob
  by_cases herr : d.err = none
  · rw [if_neg (fun hc => hc herr)] at hblob
    have hfin : d.finished = false := by
      unfold Digest.finished
      rw [decide_eq_false hnf]
    rw [hfin] at hblob
    have hblob2 := Option.some.inj hblob
    subst hblob2
    rw [restore_vals v d.version d.bytesWritten d.fileCounter d.digestStage
      d.currentFilename d.headerBuffer d.pad (tarStateBytes d.tarReader.numBytes)
      d.entryHash.absorbed (sortBySums d.sums)]
    rw [Prod.mk.injEq]
    refine ⟨digest_eq_of_fields _ _ rfl ?_ rfl rfl ?_ rfl rfl rfl rfl rfl rfl ?_ ?_, rfl⟩
    · show v = d.headerSelector
      exact hsel.symm
    · show (⟨(tarStateBytes d.tarReader.numBytes).length⟩ : TarReader) = d.tarReader
      unfold tarStateBytes
      rw [List.length_replicate]
    · show (none : Option GoErr) = d.err
      exact herr.symm
    · show ([] : Bytes) = d.currentBuffer
      exact hcur.symm
  · rw [if_pos herr] at hblob
    cases hblob

theorem restore_of_state_fin (v : Nat) (d : Digest) (blob : List GobVal)
    (hfin : d.digestStage = stageFinished)
    (hblob : d.state = some blob) :
    (initDigest v).restore blob =
      ({ initDigest v with
          version := d.version, bytesWritten := d.bytesWritten,
          fileCounter := d.fileCounter, digestStage := stageFinished,
          sums := sortBySums d.sums }, none) := by
  unfold Digest.state at hblob
  by_cases herr : d.err = none
  · rw [if_neg (fun hc => hc herr)] at hblob
    have hfinb : d.finished = true := by
      unfold Digest.finished
      exact decide_eq_true hfin
    rw [hfinb] at hblob
    have hblob2 := Option.some.inj hblob
    subst hblob2
    rw [restore_vals_fin v d.version d.bytesWritten d.fileCounter _
      (sortBySums d.sums)]
  · rw [if_pos herr] at hblob
    cases hblob

/-! The write path never reads the completed-entry list: it only appends
to it, and the appended entries do not depend on it. -/

theorem padPhase_sums (d : Digest) (σ : List FileInfoSum) :
    padPhase { d with sums := σ } =
      ({ (padPhase d).1 with sums := σ ++ (padPhase d).1.sums.drop d.sums.length },
        (padPhase d).2) ∧
      (padPhase d).1.sums = d.sums ++ (padPhase d).1.sums.drop d.sums.length := by
  by_cases hc : d.pad ≤ d.currentBuffer.length
  · constructor
    · rw [padPhase_of_le d hc, padPhase_of_le { d with sums := σ } hc]
      rw [Prod.mk.injEq]
      refine ⟨?_, rfl⟩
      refine digest_eq_of_fields _ _ rfl rfl rfl rfl rfl rfl ?_ rfl rfl rfl rfl rfl rfl
      show σ ++ [(⟨d.currentFilename, hexEncode d.entryHash.sum, d.fileCounter⟩ : FileInfoSum)] =
        σ ++ (d.sums ++
          [(⟨d.currentFilename, hexEncode d.entryHash.sum, d.fileCounter⟩ : FileInfoSum)]).drop
            d.sums.length
      rw [List.drop_left]
    · rw [padPhase_of_le d hc]
      show d.sums ++ [(⟨d.currentFilename, hexEncode d.entryHash.sum, d.fileCounter⟩ : FileInfoSum)] =
        d.sums ++ (d.sums ++
          [(⟨d.currentFilename, hexEncode d.entryHash.sum, d.fileCounter⟩ : FileInfoSum)]).drop
            d.sums.length
      rw [List.drop_left]
  · constructor
    · rw [padPhase_of_gt d (by omega), padPhase_of_gt { d with sums := σ } (by show d.currentBuffer.length < d.pad; omega)]
      rw [Prod.mk.injEq]
      refine ⟨?_, rfl⟩
      refine digest_eq_of_fields _ _ rfl rfl rfl rfl rfl rfl ?_ rfl rfl rfl rfl rfl rfl
      show σ = σ ++ d.sums.drop d.sums.length
      rw [List.drop_length, List.append_nil]
    · rw [padPhase_of_gt d (by omega)]
      show d.sums = d.sums ++ d.sums.drop d.sums.length
      rw [List.drop_length, List.append_nil]

theorem entryPhase_sums (d : Digest) (σ : List FileInfoSum) :
    entryPhase { d with sums := σ } =
      ({ (entryPhase d).1 with sums := σ ++ (entryPhase d).1.sums.drop d.sums.length },
        (entryPhase d).2) ∧
      (entryPhase d).1.sums = d.sums ++ (entryPhase d).1.sums.drop d.sums.length := by
  by_cases hnil : d.currentBuffer = []
  · constructor
    · rw [entryPhase_nil d hnil, entryPhase_nil { d with sums := σ } hnil]
      rw [Prod.mk.injEq]
      refine ⟨?_, rfl⟩
      refine digest_eq_of_fields _ _ rfl rfl rfl rfl rfl rfl ?_ rfl rfl rfl rfl rfl rfl
      show σ = σ ++ d.sums.drop d.sums.length
      rw [List.drop_length, List.append_nil]
    · rw [entryPhase_nil d hnil]
      show d.sums = d.sums ++ d.sums.drop d.sums.length
      rw [List.drop_length, List.append_nil]
  · by_cases hle : d.tarReader.numBytes ≤ d.currentBuffer.length
    · have hp := padPhase_sums { d with
        entryHash := d.entryHash.write (d.currentBuffer.take d.tarReader.numBytes),
        currentBuffer := d.currentBuffer.drop d.tarReader.numBytes,
        tarReader := ⟨0⟩,
        digestStage := stageSkipPadding } σ
      constructor
      · rw [entryPhase_of_le d hnil hle, entryPhase_of_le { d with sums := σ } hnil hle]
        exact hp.1
      · rw [entryPhase_of_le d hnil hle]
        exact hp.2
    · constructor
      · rw [entryPhase_of_gt d hnil (by omega),
          entryPhase_of_gt { d with sums := σ } hnil (by show d.currentBuffer.length < d.tarReader.numBytes; omega)]
        rw [Prod.mk.injEq]
        refine ⟨?_, rfl⟩
        refine digest_eq_of_fields _ _ rfl rfl rfl rfl rfl rfl ?_ rfl rfl rfl rfl rfl rfl
        show σ = σ ++ d.sums.drop d.sums.length
        rw [List.drop_length, List.append_nil]
      · rw [entryPhase_of_gt d hnil (by omega)]
        show d.sums = d.sums ++ d.sums.drop d.sums.length
        rw [List.drop_length, List.append_nil]

theorem headerPhase_sums (d : Digest) (σ : List FileInfoSum) :
    headerPhase { d with sums := σ } =
      ({ (headerPhase d).1 with sums := σ ++ (headerPhase d).1.sums.drop d.sums.length },
        (headerPhase d).2) ∧
      (headerPhase d).1.sums = d.sums ++ (headerPhase d).1.sums.drop d.sums.length := by
  by_cases hlen : d.headerBuffer.length < 2 * blockSize
  · have hw : headerPhase d = (d, false) := by
      unfold headerPhase
      rw [if_pos hlen]
    have hw2 : headerPhase { d with sums := σ } = ({ d with sums := σ }, false) := by
      unfold headerPhase
      rw [if_pos hlen]
    constructor
    · rw [hw, hw2]
      rw [Prod.mk.injEq]
      refine ⟨?_, rfl⟩
      refine digest_eq_of_fields _ _ rfl rfl rfl rfl rfl rfl ?_ rfl rfl rfl rfl rfl rfl
      show σ = σ ++ d.sums.drop d.sums.length
      rw [List.drop_length, List.append_nil]
    · rw [hw]
      show d.sums = d.sums ++ d.sums.drop d.sums.length
      rw [List.drop_length, List.append_nil]
  · rcases htar : tarNext d.headerBuffer with _ | _ | _ | ⟨hdr, rest⟩
    · constructor
      · rw [headerPhase_end d hlen htar, headerPhase_end { d with sums := σ } hlen htar]
        rw [Prod.mk.injEq]
        refine ⟨?_, rfl⟩
        refine digest_eq_of_fields _ _ rfl rfl rfl rfl rfl rfl ?_ rfl rfl rfl rfl rfl rfl
        show σ = σ ++ d.sums.drop d.sums.length
        rw [List.drop_length, List.append_nil]
      · rw [headerPhase_end d hlen htar]
        show d.sums = d.sums ++ d.sums.drop d.sums.length
        rw [List.drop_length, List.append_nil]
    · constructor
      · have hw : headerPhase d = (d, false) := by
          unfold headerPhase
          rw [if_neg hlen, htar]
        have hw2 : headerPhase { d with sums := σ } = ({ d with sums := σ }, false) := by
          unfold headerPhase
          rw [if_neg hlen, htar]
        rw [hw, hw2]
        rw [Prod.mk.injEq]
        refine ⟨?_, rfl⟩
        refine digest_eq_of_fields _ _ rfl rfl rfl rfl rfl rfl ?_ rfl rfl rfl rfl rfl rfl
        show σ = σ ++ d.sums.drop d.sums.length
        rw [List.drop_length, List.append_nil]
      · have hw : headerPhase d = (d, false) := by
          unfold headerPhase
          rw [if_neg hlen, htar]
        rw [hw]
        show d.sums = d.sums ++ d.sums.drop d.sums.length
        rw [List.drop_length, List.append_nil]
    · constructor
      · rw [headerPhase_err d hlen htar, headerPhase_err { d with sums := σ } hlen htar]
        rw [Prod.mk.injEq]
        refine ⟨?_, rfl⟩
        refine digest_eq_of_fields _ _ rfl rfl rfl rfl rfl rfl ?_ rfl rfl rfl rfl rfl rfl
        show σ = σ ++ d.sums.drop d.sums.length
        rw [List.drop_length, List.append_nil]
      · rw [headerPhase_err d hlen htar]
        show d.sums = d.sums ++ d.sums.drop d.sums.length
        rw [List.drop_length, List.append_nil]
    · have hp := entryPhase_sums { d with
        currentFilename := cleanName hdr.name,
        entryHash := d.entryHash.write (selBytes d.headerSelector hdr),
        pad := computeBlockPadding hdr.size,
        tarReader := ⟨hdr.size⟩,
        currentBuffer := rest,
        digestStage := stageReadEntry } σ
      constructor
      · rw [headerPhase_ok d hdr rest hlen htar,
          headerPhase_ok { d with sums := σ } hdr rest hlen htar]
        exact hp.1
      · rw [headerPhase_ok d hdr rest hlen htar]
        exact hp.2

theorem cycle_sums (d : Digest) (σ : List FileInfoSum) :
    cycle { d with sums := σ } =
      ({ (cycle d).1 with sums := σ ++ (cycle d).1.sums.drop d.sums.length },
        (cycle d).2) ∧
      (cycle d).1.sums = d.sums ++ (cycle d).1.sums.drop d.sums.length := by
  by_cases h1 : d.digestStage = stageReadHeader
  · have hc1 : cycle d = headerPhase d := cycle_rh d h1
    have hc2 : cycle { d with sums := σ } = headerPhase { d with sums := σ } :=
      cycle_rh _ h1
    rw [hc1, hc2]
    exact headerPhase_sums d σ
  · by_cases h2 : d.digestStage = stageReadEntry
    · have hc1 : cycle d = entryPhase d := cycle_re d h2
      have hc2 : cycle { d with sums := σ } = entryPhase { d with sums := σ } :=
        cycle_re _ h2
      rw [hc1, hc2]
      exact entryPhase_sums d σ
    · by_cases h3 : d.digestStage = stageSkipPadding
      · have hc1 : cycle d = padPhase d := cycle_sp d h3
        have hc2 : cycle { d with sums := σ } = padPhase { d with sums := σ } :=
          cycle_sp _ h3
        rw [hc1, hc2]
        exact padPhase_sums d σ
      · have hc1 : cycle d = (d, false) := by
          unfold cycle
          rw [if_neg h1, if_neg h2, if_neg h3]
        have hc2 : cycle { d with sums := σ } = ({ d with sums := σ }, false) := by
          unfold cycle
          rw [if_neg h1, if_neg h2, if_neg h3]
        constructor
        · rw [hc1, hc2]
          rw [Prod.mk.injEq]
          refine ⟨?_, rfl⟩
          refine digest_eq_of_fields _ _ rfl rfl rfl rfl rfl rfl ?_ rfl rfl rfl rfl rfl rfl
          show σ = σ ++ d.sums.drop d.sums.length
          rw [List.drop_length, List.append_nil]
        · rw [hc1]
          show d.sums = d.sums ++ d.sums.drop d.sums.length
          rw [List.drop_length, List.append_nil]

theorem boundM_sums (d : Digest) (σ : List FileInfoSum) :
    boundM { d with sums := σ } = boundM d := rfl

theorem appendBytes_sums_slot (d : Digest) (σ : List FileInfoSum) (p : Bytes) :
    appendBytes { d with sums := σ } p = { appendBytes d p with sums := σ } := by
  by_cases h : d.digestStage = stageReadHeader
  · rw [appendBytes_rh d p h, appendBytes_rh { d with sums := σ } p h]
  · rw [appendBytes_not_rh d p h, appendBytes_not_rh { d with sums := σ } p h]

theorem runFrom_sums : ∀ (f : Nat) (d : Digest) (σ : List FileInfoSum),
    runFrom f { d with sums := σ } =
      { runFrom f d with sums := σ ++ (runFrom f d).sums.drop d.sums.length } ∧
      (runFrom f d).sums = d.sums ++ (runFrom f d).sums.drop d.sums.length := by
  intro f
  induction f with
  | zero =>
    intro d σ
    constructor
    · refine digest_eq_of_fields _ _ rfl rfl rfl rfl rfl rfl ?_ rfl rfl rfl rfl rfl rfl
      show σ = σ ++ d.sums.drop d.sums.length
      rw [List.drop_length, List.append_nil]
    · show d.sums = d.sums ++ d.sums.drop d.sums.length
      rw [List.drop_length, List.append_nil]
  | succ f ih =>
    intro d σ
    rcases hc : cycle d with ⟨e, b⟩
    have hcs := cycle_sums d σ
    rw [hc] at hcs
    cases b
    · rw [runFrom_false d e hc f, runFrom_false _ _ hcs.1 f]
      exact ⟨rfl, hcs.2⟩
    · rw [runFrom_true d e hc f, runFrom_true _ _ hcs.1 f]
      obtain ⟨Δ1, hΔ1⟩ : ∃ Δ1, e.sums = d.sums ++ Δ1 := ⟨_, hcs.2⟩
      obtain ⟨Δ2, hΔ2⟩ : ∃ Δ2, (runFrom f e).sums = e.sums ++ Δ2 := ⟨_, (ih e []).2⟩
      have hd1 : e.sums.drop d.sums.length = Δ1 := by
        rw [hΔ1, List.drop_left]
      have hd2 : (runFrom f e).sums.drop e.sums.length = Δ2 := by
        rw [hΔ2, List.drop_left]
      have hd3 : (runFrom f e).sums.drop d.sums.length = Δ1 ++ Δ2 := by
        rw [hΔ2, hΔ1, List.append_assoc, List.drop_left]
      constructor
      · rw [(ih e (σ ++ e.sums.drop d.sums.length)).1]
        refine digest_eq_of_fields _ _ rfl rfl rfl rfl rfl rfl ?_ rfl rfl rfl rfl rfl rfl
        show (σ ++ e.sums.drop d.sums.length) ++ (runFrom f e).sums.drop e.sums.length =
          σ ++ (runFrom f e).sums.drop d.sums.length
        rw [hd1, hd2, hd3, List.append_assoc]
      · rw [hd3, hΔ2, hΔ1, List.append_assoc]

theorem write1_sums (d : Digest) (σ : List FileInfoSum) (p : Bytes) (hk : stageKnown d) :
    write1 { d with sums := σ } p =
      { write1 d p with sums := σ ++ (write1 d p).sums.drop d.sums.length } ∧
      (write1 d p).sums = d.sums ++ (write1 d p).sums.drop d.sums.length := by
  by_cases hfin : d.digestStage = stageFinished
  · rw [write1_finished d p hfin, write1_finished { d with sums := σ } p hfin]
    constructor
    · refine digest_eq_of_fields _ _ rfl rfl rfl rfl rfl rfl ?_ rfl rfl rfl rfl rfl rfl
      show σ = σ ++ d.sums.drop d.sums.length
      rw [List.drop_length, List.append_nil]
    · show d.sums = d.sums ++ d.sums.drop d.sums.length
      rw [List.drop_length, List.append_nil]
  · have hk3 : d.digestStage = stageReadHeader ∨ d.digestStage = stageReadEntry ∨
        d.digestStage = stageSkipPadding := by
      rcases hk with hs | hs | hs | hs
      · exact Or.inl hs
      · exact Or.inr (Or.inl hs)
      · exact Or.inr (Or.inr hs)
      · exact absurd hs hfin
    rw [write1_eq_runFrom d p (boundM (appendBytes d p) + 1) hk3 (by omega)]
    rw [write1_eq_runFrom { d with sums := σ } p (boundM (appendBytes d p) + 1) hk3
      (by rw [appendBytes_sums_slot d σ p, boundM_sums]; omega)]
    rw [appendBytes_sums_slot d σ p]
    have hr := runFrom_sums (boundM (appendBytes d p) + 1) (appendBytes d p) σ
    constructor
    · rw [hr.1]
      refine digest_eq_of_fields _ _ rfl rfl rfl rfl rfl rfl ?_ rfl rfl rfl rfl rfl rfl
      show σ ++ (runFrom (boundM (appendBytes d p) + 1) (appendBytes d p)).sums.drop
          (appendBytes d p).sums.length =
        σ ++ (runFrom (boundM (appendBytes d p) + 1) (appendBytes d p)).sums.drop
          d.sums.length
      rw [appendBytes_sums]
    · have h2 := hr.2
      rw [appendBytes_sums d p] at h2
      exact h2

/-! Order-theoretic facts about the entry comparison and the Go insertion
sort, relating the checkpoint-time sort of the completed entries to the
final sort. -/

theorem bytesLt_irrefl (s : Bytes) : bytesLt s s = false := by
  cases h : bytesLt s s with
  | false => rfl
  | true =>
    have h2 := bytesLt_asymm s s h
    rw [h] at h2
    exact Bool.noConfusion h2

theorem bySumLess_asymm (d : Bool) (a b : FileInfoSum) (h : bySumLess d a b = true) :
    bySumLess d b a = false := by
  unfold bySumLess at h ⊢
  cases d with
  | false =>
    rw [if_neg (show ¬ (false && decide (a.name = b.name)) = true from
      fun hh => Bool.noConfusion hh)] at h
    rw [if_neg (show ¬ (false && decide (b.name = a.name)) = true from
      fun hh => Bool.noConfusion hh)]
    exact bytesLt_asymm _ _ h
  | true =>
    by_cases hn : a.name = b.name
    · rw [if_pos (show (true && decide (a.name = b.name)) = true by
        rw [decide_eq_true hn]
        rfl)] at h
      rw [if_pos (show (true && decide (b.name = a.name)) = true by
        rw [decide_eq_true hn.symm]
        rfl)]
      have hp := of_decide_eq_true h
      rw [decide_eq_false (show ¬ b.pos < a.pos by omega)]
    · rw [if_neg (show ¬ (true && decide (a.name = b.name)) = true by
        rw [decide_eq_false hn]; exact fun hh => Bool.noConfusion hh)] at h
      rw [if_neg (show ¬ (true && decide (b.name = a.name)) = true by
        rw [decide_eq_false (fun he => hn he.symm)]
        exact fun hh => Bool.noConfusion hh)]
      exact bytesLt_asymm _ _ h

theorem bubble_perm (c : FileInfoSum → FileInfoSum → Bool) (e : FileInfoSum) :
    ∀ acc : List FileInfoSum, (bubble c e acc).Perm (e :: acc)
  | [] => List.Perm.refl _
  | x :: xs => by
    unfold bubble
    by_cases h : c e x = true
    · rw [if_pos h]
      exact ((bubble_perm c e xs).cons x).trans (List.Perm.swap e x xs)
    · rw [if_neg h]

theorem bubble_congr (c c' : FileInfoSum → FileInfoSum → Bool) (e : FileInfoSum)
    (acc : List FileInfoSum) (h : ∀ x ∈ acc, c e x = c' e x) :
    bubble c e acc = bubble c' e acc := by
  induction acc with
  | nil => rfl
  | cons x xs ih =>
    unfold bubble
    rw [h x (List.mem_cons_self x xs)]
    by_cases hc : c' e x = true
    · rw [if_pos hc, if_pos hc, ih (fun y hy => h y (List.mem_cons_of_mem x hy))]
    · rw [if_neg hc, if_neg hc]

/-- The between-elements guarantee of the Go insertion sort: in the
reversed accumulator, no element compares `Less` than its successor, that
is, the represented list has no adjacent inversion. -/
def accOk (c : FileInfoSum → FileInfoSum → Bool) : List FileInfoSum → Prop
  | [] => True
  | [_] => True
  | x :: y :: t => c x y = false ∧ accOk c (y :: t)

theorem bubble_accOk (c : FileInfoSum → FileInfoSum → Bool)
    (hasym : ∀ a b, c a b = true → c b a = false) (e : FileInfoSum) :
    ∀ acc : List FileInfoSum, accOk c acc → accOk c (bubble c e acc)
  | [], _ => True.intro
  | [x], _ => by
    unfold bubble
    by_cases h : c e x = true
    · rw [if_pos h]
      exact ⟨hasym e x h, True.intro⟩
    · rw [if_neg h]
      refine ⟨?_, True.intro⟩
      cases hc : c e x with
      | false => rfl
      | true => exact absurd hc h
  | x :: y :: t, hok => by
    unfold bubble
    by_cases h : c e x = true
    · rw [if_pos h]
      unfold bubble
      by_cases h2 : c e y = true
      · rw [if_pos h2]
        refine ⟨hok.1, ?_⟩
        have hrec := bubble_accOk c hasym e (y :: t) hok.2
        unfold bubble at hrec
        rw [if_pos h2] at hrec
        exact hrec
      · rw [if_neg h2]
        refine ⟨hasym e x h, ?_, hok.2⟩
        cases hc : c e y with
        | false => rfl
        | true => exact absurd hc h2
    · rw [if_neg h]
      refine ⟨?_, hok⟩
      cases hc : c e x with
      | false => rfl
      | true => exact absurd hc h

theorem foldl_accOk (c : FileInfoSum → FileInfoSum → Bool)
    (hasym : ∀ a b, c a b = true → c b a = false) :
    ∀ (l acc : List FileInfoSum), accOk c acc →
      accOk c (List.foldl (fun a e => bubble c e a) acc l)
  | [], _, h => h
  | e :: t, acc, h =>
    foldl_accOk c hasym t (bubble c e acc) (bubble_accOk c hasym e acc h)

theorem sortAcc_restore (c : FileInfoSum → FileInfoSum → Bool) :
    ∀ acc : List FileInfoSum, accOk c acc →
      List.foldl (fun a e => bubble c e a) [] acc.reverse = acc
  | [], _ => rfl
  | x :: xs, hok => by
    rw [List.reverse_cons, List.foldl_append, List.foldl_cons, List.foldl_nil]
    have hxs : accOk c xs := by
      cases xs with
      | nil => exact True.intro
      | cons y t => exact hok.2
    rw [sortAcc_restore c xs hxs]
    cases xs with
    | nil => rfl
    | cons y t =>
      unfold bubble
      rw [if_neg (show ¬ c x y = true from
        fun hh => Bool.noConfusion (hok.1.symm.trans hh))]

theorem foldl_bubble_perm (c : FileInfoSum → FileInfoSum → Bool) :
    ∀ (l acc : List FileInfoSum),
      (List.foldl (fun a e => bubble c e a) acc l).Perm (l ++ acc)
  | [], _ => List.Perm.refl _
  | e :: t, acc => by
    rw [List.foldl_cons]
    exact (foldl_bubble_perm c t _).trans
      (((bubble_perm c e acc).append_left t).trans List.perm_middle)

theorem goSort_perm (c : FileInfoSum → FileInfoSum → Bool) (l : List FileInfoSum) :
    (goSort c l).Perm l := by
  unfold goSort
  have hp := foldl_bubble_perm c l []
  rw [List.append_nil] at hp
  exact (List.reverse_perm _).trans hp

theorem foldl_bubble_congr (c c' : FileInfoSum → FileInfoSum → Bool) :
    ∀ (l acc : List FileInfoSum),
      (∀ a, (a ∈ l ∨ a ∈ acc) → ∀ b, (b ∈ l ∨ b ∈ acc) → c a b = c' a b) →
      List.foldl (fun a e => bubble c e a) acc l =
        List.foldl (fun a e => bubble c' e a) acc l
  | [], _, _ => rfl
  | e :: t, acc, h => by
    rw [List.foldl_cons, List.foldl_cons]
    rw [bubble_congr c c' e acc
      (fun x hx => h e (Or.inl (List.mem_cons_self e t)) x (Or.inr hx))]
    refine foldl_bubble_congr c c' t (bubble c' e acc) ?_
    intro a ha b hb
    refine h a ?_ b ?_
    · rcases ha with h1 | h2
      · exact Or.inl (List.mem_cons_of_mem e h1)
      · rcases List.mem_cons.mp ((bubble_perm c' e acc).mem_iff.mp h2) with he | hacc
        · rw [he]
          exact Or.inl (List.mem_cons_self e t)
        · exact Or.inr hacc
    · rcases hb with h1 | h2
      · exact Or.inl (List.mem_cons_of_mem e h1)
      · rcases List.mem_cons.mp ((bubble_perm c' e acc).mem_iff.mp h2) with he | hacc
        · rw [he]
          exact Or.inl (List.mem_cons_self e t)
        · exact Or.inr hacc

theorem hasDupNames_eq_false (l : List FileInfoSum) (h : namesDistinct l) :
    hasDupNames l = false := by
  induction l with
  | nil => rfl
  | cons f rest ih =>
    unfold namesDistinct at h
    rw [List.pairwise_cons] at h
    unfold hasDupNames
    rw [ih h.2, Bool.or_false]
    simp only [List.any_eq_false, decide_eq_true_eq]
    intro g hg
    exact fun he => h.1 g hg he.symm

theorem hasDupNames_false_distinct (l : List FileInfoSum) (h : hasDupNames l = false) :
    namesDistinct l := by
  induction l with
  | nil => exact List.Pairwise.nil
  | cons f rest ih =>
    unfold hasDupNames at h
    rw [Bool.or_eq_false_iff] at h
    unfold namesDistinct
    rw [List.pairwise_cons]
    refine ⟨?_, ih h.2⟩
    intro g hg he
    have hb := List.any_eq_false.mp h.1 g hg
    simp only [decide_eq_true_eq] at hb
    exact hb he.symm

theorem namesDistinct_perm (l1 l2 : List FileInfoSum) (hp : l1.Perm l2)
    (h : namesDistinct l1) : namesDistinct l2 :=
  List.Pairwise.perm h hp (fun hab he => hab he.symm)

theorem hasDupNames_perm (l1 l2 : List FileInfoSum) (hp : l1.Perm l2) :
    hasDupNames l1 = hasDupNames l2 := by
  cases h2 : hasDupNames l2 with
  | false =>
    exact hasDupNames_eq_false l1
      (namesDistinct_perm l2 l1 hp.symm (hasDupNames_false_distinct l2 h2))
  | true =>
    cases h1 : hasDupNames l1 with
    | true => rfl
    | false =>
      have hd := hasDupNames_eq_false l2
        (namesDistinct_perm l1 l2 hp (hasDupNames_false_distinct l1 h1))
      rw [h2] at hd
      exact Bool.noConfusion hd

theorem bySumLess_flag_agree (f1 f2 : Bool) (X : List FileInfoSum)
    (hdistinct : f1 = false → namesDistinct X) (hmono : f1 = true → f2 = true) :
    ∀ a ∈ X, ∀ b ∈ X, bySumLess f2 a b = bySumLess f1 a b := by
  intro a ha b hb
  cases f1 with
  | true => rw [hmono rfl]
  | false =>
    cases f2 with
    | false => rfl
    | true =>
      by_cases hn : a.name = b.name
      · have hab : a = b := by
          by_cases he : a = b
          · exact he
          · refine absurd hn (List.Pairwise.forall ?_ (hdistinct rfl) ha hb he)
            intro u w huw
            exact fun hwu => huw hwu.symm
        subst hab
        unfold bySumLess
        rw [if_pos (show (true && decide (a.name = a.name)) = true by
          rw [decide_eq_true rfl]
          rfl)]
        rw [if_neg (show ¬ (false && decide (a.name = a.name)) = true from
          fun hh => Bool.noConfusion hh)]
        rw [decide_eq_false (show ¬ a.pos < a.pos by omega), bytesLt_irrefl]
      · unfold bySumLess
        rw [if_neg (show ¬ (true && decide (a.name = b.name)) = true by
          rw [decide_eq_false hn]; exact fun hh => Bool.noConfusion hh)]
        rw [if_neg (show ¬ (false && decide (a.name = b.name)) = true from
          fun hh => Bool.noConfusion hh)]

theorem sort_sums_merge (X δ : List FileInfoSum) :
    sortBySums (sortBySums X ++ δ) = sortBySums (X ++ δ) := by
  have hflag : hasDupNames
      (goSort (fun a b => bySumLess (hasDupNames X) a b) X ++ δ) =
      hasDupNames (X ++ δ) :=
    hasDupNames_perm _ _
      ((goSort_perm (fun a b => bySumLess (hasDupNames X) a b) X).append_right δ)
  have hagree : ∀ a ∈ X, ∀ b ∈ X,
      bySumLess (hasDupNames (X ++ δ)) a b = bySumLess (hasDupNames X) a b := by
    refine bySumLess_flag_agree _ _ X (fun hf => hasDupNames_false_distinct X hf) ?_
    intro h1t
    cases h2 : hasDupNames (X ++ δ) with
    | true => rfl
    | false =>
      have hd := hasDupNames_eq_false X
        (List.Pairwise.sublist (List.sublist_append_left X δ)
          (hasDupNames_false_distinct _ h2))
      exact Bool.noConfusion (hd.symm.trans h1t)
  have hmemA : ∀ a, a ∈ (List.foldl
      (fun acc e => bubble (fun a b => bySumLess (hasDupNames X) a b) e acc)
      [] X).reverse → a ∈ X := by
    intro a ha
    have h2 := (foldl_bubble_perm (fun a b => bySumLess (hasDupNames X) a b)
      X []).mem_iff.mp (List.mem_reverse.mp ha)
    rw [List.append_nil] at h2
    exact h2
  have hA : accOk (fun a b => bySumLess (hasDupNames X) a b)
      (List.foldl (fun acc e => bubble (fun a b => bySumLess (hasDupNames X) a b) e acc)
        [] X) :=
    foldl_accOk _ (fun a b => bySumLess_asymm _ a b) X [] True.intro
  have h1 := foldl_bubble_congr (fun a b => bySumLess (hasDupNames (X ++ δ)) a b)
    (fun a b => bySumLess (hasDupNames X) a b)
    (List.foldl (fun acc e => bubble (fun a b => bySumLess (hasDupNames X) a b) e acc)
      [] X).reverse []
    (fun a ha b hb => hagree a (hmemA a (ha.resolve_right (List.not_mem_nil a)))
      b (hmemA b (hb.resolve_right (List.not_mem_nil b))))
  have h2 := sortAcc_restore (fun a b => bySumLess (hasDupNames X) a b)
    (List.foldl (fun acc e => bubble (fun a b => bySumLess (hasDupNames X) a b) e acc)
      [] X) hA
  have h3 := foldl_bubble_congr (fun a b => bySumLess (hasDupNames X) a b)
    (fun a b => bySumLess (hasDupNames (X ++ δ)) a b) X []
    (fun a ha b hb => (hagree a (ha.resolve_right (List.not_mem_nil a))
      b (hb.resolve_right (List.not_mem_nil b))).symm)
  unfold sortBySums
  rw [hflag]
  unfold goSort
  rw [List.foldl_append, List.foldl_append]
  rw [h1, h2, h3]

theorem sumBytes_sorted_merge (x y : Digest) (extra : Option Bytes)
    (XL dL : List FileInfoSum)
    (hx : x.sums = sortBySums XL ++ dL) (hy : y.sums = XL ++ dL) :
    x.sumBytes extra = y.sumBytes extra := by
  unfold Digest.sumBytes topInput
  rw [hx, hy, sort_sums_merge XL dL]

/-- C1: for every archive byte stream, every split point (anywhere in the
stream, block-aligned or not), and every checkpoint blob the session
produces at the split, restoring the blob into a fresh session and feeding
the remaining bytes yields the same final aggregate digest as the
uninterrupted run.  The checkpoint serializes the completed entries sorted
in place, but re-running the sort over the sorted prefix is a no-op: the
`bySum.Less` comparison is asymmetric, the insertion sort leaves no
adjacent inversion and is stable, and the duplicate-name flag is invariant
under the reordering, so the final sorted digest list is unchanged. -/
theorem C1_checkpoint_restore (v : Nat) (extra : Option Bytes) (s : Bytes) (k : Nat)
    (blob : List GobVal)
    (hblob : (write1 (initDigest v) (s.take k)).state = some blob) :
    (write1 (((initDigest v).restore blob).1) (s.drop k)).sumBytes extra =
      (write1 (initDigest v) s).sumBytes extra := by
  have hg1 : GoodSt (write1 (initDigest v) (s.take k)) :=
    GoodSt_write1 _ _ (GoodSt_init v)
  have hsel : (write1 (initDigest v) (s.take k)).headerSelector = v := by
    rw [write1_selector]
    rfl
  have hM : wEq (write1 (initDigest v) s)
      (write1 (write1 (initDigest v) (s.take k)) (s.drop k)) := by
    have hmm := write_merge (initDigest v) (s.take k) (s.drop k) (GoodSt_init v)
    rw [List.take_append_drop] at hmm
    exact hmm
  by_cases hfin : (write1 (initDigest v) (s.take k)).digestStage = stageFinished
  · have hres := restore_of_state_fin v (write1 (initDigest v) (s.take k)) blob hfin hblob
    have hres1 : ((initDigest v).restore blob).1 = { initDigest v with
        version := (write1 (initDigest v) (s.take k)).version,
        bytesWritten := (write1 (initDigest v) (s.take k)).bytesWritten,
        fileCounter := (write1 (initDigest v) (s.take k)).fileCounter,
        digestStage := stageFinished,
        sums := sortBySums (write1 (initDigest v) (s.take k)).sums } := by
      rw [hres]
    rw [hres1, write1_finished _ _ rfl]
    have hys : (write1 (initDigest v) s).sums =
        (write1 (initDigest v) (s.take k)).sums := by
      rw [hM.1, write1_finished _ _ hfin]
    refine sumBytes_sorted_merge _ _ extra (write1 (initDigest v) (s.take k)).sums [] ?_ ?_
    · rw [List.append_nil]
    · rw [List.append_nil]
      exact hys
  · have hcur : (write1 (initDigest v) (s.take k)).currentBuffer = [] := by
      rcases hg1.2 with ⟨-, hc, -⟩ | ⟨-, hc⟩ | ⟨-, hc, -⟩ | hs
      · exact hc
      · exact hc
      · exact hc
      · exact absurd hs hfin
    have hres := restore_of_state v (write1 (initDigest v) (s.take k)) blob hsel hfin hcur hblob
    have hres1 : ((initDigest v).restore blob).1 = { write1 (initDigest v) (s.take k) with
        sums := sortBySums (write1 (initDigest v) (s.take k)).sums } := by
      rw [hres]
    rw [hres1]
    have hk1 : stageKnown (write1 (initDigest v) (s.take k)) := GoodSt_stageKnown _ hg1
    have hws := write1_sums (write1 (initDigest v) (s.take k))
      (sortBySums (write1 (initDigest v) (s.take k)).sums) (s.drop k) hk1
    rw [hws.1]
    refine sumBytes_sorted_merge _ _ extra (write1 (initDigest v) (s.take k)).sums
      ((write1 (write1 (initDigest v) (s.take k)) (s.drop k)).sums.drop
        (write1 (initDigest v) (s.take k)).sums.length) rfl ?_
    rw [hM.1]
    exact hws.2

/-- The checkpoint blob a fresh version-0 session produces after an empty
write: version, algorithm, finished flag, byte and entry counters, stage,
current name, padding, header buffer, parser and hash states, and the
(empty) entry list. -/
def blobW : List GobVal :=
  [.vnat 0, .vstr (strB "sha256"), .vbool false, .vnat 0, .vnat 0,
   .vstr stageReadHeader, .vstr [], .vnat 0, .vbytes [], .vbool true,
   .vbytes [], .vbytes [], .vnat 0]

/-- C1 witness: checkpointing a fresh session after an empty prefix of the
empty stream and resuming reproduces the uninterrupted digest. -/
theorem C1_witness :
    (write1 (initDigest 0) (List.take 0 ([] : Bytes))).state = some blobW ∧
      (write1 (((initDigest 0).restore blobW).1) (List.drop 0 ([] : Bytes))).sumBytes none =
        (write1 (initDigest 0) ([] : Bytes)).sumBytes none :=
  ⟨rfl, C1_checkpoint_restore 0 none [] 0 blobW rfl⟩
